import Mathlib

/-!
Verification of the pretty-mermaid ASCII rendering core (grid layout,
A* pathfinding, canvas compositing) against its natural-language
specification.  Each Python function of the core is shallowly embedded as
an executable Lean definition; stateful loops become explicit state
passing with fuel, Python dicts become association lists keyed by the
coordinate (the source keys dicts by the string "x,y", which is an
injective image of the coordinate pair, so keying by the pair itself is
equivalent), and machine integers become `Int`/`Nat`.
-/

set_option maxHeartbeats 1000000

/-! ## Coordinates and directions (ascii/types.py) -/

/-- `GridCoord` from types.py: a cell of the logical placement grid. -/
structure GridCoord where
  x : Int
  y : Int
deriving DecidableEq, Repr

/-- `DrawingCoord` from types.py: a character cell of the canvas. -/
structure DrawingCoord where
  x : Int
  y : Int
deriving DecidableEq, Repr

/-- `Direction` from types.py: an offset into a node's 3x3 block. -/
structure Direction where
  x : Int
  y : Int
deriving DecidableEq, Repr

def Up : Direction := ⟨1, 0⟩
def Down : Direction := ⟨1, 2⟩
def left' : Direction := ⟨0, 1⟩
def right' : Direction := ⟨2, 1⟩
def UpperRight : Direction := ⟨2, 0⟩
def UpperLeft : Direction := ⟨0, 0⟩
def LowerRight : Direction := ⟨2, 2⟩
def LowerLeft : Direction := ⟨0, 2⟩
def Middle : Direction := ⟨1, 1⟩

/-- `grid_coord_equals` from types.py. -/
def grid_coord_equals (a b : GridCoord) : Bool :=
  a.x = b.x ∧ a.y = b.y

/-- `grid_coord_direction` from types.py: add a direction offset. -/
def grid_coord_direction (c : GridCoord) (d : Direction) : GridCoord :=
  ⟨c.x + d.x, c.y + d.y⟩

/-! ## Association lists standing for Python dicts -/

/-- Lookup of the first binding of a key, i.e. `dict.get`. -/
def alist_find {α β : Type} [DecidableEq α] (k : α) : List (α × β) → Option β
  | [] => none
  | (k', v) :: rest => if k' = k then some v else alist_find k rest

/-- Remove every binding of a key. -/
def alist_erase {α β : Type} [DecidableEq α] (k : α) : List (α × β) → List (α × β)
  | [] => []
  | (k', v) :: rest => if k' = k then alist_erase k rest else (k', v) :: alist_erase k rest

/-- `dict[k] = v`: overwrite the binding of `k`. -/
def alist_upsert {α β : Type} [DecidableEq α] (k : α) (v : β) (l : List (α × β)) :
    List (α × β) :=
  (k, v) :: alist_erase k l

/-- The occupancy map `graph.grid : dict[str, AsciiNode]`, with the node
recorded by its index in `graph.nodes`. -/
abbrev Grid : Type := List (GridCoord × Nat)

/-! ## A* heuristic and cell freeness (ascii/pathfinder.py) -/

/-- `heuristic` from pathfinder.py: Manhattan distance plus 1 when both
coordinate differences are non-zero. -/
def heuristic (a b : GridCoord) : Nat :=
  let abs_x := (a.x - b.x).natAbs
  let abs_y := (a.y - b.y).natAbs
  if abs_x = 0 ∨ abs_y = 0 then abs_x + abs_y else abs_x + abs_y + 1

/-- `MOVE_DIRS` from pathfinder.py: 4-directional unit moves. -/
def MOVE_DIRS : List GridCoord :=
  [⟨1, 0⟩, ⟨-1, 0⟩, ⟨0, 1⟩, ⟨0, -1⟩]

/-- `_is_free_in_grid` from pathfinder.py. -/
def is_free_in_grid (grid : Grid) (c : GridCoord) : Bool :=
  if c.x < 0 ∨ c.y < 0 then false
  else (alist_find c grid).isNone

/-! ## The binary min-heap (class MinHeap in pathfinder.py)

The Python heap stores `PQItem(coord, priority)` in a list; priorities are
the integers `new_cost + heuristic(...)` (the `float` field only ever
holds integer values). -/

structure PQItem where
  coord : GridCoord
  priority : Nat
deriving DecidableEq, Repr

instance : Inhabited PQItem := ⟨⟨⟨0, 0⟩, 0⟩⟩

/-- Swap two positions of the backing list (one Python swap statement). -/
def heap_swap (l : List PQItem) (i j : Nat) : List PQItem :=
  let a := l.getD i default
  let b := l.getD j default
  (l.set i b).set j a

/-- The `while i > 0` loop of `MinHeap._bubble_up`.  The first argument
bounds the trip count (the index strictly decreases each iteration, so
the bound `i + 1` passed by `bubble_up` is never reached); structural
recursion on the bound keeps the definition kernel-evaluable. -/
def bubble_up_go : Nat → List PQItem → Nat → List PQItem
  | 0, l, _ => l
  | fuel + 1, l, i =>
    if i = 0 then l
    else if (l.getD i default).priority < (l.getD ((i - 1) / 2) default).priority then
      bubble_up_go fuel (heap_swap l i ((i - 1) / 2)) ((i - 1) / 2)
    else l

/-- `MinHeap._bubble_up`. -/
def bubble_up (l : List PQItem) (i : Nat) : List PQItem :=
  bubble_up_go (i + 1) l i

/-- `MinHeap.push`. -/
def heap_push (l : List PQItem) (item : PQItem) : List PQItem :=
  bubble_up (l ++ [item]) l.length

/-- `smallest` after the left-child comparison in `MinHeap._sink_down`. -/
def sink_s1 (l : List PQItem) (i : Nat) : Nat :=
  if 2 * i + 1 < l.length ∧
      (l.getD (2 * i + 1) default).priority < (l.getD i default).priority
  then 2 * i + 1 else i

/-- `smallest` after both child comparisons in `MinHeap._sink_down`. -/
def sink_target (l : List PQItem) (i : Nat) : Nat :=
  if 2 * i + 2 < l.length ∧
      (l.getD (2 * i + 2) default).priority < (l.getD (sink_s1 l i) default).priority
  then 2 * i + 2 else sink_s1 l i

/-- The `while True` loop of `MinHeap._sink_down`.  The first argument
bounds the trip count (`smallest` strictly increases below the list
length each iteration, so the bound `l.length` passed by `sink_down` is
never reached); structural recursion on the bound keeps the definition
kernel-evaluable. -/
def sink_down_go : Nat → List PQItem → Nat → List PQItem
  | 0, l, _ => l
  | fuel + 1, l, i =>
    if sink_target l i = i then l
    else sink_down_go fuel (heap_swap l i (sink_target l i)) (sink_target l i)

/-- `MinHeap._sink_down`. -/
def sink_down (l : List PQItem) (i : Nat) : List PQItem :=
  sink_down_go l.length l i

/-- `MinHeap.pop`: the returned item and the remaining heap. -/
def heap_pop : List PQItem → Option (PQItem × List PQItem)
  | [] => none
  | [x] => some (x, [])
  | top :: snd :: rest =>
    let tail := snd :: rest
    some (top, sink_down (tail.getLast (by simp) :: (top :: tail).dropLast.tail) 0)

/-! ## A* search state and loop (get_path in pathfinder.py) -/

/-- The mutable state of `get_path`'s loop: the open-set heap,
`cost_so_far` and `came_from`. -/
structure AStarState where
  pq : List PQItem
  cost : List (GridCoord × Nat)
  came : List (GridCoord × Option GridCoord)
deriving Repr

/-- Result of running the fueled loop: `out` when the fuel is exhausted
(standing for non-termination of the Python loop), `crash` for a Python
`KeyError` on `cost_so_far`, `res` for an actual return value. -/
inductive RunRes where
  | out : RunRes
  | crash : RunRes
  | res : Option (List GridCoord) → RunRes
deriving DecidableEq, Repr

/-- Path reconstruction: the `while c is not None` walk through
`came_from`, fueled (a cyclic pointer chain would loop forever in the
source; the fuel `came.length + 1` suffices for any acyclic chain, and on
a cyclic one the walk gives up, reported as non-termination). -/
def walk_back (came : List (GridCoord × Option GridCoord)) :
    Nat → GridCoord → List GridCoord → Option (List GridCoord)
  | 0, _, _ => none
  | fuel + 1, c, acc =>
    let acc' := c :: acc
    match alist_find c came with
    | none => some acc'
    | some none => some acc'
    | some (some parent) => walk_back came fuel parent acc'

/-- The body of the inner `for move_dir in MOVE_DIRS` loop of `get_path`:
processing of one candidate neighbour. -/
def expand_step (grid : Grid) (to_coord current_coord : GridCoord) (current_cost : Nat)
    (s : AStarState) (move_dir : GridCoord) : AStarState :=
  let next : GridCoord := ⟨current_coord.x + move_dir.x, current_coord.y + move_dir.y⟩
  if ¬ is_free_in_grid grid next ∧ ¬ grid_coord_equals next to_coord then s
  else
    let new_cost := current_cost + 1
    let keep :=
      match alist_find next s.cost with
      | none => true
      | some existing => decide (new_cost < existing)
    if keep then
      { pq := heap_push s.pq ⟨next, new_cost + heuristic next to_coord⟩
        cost := alist_upsert next new_cost s.cost
        came := alist_upsert next (some current_coord) s.came }
    else s

/-- Expansion of one popped coordinate over the four `MOVE_DIRS`
(the inner `for move_dir in MOVE_DIRS` loop of `get_path`). -/
def expand (grid : Grid) (to_coord current_coord : GridCoord) (current_cost : Nat)
    (st : AStarState) : AStarState :=
  MOVE_DIRS.foldl (expand_step grid to_coord current_coord current_cost) st

/-- The `while pq.length > 0` loop of `get_path`, fueled. -/
def get_path_loop (grid : Grid) (to_coord : GridCoord) :
    Nat → AStarState → RunRes
  | 0, st => if st.pq.isEmpty then .res none else .out
  | fuel + 1, st =>
    match heap_pop st.pq with
    | none => .res none
    | some (current, rest) =>
      if grid_coord_equals current.coord to_coord then
        match walk_back st.came (st.came.length + 1) current.coord [] with
        | some path => .res (some path)
        | none => .out
      else
        match alist_find current.coord st.cost with
        | none => .crash
        | some current_cost =>
          get_path_loop grid to_coord fuel
            (expand grid to_coord current.coord current_cost { st with pq := rest })

/-- The initial state built at the top of `get_path`. -/
def get_path_init (from_coord : GridCoord) : AStarState :=
  { pq := heap_push [] ⟨from_coord, 0⟩
    cost := alist_upsert from_coord 0 []
    came := alist_upsert from_coord none [] }

/-- `get_path` from pathfinder.py, fueled. -/
def get_path (fuel : Nat) (grid : Grid) (from_coord to_coord : GridCoord) : RunRes :=
  get_path_loop grid to_coord fuel (get_path_init from_coord)

/-! ## Path simplification (merge_path in pathfinder.py)

The source computes a removal set in one pass over all consecutive index
triples of the original list (`to_remove`), then filters: index `j` is
dropped iff `0 < j < len - 1` and `p[j+1] - p[j] = p[j] - p[j-1]`.  The
recursion below walks the same consecutive original triples and keeps
exactly the non-dropped points. -/

def merge_aux (step0 step1 : GridCoord) : List GridCoord → List GridCoord
  | [] => [step1]
  | step2 :: rest =>
    if step1.x - step0.x = step2.x - step1.x ∧ step1.y - step0.y = step2.y - step1.y then
      merge_aux step1 step2 rest
    else
      step1 :: merge_aux step1 step2 rest

/-- `merge_path` from pathfinder.py. -/
def merge_path : List GridCoord → List GridCoord
  | p0 :: p1 :: p2 :: rest => p0 :: merge_aux p0 p1 (p2 :: rest)
  | p => p

/-! ## Junction glyph merging (ascii/canvas.py) -/

/-- `_JUNCTION_CHARS` from canvas.py. -/
def JUNCTION_CHARS : List Char :=
  ['─', '│', '┌', '┐', '└', '┘', '├', '┤', '┬', '┴', '╴', '╵', '╶', '╷']

/-- `is_junction_char` from canvas.py. -/
def is_junction_char (c : Char) : Bool :=
  decide (c ∈ JUNCTION_CHARS)

/-- `_JUNCTION_MAP` from canvas.py: dict of dicts, transcribed row by row. -/
def JUNCTION_MAP : List (Char × List (Char × Char)) :=
  [ ('─', [('│','┼'), ('┌','┬'), ('┐','┬'), ('└','┴'), ('┘','┴'), ('├','┼'), ('┤','┼'), ('┬','┬'), ('┴','┴')]),
    ('│', [('─','┼'), ('┌','├'), ('┐','┤'), ('└','├'), ('┘','┤'), ('├','├'), ('┤','┤'), ('┬','┼'), ('┴','┼')]),
    ('┌', [('─','┬'), ('│','├'), ('┐','┬'), ('└','├'), ('┘','┼'), ('├','├'), ('┤','┼'), ('┬','┬'), ('┴','┼')]),
    ('┐', [('─','┬'), ('│','┤'), ('┌','┬'), ('└','┼'), ('┘','┤'), ('├','┼'), ('┤','┤'), ('┬','┬'), ('┴','┼')]),
    ('└', [('─','┴'), ('│','├'), ('┌','├'), ('┐','┼'), ('┘','┴'), ('├','├'), ('┤','┼'), ('┬','┼'), ('┴','┴')]),
    ('┘', [('─','┴'), ('│','┤'), ('┌','┼'), ('┐','┤'), ('└','┴'), ('├','┼'), ('┤','┤'), ('┬','┼'), ('┴','┴')]),
    ('├', [('─','┼'), ('│','├'), ('┌','├'), ('┐','┼'), ('└','├'), ('┘','┼'), ('┤','┼'), ('┬','┼'), ('┴','┼')]),
    ('┤', [('─','┼'), ('│','┤'), ('┌','┼'), ('┐','┤'), ('└','┼'), ('┘','┤'), ('├','┼'), ('┬','┼'), ('┴','┼')]),
    ('┬', [('─','┬'), ('│','┼'), ('┌','┬'), ('┐','┬'), ('└','┼'), ('┘','┼'), ('├','┼'), ('┤','┼'), ('┴','┼')]),
    ('┴', [('─','┴'), ('│','┼'), ('┌','┼'), ('┐','┼'), ('└','┴'), ('┘','┴'), ('├','┼'), ('┤','┼'), ('┬','┼')]) ]

/-- `merge_junctions` from canvas.py: table lookup, falling back to the
first character when either lookup misses. -/
def merge_junctions (c1 c2 : Char) : Char :=
  match alist_find c1 JUNCTION_MAP with
  | none => c1
  | some row =>
    match alist_find c2 row with
    | none => c1
    | some merged => merged

/-- The ten glyphs that actually key `_JUNCTION_MAP` (the junction set
minus the four half-line characters). -/
def MAPPED_JUNCTION_CHARS : List Char :=
  ['─', '│', '┌', '┐', '└', '┘', '├', '┤', '┬', '┴']

/-! ## Canvas (ascii/canvas.py)

The canvas is column-major: `canvas[x][y]`.  Cells hold single
characters, modelled as `Char`.  Python raises `IndexError` on
out-of-range indices (and wraps negative ones); the renderer only reads
and writes in bounds, and the embedded reads/writes use defaults
(`getD ' '` / `List.set`, a no-op out of range) at those always-in-bounds
spots. -/

abbrev Canvas : Type := List (List Char)

/-- `mk_canvas` from canvas.py: dimensions are inclusive upper bounds. -/
def mk_canvas (x y : Int) : Canvas :=
  List.replicate (x + 1).toNat (List.replicate (y + 1).toNat ' ')

/-- `get_canvas_size` from canvas.py. -/
def get_canvas_size (canvas : Canvas) : Int × Int :=
  ((canvas.length : Int) - 1,
    (match canvas.head? with
     | some col => (col.length : Int)
     | none => 1) - 1)

/-- `copy_canvas` from canvas.py: blank canvas of the same size. -/
def copy_canvas (source : Canvas) : Canvas :=
  mk_canvas (get_canvas_size source).1 (get_canvas_size source).2

/-- Read `canvas[x][y]`. -/
def canvas_get (canvas : Canvas) (x y : Nat) : Char :=
  (canvas.getD x []).getD y ' '

/-- Write `canvas[x][y] = ch`. -/
def canvas_set (canvas : Canvas) (x y : Nat) (ch : Char) : Canvas :=
  canvas.set x ((canvas.getD x []).set y ch)

/-- `increase_size` from canvas.py: grow preserving content (the
write-back loop of the source copies each in-bounds cell of the old
canvas into the fresh one, i.e. the fresh canvas is pointwise the old
content where defined and blank elsewhere). -/
def increase_size (canvas : Canvas) (new_x new_y : Int) : Canvas :=
  (List.range (max new_x (get_canvas_size canvas).1 + 1).toNat).map (fun x =>
    (List.range (max new_y (get_canvas_size canvas).2 + 1).toNat).map (fun y =>
      if x < canvas.length ∧ y < (canvas.headD []).length then canvas_get canvas x y
      else ' '))

/-- `draw_text` from canvas.py. -/
def draw_text (canvas : Canvas) (start : DrawingCoord) (text : List Char) : Canvas :=
  (List.range text.length).foldl (fun c (i : Nat) =>
      canvas_set c (start.x + (i : Int)).toNat start.y.toNat (text.getD i ' '))
    (increase_size canvas (start.x + text.length) start.y)

/-- `merge_canvases` from canvas.py: size the result, copy the base
(pointwise, as in `increase_size`), then apply each overlay cell in loop
order. -/
def merge_canvases (base : Canvas) (offset : DrawingCoord) (use_ascii : Bool)
    (overlays : List Canvas) : Canvas :=
  let max_x := overlays.foldl (fun m o => max m ((get_canvas_size o).1 + offset.x))
    (get_canvas_size base).1
  let max_y := overlays.foldl (fun m o => max m ((get_canvas_size o).2 + offset.y))
    (get_canvas_size base).2
  let merged : Canvas := (List.range (max_x + 1).toNat).map (fun x =>
    (List.range (max_y + 1).toNat).map (fun y =>
      if x < base.length ∧ y < (base.headD []).length then canvas_get base x y
      else ' '))
  overlays.foldl (fun acc overlay =>
    (List.range overlay.length).foldl (fun acc2 x =>
      (List.range (overlay.headD []).length).foldl (fun acc3 y =>
        let c := canvas_get overlay x y
        if c ≠ ' ' then
          let mx := ((x : Int) + offset.x).toNat
          let my := ((y : Int) + offset.y).toNat
          let current := canvas_get acc3 mx my
          if ¬ use_ascii ∧ is_junction_char c ∧ is_junction_char current then
            canvas_set acc3 mx my (merge_junctions current c)
          else
            canvas_set acc3 mx my c
        else acc3) acc2) acc) merged

/-- Python's `"\n".join(lines)`. -/
def join_lines (lines : List String) : String :=
  match lines with
  | [] => ""
  | first :: rest => rest.foldl (fun acc line => acc ++ "\n" ++ line) first

/-- `canvas_to_string` from canvas.py: build each row string left to
right, then join the rows with a newline. -/
def canvas_to_string (canvas : Canvas) : String :=
  join_lines
    ((List.range ((get_canvas_size canvas).2 + 1).toNat).map (fun y =>
      String.mk ((List.range ((get_canvas_size canvas).1 + 1).toNat).map (fun x =>
        canvas_get canvas x y))))

/-! ## Direction utilities (ascii/edge_routing.py) -/

instance : Inhabited Direction := ⟨⟨0, 0⟩⟩

/-- `get_opposite` from edge_routing.py. -/
def get_opposite (d : Direction) : Direction :=
  if d = Up then Down
  else if d = Down then Up
  else if d = left' then right'
  else if d = right' then left'
  else if d = UpperRight then LowerLeft
  else if d = UpperLeft then LowerRight
  else if d = LowerRight then UpperLeft
  else if d = LowerLeft then UpperRight
  else Middle

/-- `dir_equals` from edge_routing.py. -/
def dir_equals (a b : Direction) : Bool :=
  a.x = b.x ∧ a.y = b.y

/-- `determine_direction` from edge_routing.py (duck-typed over anything
with `.x`/`.y`; embedded over the raw integer components). -/
def determine_direction (fx fy tx ty : Int) : Direction :=
  if fx = tx then (if fy < ty then Down else Up)
  else if fy = ty then (if fx < tx then right' else left')
  else if fx < tx then (if fy < ty then LowerRight else UpperRight)
  else (if fy < ty then LowerLeft else UpperLeft)

def determine_direction_g (a b : GridCoord) : Direction :=
  determine_direction a.x a.y b.x b.y

def determine_direction_d (a b : DrawingCoord) : Direction :=
  determine_direction a.x a.y b.x b.y

/-- The graph direction strings `"LR"` / `"TD"`. -/
inductive GraphDirection where
  | LR : GraphDirection
  | TD : GraphDirection
deriving DecidableEq, Repr

/-- `_self_reference_direction` from edge_routing.py. -/
def self_reference_direction (graph_direction : GraphDirection) :
    Direction × Direction × Direction × Direction :=
  match graph_direction with
  | .LR => (right', Down, Down, right')
  | .TD => (Down, right', right', Down)

/-- `determine_start_and_end_dir` from edge_routing.py.  The self-loop
test `edge.from_node is edge.to_node` is the flag `is_self`; the two
grid coordinates are the nodes' placed block positions. -/
def determine_start_and_end_dir (is_self : Bool) (from_gc to_gc : GridCoord)
    (graph_direction : GraphDirection) :
    Direction × Direction × Direction × Direction :=
  if is_self then self_reference_direction graph_direction
  else
    let d := determine_direction_g from_gc to_gc
    let is_backwards :=
      match graph_direction with
      | .LR => dir_equals d left' || dir_equals d UpperLeft || dir_equals d LowerLeft
      | .TD => dir_equals d Up || dir_equals d UpperLeft || dir_equals d UpperRight
    if dir_equals d LowerRight then
      match graph_direction with
      | .LR => (Down, left', right', Up)
      | .TD => (right', Up, Down, left')
    else if dir_equals d UpperRight then
      match graph_direction with
      | .LR => (Up, left', right', Down)
      | .TD => (right', Down, Up, left')
    else if dir_equals d LowerLeft then
      match graph_direction with
      | .LR => (Down, Down, left', Up)
      | .TD => (left', Up, Down, right')
    else if dir_equals d UpperLeft then
      match graph_direction with
      | .LR => (Down, Down, left', Down)
      | .TD => (right', right', Up, right')
    else if is_backwards then
      if graph_direction = .LR ∧ dir_equals d left' then
        (Down, Down, left', right')
      else if graph_direction = .TD ∧ dir_equals d Up then
        (right', right', Up, Down)
      else
        (d, get_opposite d, d, get_opposite d)
    else
      (d, get_opposite d, d, get_opposite d)

/-! ## Edge path determination (determine_path in edge_routing.py) -/

/-- Result of the fueled `determine_path`: the computed
`(path, start_dir, end_dir)` triple, or fuel exhaustion / `KeyError`
propagated from `get_path`. -/
inductive DPRes where
  | out : DPRes
  | crash : DPRes
  | res : List GridCoord → Direction → Direction → DPRes
deriving DecidableEq, Repr

/-- `determine_path` from edge_routing.py.  Instead of mutating the edge
it returns the assigned `(edge.path, edge.start_dir, edge.end_dir)`. -/
def determine_path (fuel : Nat) (grid : Grid) (graph_direction : GraphDirection)
    (is_self : Bool) (from_gc to_gc : GridCoord) : DPRes :=
  let dirs := determine_start_and_end_dir is_self from_gc to_gc graph_direction
  let preferred_dir := dirs.1
  let preferred_opposite_dir := dirs.2.1
  let alternative_dir := dirs.2.2.1
  let alternative_opposite_dir := dirs.2.2.2
  match get_path fuel grid (grid_coord_direction from_gc preferred_dir)
      (grid_coord_direction to_gc preferred_opposite_dir) with
  | .out => .out
  | .crash => .crash
  | .res none => .res [] alternative_dir alternative_opposite_dir
  | .res (some preferred_path) =>
    let preferred_path := merge_path preferred_path
    match get_path fuel grid (grid_coord_direction from_gc alternative_dir)
        (grid_coord_direction to_gc alternative_opposite_dir) with
    | .out => .out
    | .crash => .crash
    | .res none => .res preferred_path preferred_dir preferred_opposite_dir
    | .res (some alternative_path) =>
      let alternative_path := merge_path alternative_path
      if preferred_path.length ≤ alternative_path.length then
        .res preferred_path preferred_dir preferred_opposite_dir
      else
        .res alternative_path alternative_dir alternative_opposite_dir

/-! ## Graph state consumed by the drawing layer (ascii/types.py)

Only the fields of `AsciiGraph` / `AsciiEdge` that the embedded
functions read. -/

structure AGraph where
  grid : Grid
  column_width : List (Int × Nat)
  row_height : List (Int × Nat)
  canvas : Canvas
  use_ascii : Bool
  graph_direction : GraphDirection
  offset_x : Int
  offset_y : Int

structure AEdge where
  text : List Char
  path : List GridCoord
  label_line : List GridCoord

/-! ## Grid to drawing coordinates (ascii/grid.py) -/

/-- `grid_to_drawing_coord` from grid.py (the optional direction
argument, unused by the embedded callers, is omitted). -/
def grid_to_drawing_coord (graph : AGraph) (c : GridCoord) : DrawingCoord :=
  let x := (List.range c.x.toNat).foldl
    (fun a (col : Nat) => a + (alist_find ((col : Int)) graph.column_width).getD 0) 0
  let y := (List.range c.y.toNat).foldl
    (fun a (row : Nat) => a + (alist_find ((row : Int)) graph.row_height).getD 0) 0
  let col_w := (alist_find c.x graph.column_width).getD 0
  let row_h := (alist_find c.y graph.row_height).getD 0
  ⟨(x : Int) + (col_w / 2 : Nat) + graph.offset_x,
   (y : Int) + (row_h / 2 : Nat) + graph.offset_y⟩

/-- `line_to_drawing` from grid.py. -/
def line_to_drawing (graph : AGraph) (line : List GridCoord) : List DrawingCoord :=
  line.map (grid_to_drawing_coord graph)

/-! ## Line and arrow drawing (ascii/draw.py) -/

/-- Descending integer interval `[start, start-1, ..., stop]`
(the `while y >= stop: ... y -= 1` loops). -/
def int_range_desc (start stop : Int) : List Int :=
  (List.range (start - stop + 1).toNat).map (fun k => start - (k : Int))

/-- Ascending integer interval `[start, start+1, ..., stop]`. -/
def int_range_asc (start stop : Int) : List Int :=
  (List.range (stop - start + 1).toNat).map (fun k => start + (k : Int))

/-- Write one character at every coordinate of a list. -/
def draw_cells (canvas : Canvas) (coords : List DrawingCoord) (ch : Char) : Canvas :=
  coords.foldl (fun c p => canvas_set c p.x.toNat p.y.toNat ch) canvas

/-- `draw_line` from draw.py: the eight `while` loops become explicit
coordinate lists (for the diagonals the two loop conditions bound the
iteration count by the smaller side). Returns the canvas and
`drawn_coords`. -/
def draw_line (canvas : Canvas) (from_coord to_coord : DrawingCoord)
    (offset_from offset_to : Int) (use_ascii : Bool) : Canvas × List DrawingCoord :=
  let direction := determine_direction_d from_coord to_coord
  let h_char := if use_ascii then '-' else '─'
  let v_char := if use_ascii then '|' else '│'
  let bslash := if use_ascii then '\\' else '╲'
  let fslash := if use_ascii then '/' else '╱'
  if dir_equals direction Up then
    let coords := (int_range_desc (from_coord.y - offset_from) (to_coord.y - offset_to)).map
      (fun y => (⟨from_coord.x, y⟩ : DrawingCoord))
    (draw_cells canvas coords v_char, coords)
  else if dir_equals direction Down then
    let coords := (int_range_asc (from_coord.y + offset_from) (to_coord.y + offset_to)).map
      (fun y => (⟨from_coord.x, y⟩ : DrawingCoord))
    (draw_cells canvas coords v_char, coords)
  else if dir_equals direction left' then
    let coords := (int_range_desc (from_coord.x - offset_from) (to_coord.x - offset_to)).map
      (fun x => (⟨x, from_coord.y⟩ : DrawingCoord))
    (draw_cells canvas coords h_char, coords)
  else if dir_equals direction right' then
    let coords := (int_range_asc (from_coord.x + offset_from) (to_coord.x + offset_to)).map
      (fun x => (⟨x, from_coord.y⟩ : DrawingCoord))
    (draw_cells canvas coords h_char, coords)
  else if dir_equals direction UpperLeft then
    let n := min (from_coord.x - (to_coord.x - offset_to) + 1).toNat
      ((from_coord.y - offset_from) - (to_coord.y - offset_to) + 1).toNat
    let coords := (List.range n).map (fun k =>
      (⟨from_coord.x - (k : Int), from_coord.y - offset_from - (k : Int)⟩ : DrawingCoord))
    (draw_cells canvas coords bslash, coords)
  else if dir_equals direction UpperRight then
    let n := min (to_coord.x + offset_to - from_coord.x + 1).toNat
      ((from_coord.y - offset_from) - (to_coord.y - offset_to) + 1).toNat
    let coords := (List.range n).map (fun k =>
      (⟨from_coord.x + (k : Int), from_coord.y - offset_from - (k : Int)⟩ : DrawingCoord))
    (draw_cells canvas coords fslash, coords)
  else if dir_equals direction LowerLeft then
    let n := min (from_coord.x - (to_coord.x - offset_to) + 1).toNat
      ((to_coord.y + offset_to) - (from_coord.y + offset_from) + 1).toNat
    let coords := (List.range n).map (fun k =>
      (⟨from_coord.x - (k : Int), from_coord.y + offset_from + (k : Int)⟩ : DrawingCoord))
    (draw_cells canvas coords fslash, coords)
  else if dir_equals direction LowerRight then
    let n := min ((to_coord.x + offset_to) - from_coord.x + 1).toNat
      ((to_coord.y + offset_to) - (from_coord.y + offset_from) + 1).toNat
    let coords := (List.range n).map (fun k =>
      (⟨from_coord.x + (k : Int), from_coord.y + offset_from + (k : Int)⟩ : DrawingCoord))
    (draw_cells canvas coords bslash, coords)
  else
    (canvas, [])

/-- The loop body of `_draw_path` over consecutive path points. -/
def draw_path_aux (g : AGraph) (canvas : Canvas) (previous : GridCoord) :
    List GridCoord → Canvas × List (List DrawingCoord) × List Direction
  | [] => (canvas, [], [])
  | next :: rest =>
    let prev_dc := grid_to_drawing_coord g previous
    let next_dc := grid_to_drawing_coord g next
    if prev_dc = next_dc then draw_path_aux g canvas next rest
    else
      let direction := determine_direction_g previous next
      let r := draw_line canvas prev_dc next_dc 1 (-1) g.use_ascii
      let segment := if r.2.isEmpty then [prev_dc] else r.2
      let rest_res := draw_path_aux g r.1 next rest
      (rest_res.1, segment :: rest_res.2.1, direction :: rest_res.2.2)

/-- `_draw_path` from draw.py (only ever called on a non-empty path in
the source; on `[]`, where Python would raise on `path[0]`, the embedding
returns no segments). -/
def draw_path (g : AGraph) : List GridCoord → Canvas × List (List DrawingCoord) × List Direction
  | [] => (copy_canvas g.canvas, [], [])
  | p0 :: rest => draw_path_aux g (copy_canvas g.canvas) p0 rest

/-- `_draw_box_start` from draw.py (list reads that would raise on
an empty list in Python use an inert default instead; the source only
reaches them with non-empty arguments). -/
def draw_box_start (g : AGraph) (path : List GridCoord)
    (first_line : List DrawingCoord) : Canvas :=
  let canvas := copy_canvas g.canvas
  if g.use_ascii then canvas
  else
    let from_coord := first_line.getD 0 ⟨0, 0⟩
    let direction := determine_direction_g (path.getD 0 ⟨0, 0⟩) (path.getD 1 ⟨0, 0⟩)
    if dir_equals direction Up then
      canvas_set canvas from_coord.x.toNat (from_coord.y + 1).toNat '┴'
    else if dir_equals direction Down then
      canvas_set canvas from_coord.x.toNat (from_coord.y - 1).toNat '┬'
    else if dir_equals direction left' then
      canvas_set canvas (from_coord.x + 1).toNat from_coord.y.toNat '┤'
    else if dir_equals direction right' then
      canvas_set canvas (from_coord.x - 1).toNat from_coord.y.toNat '├'
    else canvas

/-- `_unicode_arrow_char` from draw.py. -/
def unicode_arrow_char (direction fallback_dir : Direction) : Char :=
  if dir_equals direction Up then '▲'
  else if dir_equals direction Down then '▼'
  else if dir_equals direction left' then '◄'
  else if dir_equals direction right' then '►'
  else if dir_equals direction UpperRight then '◥'
  else if dir_equals direction UpperLeft then '◤'
  else if dir_equals direction LowerRight then '◢'
  else if dir_equals direction LowerLeft then '◣'
  else if dir_equals fallback_dir Up then '▲'
  else if dir_equals fallback_dir Down then '▼'
  else if dir_equals fallback_dir left' then '◄'
  else if dir_equals fallback_dir right' then '►'
  else if dir_equals fallback_dir UpperRight then '◥'
  else if dir_equals fallback_dir UpperLeft then '◤'
  else if dir_equals fallback_dir LowerRight then '◢'
  else if dir_equals fallback_dir LowerLeft then '◣'
  else '●'

/-- `_ascii_arrow_char` from draw.py. -/
def ascii_arrow_char (direction fallback_dir : Direction) : Char :=
  if dir_equals direction Up then '^'
  else if dir_equals direction Down then 'v'
  else if dir_equals direction left' then '<'
  else if dir_equals direction right' then '>'
  else if dir_equals fallback_dir Up then '^'
  else if dir_equals fallback_dir Down then 'v'
  else if dir_equals fallback_dir left' then '<'
  else if dir_equals fallback_dir right' then '>'
  else '*'

/-- `_draw_arrow_head` from draw.py. -/
def draw_arrow_head (g : AGraph) (last_line : List DrawingCoord)
    (fallback_dir : Direction) : Canvas :=
  let canvas := copy_canvas g.canvas
  if last_line.isEmpty then canvas
  else
    let from_coord := last_line.getD 0 ⟨0, 0⟩
    let last_pos := last_line.getD (last_line.length - 1) ⟨0, 0⟩
    let direction := determine_direction_d from_coord last_pos
    let direction :=
      if last_line.length = 1 ∨ dir_equals direction Middle then fallback_dir
      else direction
    let ch :=
      if ¬ g.use_ascii then unicode_arrow_char direction fallback_dir
      else ascii_arrow_char direction fallback_dir
    canvas_set canvas last_pos.x.toNat last_pos.y.toNat ch

/-- The loop of `_draw_corners` over interior path points. -/
def draw_corners_aux (g : AGraph) (canvas : Canvas) :
    List GridCoord → Canvas
  | a :: b :: c :: rest =>
    let dc := grid_to_drawing_coord g b
    let prev_dir := determine_direction_g a b
    let next_dir := determine_direction_g b c
    let corner :=
      if ¬ g.use_ascii then
        if (dir_equals prev_dir right' ∧ dir_equals next_dir Down) ∨
            (dir_equals prev_dir Up ∧ dir_equals next_dir left') then '┐'
        else if (dir_equals prev_dir right' ∧ dir_equals next_dir Up) ∨
            (dir_equals prev_dir Down ∧ dir_equals next_dir left') then '┘'
        else if (dir_equals prev_dir left' ∧ dir_equals next_dir Down) ∨
            (dir_equals prev_dir Up ∧ dir_equals next_dir right') then '┌'
        else if (dir_equals prev_dir left' ∧ dir_equals next_dir Up) ∨
            (dir_equals prev_dir Down ∧ dir_equals next_dir right') then '└'
        else '+'
      else '+'
    draw_corners_aux g (canvas_set canvas dc.x.toNat dc.y.toNat corner) (b :: c :: rest)
  | _ => canvas

/-- `_draw_corners` from draw.py. -/
def draw_corners (g : AGraph) (path : List GridCoord) : Canvas :=
  draw_corners_aux g (copy_canvas g.canvas) path

/-- `_draw_text_on_line` from draw.py. -/
def draw_text_on_line (canvas : Canvas) (line : List DrawingCoord)
    (label : List Char) : Canvas :=
  if line.length < 2 then canvas
  else
    let a := line.getD 0 ⟨0, 0⟩
    let b := line.getD 1 ⟨0, 0⟩
    let min_x := min a.x b.x
    let max_x := max a.x b.x
    let min_y := min a.y b.y
    let max_y := max a.y b.y
    let middle_x := min_x + (max_x - min_x) / 2
    let middle_y := min_y + (max_y - min_y) / 2
    let start_x := middle_x - ((label.length / 2 : Nat) : Int)
    draw_text canvas ⟨start_x, middle_y⟩ label

/-- `_draw_arrow_label` from draw.py. -/
def draw_arrow_label (g : AGraph) (edge : AEdge) : Canvas :=
  let canvas := copy_canvas g.canvas
  if edge.text.length = 0 then canvas
  else
    draw_text_on_line canvas (line_to_drawing g edge.label_line) edge.text

/-- `draw_arrow` from draw.py: the five layer canvases
`(path, box_start, arrow_head, corners, label)`. -/
def draw_arrow (g : AGraph) (edge : AEdge) :
    Canvas × Canvas × Canvas × Canvas × Canvas :=
  if edge.path.length = 0 then
    let empty := copy_canvas g.canvas
    (empty, empty, empty, empty, empty)
  else
    let label_canvas := draw_arrow_label g edge
    let dp := draw_path g edge.path
    let path_canvas := dp.1
    let lines_drawn := dp.2.1
    let line_dirs := dp.2.2
    let box_start_canvas := draw_box_start g edge.path (lines_drawn.getD 0 [])
    let arrow_head_canvas := draw_arrow_head g
      (lines_drawn.getD (lines_drawn.length - 1) [])
      (line_dirs.getD (line_dirs.length - 1) ⟨0, 0⟩)
    let corners_canvas := draw_corners g edge.path
    (path_canvas, box_start_canvas, arrow_head_canvas, corners_canvas, label_canvas)

/-! ## Node placement (ascii/grid.py)

The placement phase of `create_mapping` (root detection, the three
placement loops, `reserve_spot_in_grid`).  Nodes are referred to by their
index in `graph.nodes` (node names are distinct, and `node.index` is the
node's position in that list).  `highest_position_per_level` is the
100-entry list of the source; an index at or beyond its end is a Python
`IndexError`, modelled as `none`. -/

structure PGraph where
  num_nodes : Nat
  edges : List (Nat × Nat)
  subgraphs : List (List Nat)
  graph_direction : GraphDirection

/-- `_get_children` from grid.py (`_get_edges_from_node` then the target
of each edge). -/
def get_children (g : PGraph) (i : Nat) : List Nat :=
  (g.edges.filter (fun e => decide (e.1 = i))).map (fun e => e.2)

/-- The root-detection loop at the top of `create_mapping`. -/
def find_roots (g : PGraph) : List Nat :=
  ((List.range g.num_nodes).foldl (fun (st : List Nat × List Nat) i =>
    let roots' := if i ∈ st.1 then st.2 else st.2 ++ [i]
    (st.1 ++ [i] ++ get_children g i, roots')) ([], [])).2

/-- `_is_node_in_any_subgraph` from grid.py. -/
def is_node_in_any_subgraph (g : PGraph) (i : Nat) : Bool :=
  g.subgraphs.any (fun sg => decide (i ∈ sg))

structure PlaceState where
  grid : Grid
  coords : List (Option GridCoord)
  levels : List Nat

/-- `highest_position_per_level[i]` (all reads in the source use a
non-negative index; out of range is an `IndexError`). -/
def level_get (levels : List Nat) (i : Int) : Option Nat :=
  if 0 ≤ i ∧ i.toNat < levels.length then some (levels.getD i.toNat 0) else none

/-- `highest_position_per_level[i] = v`. -/
def level_set (levels : List Nat) (i : Int) (v : Nat) : Option (List Nat) :=
  if 0 ≤ i ∧ i.toNat < levels.length then some (levels.set i.toNat v) else none

/-- `reserve_spot_in_grid` from grid.py, fueled (the source recursion
shifts by 4 until a free top-left cell is found). -/
def reserve_spot_in_grid : Nat → GraphDirection → Grid → Nat → GridCoord →
    Option (Grid × GridCoord)
  | 0, _, _, _, _ => none
  | fuel + 1, graph_direction, grid, node, requested =>
    if (alist_find requested grid).isSome then
      match graph_direction with
      | .LR => reserve_spot_in_grid fuel graph_direction grid node
          ⟨requested.x, requested.y + 4⟩
      | .TD => reserve_spot_in_grid fuel graph_direction grid node
          ⟨requested.x + 4, requested.y⟩
    else
      some ((List.range 3).foldl (fun g2 (dx : Nat) =>
        (List.range 3).foldl (fun g3 (dy : Nat) =>
          alist_upsert ⟨requested.x + (dx : Int), requested.y + (dy : Int)⟩ node g3) g2) grid,
        requested)

/-- One root placement (the body of both root-placement loops of
`create_mapping`): read the level cursor, request the spot, reserve,
advance the cursor.  `lvl` is the level index (0 for external roots, 4
for separated subgraph roots) and also the fixed coordinate of the
request along the flow axis. -/
def place_root_step (reserve_fuel : Nat) (g : PGraph) (lvl : Int)
    (st : PlaceState) (node : Nat) : Option PlaceState := do
  let hp ← level_get st.levels lvl
  let requested : GridCoord := match g.graph_direction with
    | .LR => ⟨lvl, (hp : Int)⟩
    | .TD => ⟨(hp : Int), lvl⟩
  let r ← reserve_spot_in_grid reserve_fuel g.graph_direction st.grid node requested
  let levels' ← level_set st.levels lvl (hp + 4)
  pure ⟨r.1, st.coords.set node (some r.2), levels'⟩

/-- One iteration of the inner child-placement loop of `create_mapping`:
skip already-placed children, otherwise reserve at the current cursor of
the child's level and advance the cursor. -/
def place_child_step (reserve_fuel : Nat) (g : PGraph) (child_level : Int)
    (st : PlaceState) (child : Nat) : Option PlaceState :=
  if (st.coords.getD child none).isSome then pure st
  else do
    let hp ← level_get st.levels child_level
    let requested : GridCoord := match g.graph_direction with
      | .LR => ⟨child_level, (hp : Int)⟩
      | .TD => ⟨(hp : Int), child_level⟩
    let r ← reserve_spot_in_grid reserve_fuel g.graph_direction st.grid child requested
    let levels' ← level_set st.levels child_level (hp + 4)
    pure ⟨r.1, st.coords.set child (some r.2), levels'⟩

/-- One iteration of the outer child-placement loop of `create_mapping`:
look up the node's placed position (the source's `assert`), compute the
child level, and place every child of the node. -/
def place_children_of (reserve_fuel : Nat) (g : PGraph)
    (st : PlaceState) (i : Nat) : Option PlaceState := do
  let gc ← st.coords.getD i none
  let child_level : Int :=
    (match g.graph_direction with | .LR => gc.x | .TD => gc.y) + 4
  let _hp0 ← level_get st.levels child_level
  (get_children g i).foldlM (place_child_step reserve_fuel g child_level) st

/-- The `should_separate` flag computed at the top of `create_mapping`:
left-to-right layout with both external roots and subgraph roots that
have outgoing edges. -/
def placement_should_separate (g : PGraph) : Bool :=
  let root_nodes := find_roots g
  let has_external_roots := root_nodes.any (fun n => ¬ is_node_in_any_subgraph g n)
  let has_subgraph_roots_with_edges := root_nodes.any (fun n =>
    is_node_in_any_subgraph g n ∧ (get_children g n).length > 0)
  g.graph_direction = .LR ∧ has_external_roots ∧ has_subgraph_roots_with_edges

/-- `external_root_nodes` of `create_mapping`. -/
def external_root_nodes (g : PGraph) : List Nat :=
  if placement_should_separate g
  then (find_roots g).filter (fun n => ¬ is_node_in_any_subgraph g n)
  else find_roots g

/-- `subgraph_root_nodes` of `create_mapping`. -/
def subgraph_root_nodes (g : PGraph) : List Nat :=
  if placement_should_separate g
  then (find_roots g).filter (fun n => is_node_in_any_subgraph g n)
  else []

/-- The placement phase of `create_mapping` from grid.py: place external
roots, place subgraph roots one level in when separation applies, then
place children level by level. -/
def place_phase (reserve_fuel : Nat) (g : PGraph) : Option PlaceState := do
  let st0 : PlaceState :=
    ⟨[], List.replicate g.num_nodes none, List.replicate 100 0⟩
  let st1 ← (external_root_nodes g).foldlM (place_root_step reserve_fuel g 0) st0
  let st2 ← if placement_should_separate g ∧ (subgraph_root_nodes g).length > 0 then
      (subgraph_root_nodes g).foldlM (place_root_step reserve_fuel g 4) st1
    else pure st1
  (List.range g.num_nodes).foldlM (place_children_of reserve_fuel g) st2

/-! ## Specification-side notions used by the claims -/

/-- A path all of whose consecutive points differ by one 4-directional
unit step (every path the pathfinder reconstructs has this shape). -/
def unit_steps : List GridCoord → Prop
  | a :: b :: rest => ((b.x - a.x).natAbs + (b.y - a.y).natAbs = 1) ∧ unit_steps (b :: rest)
  | _ => True

/-- No three consecutive points advance twice by the same vector (the
fixed point condition of `merge_path`). -/
def no_triple : List GridCoord → Prop
  | a :: b :: c :: rest =>
    ¬(b.x - a.x = c.x - b.x ∧ b.y - a.y = c.y - b.y) ∧ no_triple (b :: c :: rest)
  | _ => True

/-- A rectangular, non-empty canvas: every column has the height of the
first one. -/
def rectangular (canvas : Canvas) : Prop :=
  canvas ≠ [] ∧ ∀ col ∈ canvas, col.length = (canvas.headD []).length

/-- The rows of a canvas as the claim states them: one row per y, each
row the concatenation of that row's characters across all columns in
column order. -/
def canvas_rows_spec (canvas : Canvas) : List (List Char) :=
  (List.range (canvas.headD []).length).map (fun y =>
    canvas.map (fun col => col.getD y ' '))

/-- Occupancy map of a concrete two-node graph (node 0 in the 3x3 block
at (0,0), node 1 in the block at (4,4)) with one extra occupied cell at
(3,1) that walls in the preferred start anchor (2,1) of the edge
0 -> 1 in a top-down layout. -/
def routing_gap_grid : Grid :=
  [ (⟨0,0⟩, 0), (⟨1,0⟩, 0), (⟨2,0⟩, 0),
    (⟨0,1⟩, 0), (⟨1,1⟩, 0), (⟨2,1⟩, 0),
    (⟨0,2⟩, 0), (⟨1,2⟩, 0), (⟨2,2⟩, 0),
    (⟨4,4⟩, 1), (⟨5,4⟩, 1), (⟨6,4⟩, 1),
    (⟨4,5⟩, 1), (⟨5,5⟩, 1), (⟨6,5⟩, 1),
    (⟨4,6⟩, 1), (⟨5,6⟩, 1), (⟨6,6⟩, 1),
    (⟨3,1⟩, 0) ]

/-- The 3x3 block of grid cells a node placed at `origin` reserves. -/
def in_block (origin cell : GridCoord) : Prop :=
  origin.x ≤ cell.x ∧ cell.x < origin.x + 3 ∧
  origin.y ≤ cell.y ∧ cell.y < origin.y + 3

instance (origin cell : GridCoord) : Decidable (in_block origin cell) := by
  unfold in_block
  infer_instance

/-- The edge relation of a parsed edge list. -/
def edge_rel (edges : List (Nat × Nat)) (a b : Nat) : Prop :=
  (a, b) ∈ edges

/-- An edge set with no directed cycle. -/
def Acyclic (edges : List (Nat × Nat)) : Prop :=
  ∀ i, ¬ Relation.TransGen (edge_rel edges) i i

/-- The two invariants of the occupancy map maintained by the placement
phase: every binding points into the block of the recorded owner, and
every placed node owns (exactly) the bindings of its whole block, with
a block origin on the 4-aligned placement lattice. -/
def place_inv (st : PlaceState) : Prop :=
  (∀ c v, alist_find c st.grid = some v →
    ∃ gc, st.coords.getD v none = some gc ∧ in_block gc c) ∧
  (∀ i gc, st.coords.getD i none = some gc →
    gc.x % 4 = 0 ∧ gc.y % 4 = 0 ∧
    ∀ c, in_block gc c → alist_find c st.grid = some i)

/-- Full state invariant of the placement fold: the occupancy invariant,
the fixed shape of the per-node coordinate table, and 4-alignment of the
per-level cursor values. -/
def place_ok (g : PGraph) (st : PlaceState) : Prop :=
  place_inv st ∧ st.coords.length = g.num_nodes ∧ ∀ v ∈ st.levels, v % 4 = 0

/-- A two-node chain used to witness the placement theorems. -/
def demo_pgraph : PGraph := ⟨2, [(0, 1)], [], .TD⟩

/-- The placement state `place_phase` computes for `demo_pgraph`. -/
def demo_state : PlaceState :=
  (place_phase 5 demo_pgraph).getD ⟨[], [], []⟩


/-! ## Instances and notions for claim C2

`walled_goal_grid` walls the goal `(0,0)` off from the rest of the first
quadrant (its two in-quadrant 4-neighbours are occupied), while the start
`(2,2)` sits in the unbounded free region: the A* loop then pops and
expands cells forever.  `runs_forever` states fuel-indexed divergence:
every finite iteration bound is exhausted with the open set still
non-empty, which is exactly non-termination of the source's `while` loop.
`c2good`/`c2invK` are the loop invariant used to prove it: every enqueued
coordinate is a free non-goal first-quadrant cell, and the frontier cell
`(K, 2)` of the ray `y = 2` is enqueued while no ray cell beyond `K` has a
cost yet -- so expanding it enqueues `(K+1, 2)` and the open set never
empties. -/

def walled_goal_grid : Grid := [(⟨1, 0⟩, 0), (⟨0, 1⟩, 0)]

def runs_forever (grid : Grid) (from_coord to_coord : GridCoord) : Prop :=
  ∀ fuel, get_path fuel grid from_coord to_coord = RunRes.out

def c2good (c : GridCoord) : Prop :=
  0 ≤ c.x ∧ 0 ≤ c.y ∧ c ≠ ⟨1, 0⟩ ∧ c ≠ ⟨0, 1⟩ ∧ c ≠ ⟨0, 0⟩

def c2invK (st : AStarState) (K : Int) : Prop :=
  (∀ it ∈ st.pq, c2good it.coord ∧ (alist_find it.coord st.cost).isSome) ∧
  2 ≤ K ∧
  (∃ pr, (⟨⟨K, 2⟩, pr⟩ : PQItem) ∈ st.pq) ∧
  (∀ j : Int, K < j → alist_find (⟨j, 2⟩ : GridCoord) st.cost = none)

/-! ## Notions for the amended C2: bounded reachable region

`astar_step grid G a b` holds when the search expanding `a` may enqueue
`b`: a 4-neighbour that is free in the occupancy map or equal to the goal.
`astar_reach` is its reflexive-transitive closure from the start.
`astar_phi` is the termination measure: over a bounding box of cells, a
cell with an assigned cost contributes that cost, an unassigned one the
box size; every push strictly decreases it.  `astar_inv` collects the
loop invariants: enqueued coordinates have assigned costs, assigned keys
are reachable and distinct, stored values stay below the key count, and
the `came_from` parent chain strictly decreases in cost (so path
reconstruction succeeds within its fuel). -/

def astar_step (grid : Grid) (to_coord : GridCoord) (a b : GridCoord) : Prop :=
  (∃ d ∈ MOVE_DIRS, b = ⟨a.x + d.x, a.y + d.y⟩) ∧
    (is_free_in_grid grid b = true ∨ b = to_coord)

def astar_reach (grid : Grid) (to_coord from_coord c : GridCoord) : Prop :=
  Relation.ReflTransGen (astar_step grid to_coord) from_coord c

def box_cells (B : Nat) : Finset GridCoord :=
  ((Finset.Icc (-(B : Int)) B) ×ˢ (Finset.Icc (-(B : Int)) B)).image
    fun p => ⟨p.1, p.2⟩

def astar_phi (B : Nat) (cost : List (GridCoord × Nat)) : Nat :=
  ∑ c ∈ box_cells B, (alist_find c cost).getD (box_cells B).card

def astar_inv (grid : Grid) (from_coord to_coord : GridCoord) (st : AStarState) : Prop :=
  (∀ it ∈ st.pq, (alist_find it.coord st.cost).isSome) ∧
  (∀ k, (alist_find k st.cost).isSome → astar_reach grid to_coord from_coord k) ∧
  (st.cost.map Prod.fst).Nodup ∧
  (∀ k v, alist_find k st.cost = some v → v + 1 ≤ st.cost.length) ∧
  st.came.map Prod.fst = st.cost.map Prod.fst ∧
  (∀ k p, alist_find k st.came = some (some p) →
    ∃ vk vp, alist_find k st.cost = some vk ∧ alist_find p st.cost = some vp ∧ vp < vk)

/-! ## Notions for claim C6: the heap order and the A* relay invariant

`HeapOrd` is the binary-heap shape invariant of the Python `MinHeap`
backing list (every child's priority at least its parent's); `BUInv` and
`SDInv` are the relaxed shapes holding during `_bubble_up` and
`_sink_down`.  `manhattan` is the 4-directional distance; `c6opt S G c`
says `c` lies on some Manhattan-shortest route from `S` to `G`, `c6nxt`
picks the next cell of such a route, `c6sigma` is 1 on cells sharing a
row or column with the goal, and `c6bnd` is the cost bound the search
maintains along the route.  `c6inv` collects the loop invariants of
`get_path` on the empty occupancy map, with the relay clause restricted
to cells satisfying `E` (full invariant: `E = fun _ => True`); `c6dia`,
`c6phi` and `c6meas` form the termination measure: cells near the goal
weighted by their current cost, plus the number of cheap open entries. -/

def HeapOrd (l : List PQItem) : Prop :=
  ∀ j, j < l.length → j ≠ 0 →
    (l.getD ((j - 1) / 2) default).priority ≤ (l.getD j default).priority

def BUInv (l : List PQItem) (i : Nat) : Prop :=
  (∀ j, j < l.length → j ≠ 0 → j ≠ i →
    (l.getD ((j - 1) / 2) default).priority ≤ (l.getD j default).priority) ∧
  (i ≠ 0 → ∀ j, j < l.length → j ≠ 0 → (j - 1) / 2 = i →
    (l.getD ((i - 1) / 2) default).priority ≤ (l.getD j default).priority)

def SDInv (l : List PQItem) (i : Nat) : Prop :=
  (∀ j, j < l.length → j ≠ 0 → (j - 1) / 2 ≠ i →
    (l.getD ((j - 1) / 2) default).priority ≤ (l.getD j default).priority) ∧
  (i ≠ 0 → ∀ j, j < l.length → j ≠ 0 → (j - 1) / 2 = i →
    (l.getD ((i - 1) / 2) default).priority ≤ (l.getD j default).priority)

def manhattan (a b : GridCoord) : Nat :=
  (a.x - b.x).natAbs + (a.y - b.y).natAbs

def c6sigma (c G : GridCoord) : Nat :=
  if c.x = G.x ∨ c.y = G.y then 1 else 0

def c6bnd (S G c : GridCoord) : Nat := manhattan S c + c6sigma c G

def c6opt (S G c : GridCoord) : Prop :=
  manhattan S c + manhattan c G = manhattan S G

def c6nxt (G c : GridCoord) : GridCoord :=
  if c.x < G.x then ⟨c.x + 1, c.y⟩
  else if G.x < c.x then ⟨c.x - 1, c.y⟩
  else if c.y < G.y then ⟨c.x, c.y + 1⟩
  else ⟨c.x, c.y - 1⟩

def c6inv (S G : GridCoord) (E : GridCoord → Prop) (st : AStarState) : Prop :=
  astar_inv [] S G st ∧
  HeapOrd st.pq ∧
  (∀ it ∈ st.pq, it.coord = G → ∃ v, alist_find G st.cost = some v ∧ v ≤ it.priority) ∧
  (∀ k p, alist_find k st.came = some (some p) →
    ∃ d ∈ MOVE_DIRS, k = ⟨p.x + d.x, p.y + d.y⟩) ∧
  alist_find S st.came = some none ∧
  (∀ k, alist_find k st.came = some none → k = S) ∧
  alist_find S st.cost = some 0 ∧
  (∀ v, alist_find G st.cost = some v → ∃ it ∈ st.pq, it.coord = G ∧ it.priority ≤ v) ∧
  (∀ c, E c → c6opt S G c → c ≠ G → ∀ vc, alist_find c st.cost = some vc →
    vc ≤ c6bnd S G c →
    (∃ it ∈ st.pq, it.coord = c ∧ it.priority ≤ manhattan S G + 1) ∨
    (∃ v2, alist_find (c6nxt G c) st.cost = some v2 ∧ v2 ≤ c6bnd S G (c6nxt G c)))

def c6dia (G : GridCoord) (M : Nat) : Finset GridCoord :=
  (((Finset.Icc (G.x - ((M : Int) + 1)) (G.x + ((M : Int) + 1))) ×ˢ
    (Finset.Icc (G.y - ((M : Int) + 1)) (G.y + ((M : Int) + 1)))).image
    (fun p => (⟨p.1, p.2⟩ : GridCoord))).filter
    (fun c => manhattan c G ≤ M + 1 ∧ 0 ≤ c.x ∧ 0 ≤ c.y)

def c6phi (M : Nat) (cost : List (GridCoord × Nat)) (c : GridCoord) : Nat :=
  min ((alist_find c cost).getD (M + 2)) (M + 2)

def c6meas (G : GridCoord) (M : Nat) (st : AStarState) : Nat :=
  (M + 3) * ∑ c ∈ c6dia G M, c6phi M st.cost c +
    (st.pq.filter (fun it => decide (it.priority ≤ M + 1))).length

-- ===========================================================================
-- Theorems
-- ===========================================================================

/-! ## Heap index helpers -/

@[simp] theorem length_heap_swap (l : List PQItem) (i j : Nat) :
    (heap_swap l i j).length = l.length := by
  simp [heap_swap]

theorem sink_s1_ge (l : List PQItem) (i : Nat) : i ≤ sink_s1 l i := by
  unfold sink_s1; split <;> omega

theorem sink_s1_lt (l : List PQItem) (i : Nat)
    (h : sink_s1 l i ≠ i) : i < sink_s1 l i ∧ sink_s1 l i < l.length := by
  unfold sink_s1 at *
  by_cases hc : 2 * i + 1 < l.length ∧
      (l.getD (2 * i + 1) default).priority < (l.getD i default).priority
  · rw [if_pos hc]; exact ⟨by omega, hc.1⟩
  · rw [if_neg hc] at h; exact absurd rfl h

theorem sink_target_ge (l : List PQItem) (i : Nat) : i ≤ sink_target l i := by
  unfold sink_target
  have := sink_s1_ge l i
  split <;> omega

theorem sink_target_lt (l : List PQItem) (i : Nat)
    (h : sink_target l i ≠ i) : i < sink_target l i ∧ sink_target l i < l.length := by
  unfold sink_target at *
  by_cases hc : 2 * i + 2 < l.length ∧
      (l.getD (2 * i + 2) default).priority < (l.getD (sink_s1 l i) default).priority
  · rw [if_pos hc]; exact ⟨by omega, hc.1⟩
  · rw [if_neg hc] at h ⊢; exact sink_s1_lt l i h

/-! ## Association list facts -/

theorem alist_find_erase {α β : Type} [DecidableEq α] (k k' : α) (l : List (α × β)) :
    alist_find k' (alist_erase k l) = if k' = k then none else alist_find k' l := by
  induction l with
  | nil => simp [alist_erase, alist_find]
  | cons p rest ih =>
    obtain ⟨pk, pv⟩ := p
    by_cases hp : pk = k
    · subst hp
      rw [show alist_erase pk ((pk, pv) :: rest) = alist_erase pk rest from by
        rw [alist_erase, if_pos rfl], ih]
      by_cases hk : k' = pk
      · rw [if_pos hk, if_pos hk]
      · rw [if_neg hk, if_neg hk,
          show alist_find k' ((pk, pv) :: rest) = alist_find k' rest from by
            rw [alist_find, if_neg (fun h => hk h.symm)]]
    · rw [show alist_erase k ((pk, pv) :: rest) = (pk, pv) :: alist_erase k rest from by
        rw [alist_erase, if_neg hp], alist_find]
      by_cases hpk : pk = k'
      · rw [if_pos hpk, if_neg (fun h : k' = k => hp (hpk.trans h)), alist_find, if_pos hpk]
      · rw [if_neg hpk, ih]
        by_cases hk : k' = k
        · rw [if_pos hk, if_pos hk]
        · rw [if_neg hk, if_neg hk, alist_find, if_neg hpk]

theorem alist_find_upsert {α β : Type} [DecidableEq α] (k k' : α) (v : β)
    (l : List (α × β)) :
    alist_find k' (alist_upsert k v l) = if k = k' then some v else alist_find k' l := by
  rw [alist_upsert, alist_find]
  by_cases hk : k = k'
  · rw [if_pos hk, if_pos hk]
  · rw [if_neg hk, if_neg hk, alist_find_erase, if_neg (fun h => hk h.symm)]

/-! ## Heap multiset and A* lemmas for claim C2 -/

theorem heap_swap_perm (l : List PQItem) (i j : Nat) (hi : i < l.length)
    (hj : j < l.length) : (heap_swap l i j).Perm l := by
  rw [List.perm_iff_count]
  intro a
  have m1 : l[i] ∈ l := List.getElem_mem hi
  have m2 : l[j] ∈ l := List.getElem_mem hj
  have c1 : l[i] = a → 1 ≤ List.count a l := by
    intro he; subst he; exact List.count_pos_iff.mpr m1
  have c2 : l[j] = a → 1 ≤ List.count a l := by
    intro he; subst he; exact List.count_pos_iff.mpr m2
  unfold heap_swap
  rw [List.getD_eq_getElem l default hi, List.getD_eq_getElem l default hj]
  rw [List.count_set _ _ _ _ (by simpa using hj), List.count_set _ _ _ _ hi]
  rw [List.getElem_set]
  by_cases e1 : l[i] = a <;> by_cases e2 : l[j] = a
  all_goals first
    | (have h1 := c1 e1; simp [e1, e2] <;> omega)
    | (have h1 := c2 e2; simp [e1, e2] <;> omega)
    | (simp [e1, e2] <;> omega)

theorem bubble_up_go_perm : ∀ (fuel : Nat) (l : List PQItem) (i : Nat),
    i < l.length → (bubble_up_go fuel l i).Perm l := by
  intro fuel
  induction fuel with
  | zero => intro l i _; exact List.Perm.refl l
  | succ fuel ih =>
    intro l i hi
    unfold bubble_up_go
    split
    · exact List.Perm.refl l
    · split
      · have hp : (i - 1) / 2 < l.length := by omega
        exact ((ih _ _ (by simpa using hp)).trans (heap_swap_perm l i _ hi hp))
      · exact List.Perm.refl l

theorem heap_push_perm (l : List PQItem) (item : PQItem) :
    (heap_push l item).Perm (item :: l) := by
  unfold heap_push bubble_up
  exact (bubble_up_go_perm _ _ _ (by simp)).trans (List.perm_append_singleton _ _)

theorem length_heap_push (l : List PQItem) (item : PQItem) :
    (heap_push l item).length = l.length + 1 := by
  simpa using (heap_push_perm l item).length_eq

theorem sink_down_go_perm : ∀ (fuel : Nat) (l : List PQItem) (i : Nat),
    (sink_down_go fuel l i).Perm l := by
  intro fuel
  induction fuel with
  | zero => intro l i; exact List.Perm.refl l
  | succ fuel ih =>
    intro l i
    unfold sink_down_go
    split
    · exact List.Perm.refl l
    · rename_i h
      have := sink_target_lt l i h
      exact (ih _ _).trans (heap_swap_perm l i _ (by omega) this.2)

theorem heap_pop_eq_none (l : List PQItem) : heap_pop l = none ↔ l = [] := by
  cases l with
  | nil => simp [heap_pop]
  | cons x t => cases t <;> simp [heap_pop]

theorem heap_pop_perm (l : List PQItem) (t : PQItem) (rest : List PQItem)
    (h : heap_pop l = some (t, rest)) : l.Perm (t :: rest) := by
  match l, h with
  | [x], h =>
    injection h with h'
    injection h' with h1 h2
    subst h1; subst h2
    exact List.Perm.refl _
  | top :: snd :: r, h =>
    simp only [heap_pop] at h
    injection h with h'
    injection h' with h1 h2
    subst h1; subst h2
    apply List.Perm.cons top
    have hdl : (top :: snd :: r).dropLast.tail = (snd :: r).dropLast := by
      simp [List.dropLast_cons₂]
    rw [hdl]
    have h3 : (snd :: r).dropLast ++ [(snd :: r).getLast (by simp)] = snd :: r :=
      List.dropLast_append_getLast (by simp)
    have h4 : (snd :: r).Perm
        ((snd :: r).getLast (by simp) :: (snd :: r).dropLast) := by
      conv_lhs => rw [← h3]
      exact List.perm_append_singleton _ _
    unfold sink_down
    exact h4.trans (sink_down_go_perm _ _ _).symm
theorem c2_free (c : GridCoord) :
    is_free_in_grid walled_goal_grid c = true ↔
      0 ≤ c.x ∧ 0 ≤ c.y ∧ c ≠ ⟨1, 0⟩ ∧ c ≠ ⟨0, 1⟩ := by
  obtain ⟨x, y⟩ := c
  simp only [is_free_in_grid, walled_goal_grid, alist_find, GridCoord.mk.injEq]
  split_ifs with h1 h2 h3 <;> simp_all <;> omega

theorem c2_equals_goal_false (c : GridCoord) (h : c ≠ ⟨0, 0⟩) :
    grid_coord_equals c ⟨0, 0⟩ = false := by
  obtain ⟨x, y⟩ := c
  simp only [grid_coord_equals, GridCoord.mk.injEq] at *
  simp only [decide_eq_false_iff_not, not_and]
  intro hx hy
  subst hx; subst hy
  exact h rfl

theorem c2_step_preserve (cur : GridCoord) (hg : c2good cur) (cc : Nat) (d : GridCoord)
    (hd : d ∈ MOVE_DIRS) (s : AStarState) (K : Int) (h : c2invK s K) :
    ∃ K', K ≤ K' ∧ c2invK (expand_step walled_goal_grid ⟨0, 0⟩ cur cc s d) K' := by
  obtain ⟨hpq, hK2, ⟨pr, hw⟩, hnr⟩ := h
  have hng : (⟨cur.x + d.x, cur.y + d.y⟩ : GridCoord) ≠ ⟨0, 0⟩ := by
    obtain ⟨hx, hy, h10, h01, h00⟩ := hg
    obtain ⟨cx, cy⟩ := cur
    simp only [MOVE_DIRS, List.mem_cons, List.not_mem_nil, or_false] at hd
    simp only [ne_eq, GridCoord.mk.injEq, not_and] at h10 h01 h00 ⊢
    rcases hd with rfl | rfl | rfl | rfl <;> dsimp at * <;> intro hx0 hy0 <;> omega
  simp only [expand_step]
  split
  · exact ⟨K, le_refl K, hpq, hK2, ⟨pr, hw⟩, hnr⟩
  · rename_i hcond
    have hfree : is_free_in_grid walled_goal_grid ⟨cur.x + d.x, cur.y + d.y⟩ = true := by
      rcases Bool.eq_false_or_eq_true
          (is_free_in_grid walled_goal_grid ⟨cur.x + d.x, cur.y + d.y⟩) with hf | hf
      · exact hf
      · exfalso
        exact hcond ⟨by simp [hf], by simp [c2_equals_goal_false _ hng]⟩
    have hgood : c2good ⟨cur.x + d.x, cur.y + d.y⟩ := by
      obtain ⟨a1, a2, a3, a4⟩ := (c2_free _).mp hfree
      exact ⟨a1, a2, a3, a4, hng⟩
    split
    · rename_i hkeep
      have hmem : ∀ it : PQItem,
          it ∈ heap_push s.pq ⟨⟨cur.x + d.x, cur.y + d.y⟩,
            cc + 1 + heuristic ⟨cur.x + d.x, cur.y + d.y⟩ ⟨0, 0⟩⟩ ↔
          it = ⟨⟨cur.x + d.x, cur.y + d.y⟩,
            cc + 1 + heuristic ⟨cur.x + d.x, cur.y + d.y⟩ ⟨0, 0⟩⟩ ∨ it ∈ s.pq := by
        intro it
        rw [(heap_push_perm _ _).mem_iff, List.mem_cons]
      have hpq' : ∀ it ∈ heap_push s.pq ⟨⟨cur.x + d.x, cur.y + d.y⟩,
            cc + 1 + heuristic ⟨cur.x + d.x, cur.y + d.y⟩ ⟨0, 0⟩⟩,
          c2good it.coord ∧
            (alist_find it.coord
              (alist_upsert ⟨cur.x + d.x, cur.y + d.y⟩ (cc + 1) s.cost)).isSome := by
        intro it hit
        rcases (hmem it).mp hit with rfl | hin
        · refine ⟨hgood, ?_⟩
          rw [alist_find_upsert, if_pos rfl]
          rfl
        · refine ⟨(hpq it hin).1, ?_⟩
          rw [alist_find_upsert]
          split
          · rfl
          · exact (hpq it hin).2
      by_cases hray : cur.y + d.y = 2 ∧ K < cur.x + d.x
      · refine ⟨cur.x + d.x, le_of_lt hray.2, hpq', by omega, ?_, ?_⟩
        · refine ⟨cc + 1 + heuristic ⟨cur.x + d.x, cur.y + d.y⟩ ⟨0, 0⟩, ?_⟩
          rw [show (2 : Int) = cur.y + d.y from hray.1.symm]
          exact (hmem _).mpr (Or.inl rfl)
        · intro j hj
          rw [alist_find_upsert]
          split
          · rename_i he
            exfalso
            simp only [GridCoord.mk.injEq] at he
            omega
          · exact hnr j (by have := hray.2; omega)
      · refine ⟨K, le_refl K, hpq', hK2, ?_, ?_⟩
        · exact ⟨pr, (hmem _).mpr (Or.inr hw)⟩
        · intro j hj
          rw [alist_find_upsert]
          split
          · rename_i he
            exfalso
            simp only [GridCoord.mk.injEq] at he
            exact hray ⟨he.2, he.1 ▸ hj⟩
          · exact hnr j hj
    · exact ⟨K, le_refl K, hpq, hK2, ⟨pr, hw⟩, hnr⟩

theorem c2_boot (cc : Nat) (s : AStarState) (K : Int) (hK2 : 2 ≤ K)
    (hpq : ∀ it ∈ s.pq, c2good it.coord ∧ (alist_find it.coord s.cost).isSome)
    (hnr : ∀ j : Int, K < j → alist_find (⟨j, 2⟩ : GridCoord) s.cost = none) :
    c2invK (expand_step walled_goal_grid ⟨0, 0⟩ ⟨K, 2⟩ cc s ⟨1, 0⟩) (K + 1) := by
  have hfind : alist_find (⟨K + 1, 2⟩ : GridCoord) s.cost = none := hnr _ (by omega)
  have hng : (⟨K + 1, 2⟩ : GridCoord) ≠ ⟨0, 0⟩ := by
    intro he; simp only [GridCoord.mk.injEq] at he; omega
  have hfree : is_free_in_grid walled_goal_grid ⟨K + 1, 2⟩ = true := by
    rw [c2_free]
    refine ⟨by dsimp; omega, by dsimp; omega, ?_, ?_⟩ <;>
      (intro he; simp only [GridCoord.mk.injEq] at he; omega)
  have hgood : c2good ⟨K + 1, 2⟩ := by
    obtain ⟨a1, a2, a3, a4⟩ := (c2_free _).mp hfree
    exact ⟨a1, a2, a3, a4, hng⟩
  simp only [expand_step]
  rw [show (⟨K + 1, 2 + 0⟩ : GridCoord) = ⟨K + 1, 2⟩ from by simp]
  rw [hfind]
  rw [if_neg (fun hc => hc.1 hfree)]
  rw [if_pos (show (match (none : Option Nat) with
    | none => true
    | some existing => decide (cc + 1 < existing)) = true from rfl)]
  refine ⟨?_, by omega, ?_, ?_⟩
  · intro it hit
    rcases List.mem_cons.mp ((heap_push_perm _ _).mem_iff.mp hit) with rfl | hin
    · refine ⟨hgood, ?_⟩
      rw [alist_find_upsert, if_pos rfl]
      rfl
    · refine ⟨(hpq it hin).1, ?_⟩
      rw [alist_find_upsert]
      split
      · rfl
      · exact (hpq it hin).2
  · exact ⟨cc + 1 + heuristic ⟨K + 1, 2⟩ ⟨0, 0⟩,
      (heap_push_perm _ _).mem_iff.mpr (List.mem_cons_self _ _)⟩
  · intro j hj
    rw [alist_find_upsert]
    split
    · rename_i he
      exfalso
      simp only [GridCoord.mk.injEq] at he
      omega
    · exact hnr j (by omega)

theorem c2_expand_any (cur : GridCoord) (hg : c2good cur) (cc : Nat) (s : AStarState)
    (K : Int) (h : c2invK s K) :
    ∃ K', c2invK (expand walled_goal_grid ⟨0, 0⟩ cur cc s) K' := by
  obtain ⟨K1, _, h1⟩ := c2_step_preserve cur hg cc ⟨1, 0⟩ (by simp [MOVE_DIRS]) s K h
  obtain ⟨K2, _, h2⟩ := c2_step_preserve cur hg cc ⟨-1, 0⟩ (by simp [MOVE_DIRS]) _ K1 h1
  obtain ⟨K3, _, h3⟩ := c2_step_preserve cur hg cc ⟨0, 1⟩ (by simp [MOVE_DIRS]) _ K2 h2
  obtain ⟨K4, _, h4⟩ := c2_step_preserve cur hg cc ⟨0, -1⟩ (by simp [MOVE_DIRS]) _ K3 h3
  exact ⟨K4, h4⟩

theorem c2_expand_boot (cc : Nat) (s : AStarState) (K : Int) (hK2 : 2 ≤ K)
    (hpq : ∀ it ∈ s.pq, c2good it.coord ∧ (alist_find it.coord s.cost).isSome)
    (hnr : ∀ j : Int, K < j → alist_find (⟨j, 2⟩ : GridCoord) s.cost = none) :
    ∃ K', c2invK (expand walled_goal_grid ⟨0, 0⟩ ⟨K, 2⟩ cc s) K' := by
  have hg : c2good ⟨K, 2⟩ := by
    refine ⟨by dsimp; omega, by dsimp; omega, ?_, ?_, ?_⟩ <;>
      (intro he; simp only [GridCoord.mk.injEq] at he; omega)
  have h1 := c2_boot cc s K hK2 hpq hnr
  obtain ⟨K2, _, h2⟩ := c2_step_preserve _ hg cc ⟨-1, 0⟩ (by simp [MOVE_DIRS]) _ (K + 1) h1
  obtain ⟨K3, _, h3⟩ := c2_step_preserve _ hg cc ⟨0, 1⟩ (by simp [MOVE_DIRS]) _ K2 h2
  obtain ⟨K4, _, h4⟩ := c2_step_preserve _ hg cc ⟨0, -1⟩ (by simp [MOVE_DIRS]) _ K3 h3
  exact ⟨K4, h4⟩

theorem c2_loop_out : ∀ (fuel : Nat) (st : AStarState) (K : Int), c2invK st K →
    get_path_loop walled_goal_grid ⟨0, 0⟩ fuel st = RunRes.out := by
  intro fuel
  induction fuel with
  | zero =>
    intro st K h
    obtain ⟨hpq, hK2, ⟨pr, hw⟩, hnr⟩ := h
    have hne : st.pq ≠ [] := fun he => by simp [he] at hw
    simp [get_path_loop, List.isEmpty_iff, hne]
  | succ fuel ih =>
    intro st K h
    obtain ⟨hpq, hK2, ⟨pr, hw⟩, hnr⟩ := h
    have hne : st.pq ≠ [] := fun he => by simp [he] at hw
    cases hp : heap_pop st.pq with
    | none => exact absurd ((heap_pop_eq_none _).mp hp) hne
    | some pc =>
      obtain ⟨cur, rest⟩ := pc
      have hperm := heap_pop_perm _ _ _ hp
      have hcurmem : cur ∈ st.pq := hperm.mem_iff.mpr (List.mem_cons_self _ _)
      have hcg : c2good cur.coord := (hpq cur hcurmem).1
      have hsome := (hpq cur hcurmem).2
      have heq : grid_coord_equals cur.coord ⟨0, 0⟩ = false :=
        c2_equals_goal_false _ hcg.2.2.2.2
      cases hfind : alist_find cur.coord st.cost with
      | none => rw [hfind] at hsome; simp at hsome
      | some cc =>
        simp only [get_path_loop, hp, heq, hfind, Bool.false_eq_true, if_false]
        have hpqrest : ∀ it ∈ rest, c2good it.coord ∧ (alist_find it.coord st.cost).isSome :=
          fun it hit => hpq it (hperm.mem_iff.mpr (List.mem_cons_of_mem _ hit))
        by_cases hcur : cur.coord = ⟨K, 2⟩
        · rw [hcur]
          obtain ⟨K', hinv'⟩ := c2_expand_boot cc { st with pq := rest } K hK2 hpqrest hnr
          exact ih _ K' hinv'
        · have hwit' : (⟨⟨K, 2⟩, pr⟩ : PQItem) ∈ rest := by
            rcases List.mem_cons.mp (hperm.mem_iff.mp hw) with he | hin
            · exact absurd (congrArg PQItem.coord he).symm hcur
            · exact hin
          obtain ⟨K', hinv'⟩ := c2_expand_any cur.coord hcg cc { st with pq := rest } K
            ⟨hpqrest, hK2, ⟨pr, hwit'⟩, hnr⟩
          exact ih _ K' hinv'

theorem c2_init_inv : c2invK (get_path_init ⟨2, 2⟩) 2 := by
  refine ⟨?_, by omega, ⟨0, List.mem_singleton.mpr rfl⟩, ?_⟩
  · intro it hit
    have he : it = ⟨⟨2, 2⟩, 0⟩ := List.mem_singleton.mp hit
    subst he
    exact ⟨by unfold c2good; decide, by decide⟩
  · intro j hj
    show (if (⟨2, 2⟩ : GridCoord) = ⟨j, 2⟩ then some 0 else alist_find _ []) = none
    rw [if_neg (by intro he; simp only [GridCoord.mk.injEq] at he; omega)]
    rfl

/-- C2, counterexample.  The claim says `get_path` terminates for every
finite occupancy map, even with an unreachable goal, despite the grid
being unbounded.  It does not: on the two-cell map `walled_goal_grid`,
with start `(2,2)` and goal `(0,0)`, the goal is walled in while the
start's free region is unbounded; the loop invariant `c2invK` shows the
open set never empties, so no iteration bound suffices and the source's
`while pq` loop runs forever. -/
theorem C2_counterexample : runs_forever walled_goal_grid ⟨2, 2⟩ ⟨0, 0⟩ :=
  fun fuel => c2_loop_out fuel (get_path_init ⟨2, 2⟩) 2 c2_init_inv

theorem mem_box_cells (B : Nat) (c : GridCoord) :
    c ∈ box_cells B ↔ c.x.natAbs ≤ B ∧ c.y.natAbs ≤ B := by
  constructor
  · intro h
    simp only [box_cells, Finset.mem_image, Finset.mem_product, Finset.mem_Icc] at h
    obtain ⟨⟨px, py⟩, ⟨⟨h1, h2⟩, h3, h4⟩, he⟩ := h
    rw [← he]
    constructor <;> (dsimp; omega)
  · intro ⟨h1, h2⟩
    simp only [box_cells, Finset.mem_image, Finset.mem_product, Finset.mem_Icc]
    exact ⟨(c.x, c.y), ⟨⟨by omega, by omega⟩, by omega, by omega⟩, rfl⟩

theorem grid_coord_equals_iff (a b : GridCoord) : grid_coord_equals a b = true ↔ a = b := by
  obtain ⟨ax, ay⟩ := a
  obtain ⟨bx, hy⟩ := b
  simp [grid_coord_equals, GridCoord.mk.injEq]

theorem alist_find_eq_none_iff {α β : Type} [DecidableEq α] (k : α) (l : List (α × β)) :
    alist_find k l = none ↔ k ∉ l.map Prod.fst := by
  induction l with
  | nil => simp [alist_find]
  | cons p rest ih =>
    obtain ⟨pk, pv⟩ := p
    by_cases hp : pk = k
    · subst hp
      simp [alist_find]
    · rw [alist_find, if_neg hp, ih]
      simp only [List.map_cons, List.mem_cons, not_or]
      exact ⟨fun h => ⟨fun he => hp he.symm, h⟩, fun h => h.2⟩

theorem alist_find_isSome_iff {α β : Type} [DecidableEq α] (k : α) (l : List (α × β)) :
    (alist_find k l).isSome = true ↔ k ∈ l.map Prod.fst := by
  cases hf : alist_find k l with
  | none => simp [(alist_find_eq_none_iff k l).mp hf]
  | some v =>
    simp only [Option.isSome_some, true_iff]
    by_contra hm
    rw [(alist_find_eq_none_iff k l).mpr hm] at hf
    exact Option.noConfusion hf

theorem alist_erase_of_not_mem {α β : Type} [DecidableEq α] (k : α) (l : List (α × β))
    (h : k ∉ l.map Prod.fst) : alist_erase k l = l := by
  induction l with
  | nil => rfl
  | cons p rest ih =>
    obtain ⟨pk, pv⟩ := p
    simp only [List.map_cons, List.mem_cons, not_or] at h
    rw [alist_erase, if_neg (fun he => h.1 he.symm), ih h.2]

theorem alist_erase_map_fst {α β : Type} [DecidableEq α] (k : α) (l : List (α × β)) :
    (alist_erase k l).map Prod.fst =
      (l.map Prod.fst).filter (fun a => decide ¬(a = k)) := by
  induction l with
  | nil => rfl
  | cons p rest ih =>
    obtain ⟨pk, pv⟩ := p
    by_cases hp : pk = k
    · subst hp
      simp [alist_erase, ih]
    · simp [alist_erase, hp, ih]

theorem alist_upsert_map_fst {α β : Type} [DecidableEq α] (k : α) (v : β)
    (l : List (α × β)) :
    (alist_upsert k v l).map Prod.fst =
      k :: (l.map Prod.fst).filter (fun a => decide ¬(a = k)) := by
  rw [alist_upsert, List.map_cons, alist_erase_map_fst]

theorem alist_upsert_nodup {α β : Type} [DecidableEq α] (k : α) (v : β)
    (l : List (α × β)) (h : (l.map Prod.fst).Nodup) :
    ((alist_upsert k v l).map Prod.fst).Nodup := by
  rw [alist_upsert_map_fst]
  refine List.nodup_cons.mpr ⟨?_, h.filter _⟩
  intro hmem
  simp at hmem

theorem alist_upsert_length_fresh {α β : Type} [DecidableEq α] (k : α) (v : β)
    (l : List (α × β)) (h : alist_find k l = none) :
    (alist_upsert k v l).length = l.length + 1 := by
  rw [alist_upsert, List.length_cons,
    alist_erase_of_not_mem _ _ ((alist_find_eq_none_iff _ _).mp h)]

theorem filter_ne_length {α : Type} [DecidableEq α] (k : α) :
    ∀ l : List α, l.Nodup → k ∈ l →
      (l.filter (fun a => decide ¬(a = k))).length + 1 = l.length := by
  intro l
  induction l with
  | nil => intro _ h; simp at h
  | cons a t ih =>
    intro hn hm
    by_cases ha : a = k
    · subst ha
      have hnt : a ∉ t := (List.nodup_cons.mp hn).1
      rw [List.filter_cons_of_neg (by simp)]
      rw [List.filter_eq_self.mpr (fun b hb => by
        simp only [decide_eq_true_eq]
        intro he
        exact hnt (he ▸ hb))]
      simp
    · have hmt : k ∈ t := by
        rcases List.mem_cons.mp hm with he | ht
        · exact absurd he.symm ha
        · exact ht
      rw [List.filter_cons_of_pos (by simp [ha])]
      have hlen := ih (List.nodup_cons.mp hn).2 hmt
      simp only [List.length_cons]
      omega

theorem alist_upsert_length_stale {α β : Type} [DecidableEq α] (k : α) (v : β)
    (l : List (α × β)) (hn : (l.map Prod.fst).Nodup) (h : k ∈ l.map Prod.fst) :
    (alist_upsert k v l).length = l.length := by
  have h1 : (alist_upsert k v l).length = ((alist_upsert k v l).map Prod.fst).length := by
    rw [List.length_map]
  have h2 : l.length = (l.map Prod.fst).length := by rw [List.length_map]
  rw [h1, h2, alist_upsert_map_fst, List.length_cons, filter_ne_length k _ hn h]

theorem keys_length_le (B : Nat) (l : List (GridCoord × Nat))
    (hn : (l.map Prod.fst).Nodup)
    (hsub : ∀ k ∈ l.map Prod.fst, k ∈ box_cells B) :
    l.length ≤ (box_cells B).card := by
  calc l.length = (l.map Prod.fst).length := (List.length_map _ _).symm
    _ = (l.map Prod.fst).toFinset.card := (List.toFinset_card_of_nodup hn).symm
    _ ≤ (box_cells B).card :=
        Finset.card_le_card (fun x hx => hsub x (List.mem_toFinset.mp hx))

theorem keys_length_lt (B : Nat) (l : List (GridCoord × Nat))
    (hn : (l.map Prod.fst).Nodup)
    (hsub : ∀ k ∈ l.map Prod.fst, k ∈ box_cells B)
    (c : GridCoord) (hc : c ∈ box_cells B) (hout : c ∉ l.map Prod.fst) :
    l.length + 1 ≤ (box_cells B).card := by
  have h1 : l.length = (l.map Prod.fst).toFinset.card := by
    rw [List.toFinset_card_of_nodup hn, List.length_map]
  have h2 : c ∉ (l.map Prod.fst).toFinset := fun hx => hout (List.mem_toFinset.mp hx)
  calc l.length + 1 = (insert c (l.map Prod.fst).toFinset).card := by
        rw [Finset.card_insert_of_not_mem h2, h1]
    _ ≤ (box_cells B).card := Finset.card_le_card (fun x hx => by
        rcases Finset.mem_insert.mp hx with rfl | hx
        · exact hc
        · exact hsub x (List.mem_toFinset.mp hx))

theorem astar_phi_upsert_lt (B : Nat) (cost : List (GridCoord × Nat)) (k : GridCoord)
    (v : Nat) (hk : k ∈ box_cells B)
    (hlt : v < (alist_find k cost).getD (box_cells B).card) :
    astar_phi B (alist_upsert k v cost) < astar_phi B cost := by
  unfold astar_phi
  apply Finset.sum_lt_sum
  · intro i _
    rw [alist_find_upsert]
    split
    · rename_i he
      subst he
      exact le_of_lt hlt
    · exact le_refl _
  · exact ⟨k, hk, by rw [alist_find_upsert, if_pos rfl]; exact hlt⟩

theorem walk_back_ok (came : List (GridCoord × Option GridCoord))
    (cost : List (GridCoord × Nat))
    (hchain : ∀ k p, alist_find k came = some (some p) →
      ∃ vk vp, alist_find k cost = some vk ∧ alist_find p cost = some vp ∧ vp < vk) :
    ∀ (v fuel : Nat) (c : GridCoord) (acc : List GridCoord),
      alist_find c cost = some v → v < fuel → (walk_back came fuel c acc).isSome := by
  intro v
  induction v using Nat.strong_induction_on with
  | _ v ih =>
    intro fuel c acc hc hv
    cases fuel with
    | zero => omega
    | succ fuel =>
      rw [walk_back]
      cases hcame : alist_find c came with
      | none => rfl
      | some o =>
        cases o with
        | none => rfl
        | some parent =>
          obtain ⟨vk, vp, hck, hcp, hlt⟩ := hchain c parent hcame
          rw [hc] at hck
          injection hck with hck
          subst hck
          exact ih vp (by omega) fuel parent _ hcp (by omega)

theorem astar_upsert_inv (grid : Grid) (S G : GridCoord) (B : Nat)
    (hbound : ∀ c, astar_reach grid G S c → c.x.natAbs ≤ B ∧ c.y.natAbs ≤ B)
    (cur next : GridCoord) (cc pr : Nat) (s : AStarState)
    (hreach : astar_reach grid G S next) (hne : next ≠ cur)
    (hcur : alist_find cur s.cost = some cc) (hinv : astar_inv grid S G s)
    (hok : alist_find next s.cost = none ∨
      ∃ old, alist_find next s.cost = some old ∧ cc + 1 < old) :
    astar_inv grid S G ⟨heap_push s.pq ⟨next, pr⟩, alist_upsert next (cc + 1) s.cost,
        alist_upsert next (some cur) s.came⟩ ∧
    alist_find cur (alist_upsert next (cc + 1) s.cost) = some cc ∧
    astar_phi B (alist_upsert next (cc + 1) s.cost) < astar_phi B s.cost := by
  obtain ⟨inv1, inv2, inv3, inv4, inv5, inv6⟩ := hinv
  have hsub : ∀ k ∈ s.cost.map Prod.fst, k ∈ box_cells B := by
    intro k hk
    exact (mem_box_cells B k).mpr
      (hbound k (inv2 k ((alist_find_isSome_iff k s.cost).mpr hk)))
  have hnextbox : next ∈ box_cells B := (mem_box_cells B _).mpr (hbound _ hreach)
  have hlen : (alist_upsert next (cc + 1) s.cost).length = s.cost.length + 1 ∨
      (alist_upsert next (cc + 1) s.cost).length = s.cost.length := by
    rcases hok with hf | ⟨old, hf, _⟩
    · exact Or.inl (alist_upsert_length_fresh _ _ _ hf)
    · exact Or.inr (alist_upsert_length_stale _ _ _ inv3
        ((alist_find_isSome_iff _ _).mp (by rw [hf]; rfl)))
  have hccn : cc + 1 ≤ s.cost.length := inv4 cur cc hcur
  refine ⟨⟨?_, ?_, ?_, ?_, ?_, ?_⟩, ?_, ?_⟩
  · -- pq lookups stay resolvable
    intro it hit
    rcases List.mem_cons.mp ((heap_push_perm _ _).mem_iff.mp hit) with rfl | hin
    · rw [alist_find_upsert, if_pos rfl]
      rfl
    · rw [alist_find_upsert]
      split
      · rfl
      · exact inv1 it hin
  · -- cost keys reachable
    intro k hk
    rw [alist_find_upsert] at hk
    by_cases he : next = k
    · exact he ▸ hreach
    · rw [if_neg he] at hk
      exact inv2 k hk
  · exact alist_upsert_nodup _ _ _ inv3
  · -- stored values bounded by the key count
    dsimp only
    intro k v hkv
    rw [alist_find_upsert] at hkv
    by_cases he : next = k
    · rw [if_pos he] at hkv
      injection hkv with hkv
      rcases hok with hf | ⟨old, hf, hlt⟩
      · rcases hlen with hl | hl
        · omega
        · rw [alist_upsert_length_fresh _ _ _ hf] at hl
          omega
      · have hob := inv4 next old hf
        rcases hlen with hl | hl <;> omega
    · rw [if_neg he] at hkv
      have := inv4 k v hkv
      rcases hlen with hl | hl <;> omega
  · rw [alist_upsert_map_fst, alist_upsert_map_fst, inv5]
  · -- parent chains strictly decrease in cost
    intro k p hkp
    rw [alist_find_upsert] at hkp
    by_cases he : next = k
    · rw [if_pos he] at hkp
      injection hkp with hkp
      injection hkp with hkp
      subst hkp
      refine ⟨cc + 1, cc, ?_, ?_, by omega⟩
      · rw [alist_find_upsert, if_pos he]
      · rw [alist_find_upsert, if_neg hne]
        exact hcur
    · rw [if_neg he] at hkp
      obtain ⟨vk, vp, h1, h2, hlt⟩ := inv6 k p hkp
      by_cases hp : next = p
      · rcases hok with hf | ⟨old, hf, hlt2⟩
        · rw [hp] at hf
          rw [hf] at h2
          exact Option.noConfusion h2
        · rw [hp] at hf
          rw [hf] at h2
          injection h2 with h2
          refine ⟨vk, cc + 1, ?_, ?_, ?_⟩
          · rw [alist_find_upsert, if_neg he]
            exact h1
          · rw [alist_find_upsert, if_pos hp]
          · omega
      · refine ⟨vk, vp, ?_, ?_, hlt⟩
        · rw [alist_find_upsert, if_neg he]
          exact h1
        · rw [alist_find_upsert, if_neg hp]
          exact h2
  · rw [alist_find_upsert, if_neg hne]
    exact hcur
  · apply astar_phi_upsert_lt B s.cost next (cc + 1) hnextbox
    rcases hok with hf | ⟨old, hf, hlt⟩
    · rw [hf]
      simp only [Option.getD_none]
      have := keys_length_lt B s.cost inv3 hsub next hnextbox
        ((alist_find_eq_none_iff _ _).mp hf)
      omega
    · rw [hf]
      simp only [Option.getD_some]
      exact hlt

theorem astar_step_spec (grid : Grid) (S G : GridCoord) (B : Nat)
    (hbound : ∀ c, astar_reach grid G S c → c.x.natAbs ≤ B ∧ c.y.natAbs ≤ B)
    (cur : GridCoord) (cc : Nat) (d : GridCoord) (hd : d ∈ MOVE_DIRS) (s : AStarState)
    (hcur : alist_find cur s.cost = some cc) (hinv : astar_inv grid S G s) :
    astar_inv grid S G (expand_step grid G cur cc s d) ∧
    alist_find cur (expand_step grid G cur cc s d).cost = some cc ∧
    (expand_step grid G cur cc s d = s ∨
      (astar_phi B (expand_step grid G cur cc s d).cost < astar_phi B s.cost ∧
        (expand_step grid G cur cc s d).pq.length = s.pq.length + 1)) := by
  simp only [expand_step]
  split
  · exact ⟨hinv, hcur, Or.inl rfl⟩
  · rename_i hcond
    have hfg : is_free_in_grid grid ⟨cur.x + d.x, cur.y + d.y⟩ = true ∨
        (⟨cur.x + d.x, cur.y + d.y⟩ : GridCoord) = G := by
      by_cases hf : is_free_in_grid grid ⟨cur.x + d.x, cur.y + d.y⟩ = true
      · exact Or.inl hf
      · rcases Bool.eq_false_or_eq_true (grid_coord_equals ⟨cur.x + d.x, cur.y + d.y⟩ G)
          with hq | hq
        · exact Or.inr ((grid_coord_equals_iff _ _).mp hq)
        · exact absurd ⟨hf, by simp [hq]⟩ hcond
    have hreach : astar_reach grid G S ⟨cur.x + d.x, cur.y + d.y⟩ :=
      Relation.ReflTransGen.tail (hinv.2.1 cur (by rw [hcur]; rfl)) ⟨⟨d, hd, rfl⟩, hfg⟩
    have hne : (⟨cur.x + d.x, cur.y + d.y⟩ : GridCoord) ≠ cur := by
      obtain ⟨cx, cy⟩ := cur
      simp only [MOVE_DIRS, List.mem_cons, List.not_mem_nil, or_false] at hd
      rcases hd with rfl | rfl | rfl | rfl <;>
        (intro he; simp only [GridCoord.mk.injEq] at he; omega)
    split
    · rename_i hkeep
      cases hfind : alist_find (⟨cur.x + d.x, cur.y + d.y⟩ : GridCoord) s.cost with
      | none =>
        obtain ⟨hi, hc, hphi⟩ := astar_upsert_inv grid S G B hbound cur
          ⟨cur.x + d.x, cur.y + d.y⟩ cc
          (cc + 1 + heuristic ⟨cur.x + d.x, cur.y + d.y⟩ G)
          s hreach hne hcur hinv (Or.inl hfind)
        exact ⟨hi, hc, Or.inr ⟨hphi, length_heap_push _ _⟩⟩
      | some old =>
        rw [hfind] at hkeep
        simp only [decide_eq_true_eq] at hkeep
        obtain ⟨hi, hc, hphi⟩ := astar_upsert_inv grid S G B hbound cur
          ⟨cur.x + d.x, cur.y + d.y⟩ cc
          (cc + 1 + heuristic ⟨cur.x + d.x, cur.y + d.y⟩ G)
          s hreach hne hcur hinv (Or.inr ⟨old, hfind, hkeep⟩)
        exact ⟨hi, hc, Or.inr ⟨hphi, length_heap_push _ _⟩⟩
    · exact ⟨hinv, hcur, Or.inl rfl⟩

theorem astar_chain (B : Nat) {s1 s2 s3 : AStarState} {a b : Nat}
    (h1 : astar_phi B s2.cost ≤ astar_phi B s1.cost ∧ s2.pq.length ≤ s1.pq.length + a ∧
      (s2 = s1 ∨ astar_phi B s2.cost < astar_phi B s1.cost))
    (h2 : astar_phi B s3.cost ≤ astar_phi B s2.cost ∧ s3.pq.length ≤ s2.pq.length + b ∧
      (s3 = s2 ∨ astar_phi B s3.cost < astar_phi B s2.cost)) :
    astar_phi B s3.cost ≤ astar_phi B s1.cost ∧ s3.pq.length ≤ s1.pq.length + (a + b) ∧
      (s3 = s1 ∨ astar_phi B s3.cost < astar_phi B s1.cost) := by
  obtain ⟨p1, l1, d1⟩ := h1
  obtain ⟨p2, l2, d2⟩ := h2
  refine ⟨le_trans p2 p1, by omega, ?_⟩
  rcases d2 with he2 | hl2
  · subst he2
    exact d1
  · exact Or.inr (lt_of_lt_of_le hl2 p1)

theorem astar_step_spec_chain (grid : Grid) (S G : GridCoord) (B : Nat)
    (hbound : ∀ c, astar_reach grid G S c → c.x.natAbs ≤ B ∧ c.y.natAbs ≤ B)
    (cur : GridCoord) (cc : Nat) (d : GridCoord) (hd : d ∈ MOVE_DIRS) (s : AStarState)
    (hcur : alist_find cur s.cost = some cc) (hinv : astar_inv grid S G s) :
    astar_phi B (expand_step grid G cur cc s d).cost ≤ astar_phi B s.cost ∧
    (expand_step grid G cur cc s d).pq.length ≤ s.pq.length + 1 ∧
    (expand_step grid G cur cc s d = s ∨
      astar_phi B (expand_step grid G cur cc s d).cost < astar_phi B s.cost) := by
  obtain ⟨_, _, hd3⟩ := astar_step_spec grid S G B hbound cur cc d hd s hcur hinv
  rcases hd3 with he | ⟨hl, hlen⟩
  · rw [he]
    exact ⟨le_refl _, by omega, Or.inl rfl⟩
  · exact ⟨le_of_lt hl, by omega, Or.inr hl⟩

theorem astar_expand_spec (grid : Grid) (S G : GridCoord) (B : Nat)
    (hbound : ∀ c, astar_reach grid G S c → c.x.natAbs ≤ B ∧ c.y.natAbs ≤ B)
    (cur : GridCoord) (cc : Nat) (s : AStarState)
    (hcur : alist_find cur s.cost = some cc) (hinv : astar_inv grid S G s) :
    astar_inv grid S G (expand grid G cur cc s) ∧
    astar_phi B (expand grid G cur cc s).cost ≤ astar_phi B s.cost ∧
    (expand grid G cur cc s).pq.length ≤ s.pq.length + 4 ∧
    (expand grid G cur cc s = s ∨
      astar_phi B (expand grid G cur cc s).cost < astar_phi B s.cost) := by
  obtain ⟨hi1, hc1, _⟩ :=
    astar_step_spec grid S G B hbound cur cc ⟨1, 0⟩ (by simp [MOVE_DIRS]) s hcur hinv
  have hn1 :=
    astar_step_spec_chain grid S G B hbound cur cc ⟨1, 0⟩ (by simp [MOVE_DIRS]) s hcur hinv
  obtain ⟨hi2, hc2, _⟩ := astar_step_spec grid S G B hbound cur cc ⟨-1, 0⟩
    (by simp [MOVE_DIRS]) _ hc1 hi1
  have hn2 := astar_step_spec_chain grid S G B hbound cur cc ⟨-1, 0⟩
    (by simp [MOVE_DIRS]) _ hc1 hi1
  obtain ⟨hi3, hc3, _⟩ := astar_step_spec grid S G B hbound cur cc ⟨0, 1⟩
    (by simp [MOVE_DIRS]) _ hc2 hi2
  have hn3 := astar_step_spec_chain grid S G B hbound cur cc ⟨0, 1⟩
    (by simp [MOVE_DIRS]) _ hc2 hi2
  obtain ⟨hi4, hc4, _⟩ := astar_step_spec grid S G B hbound cur cc ⟨0, -1⟩
    (by simp [MOVE_DIRS]) _ hc3 hi3
  have hn4 := astar_step_spec_chain grid S G B hbound cur cc ⟨0, -1⟩
    (by simp [MOVE_DIRS]) _ hc3 hi3
  have hall := astar_chain B (astar_chain B (astar_chain B hn1 hn2) hn3) hn4
  rw [show expand grid G cur cc s = expand_step grid G cur cc (expand_step grid G cur cc
    (expand_step grid G cur cc (expand_step grid G cur cc s ⟨1, 0⟩) ⟨-1, 0⟩) ⟨0, 1⟩)
    ⟨0, -1⟩ from rfl]
  exact ⟨hi4, hall.1, by have := hall.2.1; omega, hall.2.2⟩

theorem astar_init_inv (grid : Grid) (S G : GridCoord) :
    astar_inv grid S G (get_path_init S) := by
  refine ⟨?_, ?_, ?_, ?_, ?_, ?_⟩
  · intro it hit
    have he : it = ⟨S, 0⟩ := List.mem_singleton.mp hit
    subst he
    show (alist_find S [(S, 0)]).isSome = true
    simp [alist_find]
  · intro k hk
    have hk' : (alist_find k [(S, 0)]).isSome = true := hk
    by_cases hS : S = k
    · subst hS
      exact Relation.ReflTransGen.refl
    · rw [show alist_find k [(S, 0)] = if S = k then some 0 else none from by
        simp [alist_find], if_neg hS] at hk'
      exact absurd hk' (by simp)
  · show (List.map Prod.fst [(S, 0)]).Nodup
    simp
  · intro k v hkv
    have hkv' : alist_find k [(S, 0)] = some v := hkv
    show v + 1 ≤ 1
    by_cases hS : S = k
    · rw [show alist_find k [(S, 0)] = if S = k then some 0 else none from by
        simp [alist_find], if_pos hS] at hkv'
      injection hkv' with hkv'
      omega
    · rw [show alist_find k [(S, 0)] = if S = k then some 0 else none from by
        simp [alist_find], if_neg hS] at hkv'
      exact Option.noConfusion hkv'
  · rfl
  · intro k p hkp
    have hkp' : alist_find k [(S, (none : Option GridCoord))] = some (some p) := hkp
    by_cases hS : S = k
    · rw [show alist_find k [(S, (none : Option GridCoord))] =
          if S = k then some none else none from by simp [alist_find], if_pos hS] at hkp'
      injection hkp' with hkp'
      exact Option.noConfusion hkp'
    · rw [show alist_find k [(S, (none : Option GridCoord))] =
          if S = k then some none else none from by simp [alist_find], if_neg hS] at hkp'
      exact Option.noConfusion hkp'

theorem astar_loop_term (grid : Grid) (S G : GridCoord) (B : Nat)
    (hbound : ∀ c, astar_reach grid G S c → c.x.natAbs ≤ B ∧ c.y.natAbs ≤ B) :
    ∀ (μ : Nat) (st : AStarState), astar_inv grid S G st →
      4 * astar_phi B st.cost + st.pq.length ≤ μ →
      ∃ fuel, get_path_loop grid G fuel st ≠ RunRes.out := by
  intro μ
  induction μ with
  | zero =>
    intro st hinv hm
    have hpq : st.pq = [] := List.length_eq_zero.mp (by omega)
    exact ⟨0, by simp [get_path_loop, hpq]⟩
  | succ μ ih =>
    intro st hinv hm
    cases hp : heap_pop st.pq with
    | none =>
      have hpq : st.pq = [] := (heap_pop_eq_none _).mp hp
      exact ⟨0, by simp [get_path_loop, hpq]⟩
    | some pc =>
      obtain ⟨cur, rest⟩ := pc
      have hperm := heap_pop_perm _ _ _ hp
      have hlen : st.pq.length = rest.length + 1 := by simpa using hperm.length_eq
      have hcmem : cur ∈ st.pq := hperm.mem_iff.mpr (List.mem_cons_self _ _)
      have hsome := hinv.1 cur hcmem
      cases hfind : alist_find cur.coord st.cost with
      | none =>
        rw [hfind] at hsome
        exact absurd hsome (by simp)
      | some cc =>
        by_cases hgoal : grid_coord_equals cur.coord G = true
        · refine ⟨1, ?_⟩
          have hcc : cc + 1 ≤ st.cost.length := hinv.2.2.2.1 cur.coord cc hfind
          have hlencame : st.came.length = st.cost.length := by
            have h5 := hinv.2.2.2.2.1
            calc st.came.length = (st.came.map Prod.fst).length := (List.length_map _ _).symm
              _ = (st.cost.map Prod.fst).length := by rw [h5]
              _ = st.cost.length := List.length_map _ _
          have hwb := walk_back_ok st.came st.cost hinv.2.2.2.2.2 cc (st.came.length + 1)
            cur.coord [] hfind (by omega)
          obtain ⟨path, hpath⟩ := Option.isSome_iff_exists.mp hwb
          simp only [get_path_loop, hp, hgoal, if_true, hpath]
          exact fun hcon => RunRes.noConfusion hcon
        · have hgf : grid_coord_equals cur.coord G = false := by
            rcases Bool.eq_false_or_eq_true (grid_coord_equals cur.coord G) with h | h
            · exact absurd h hgoal
            · exact h
          have hinvr : astar_inv grid S G { st with pq := rest } := by
            obtain ⟨i1, i2, i3, i4, i5, i6⟩ := hinv
            exact ⟨fun it hit => i1 it (hperm.mem_iff.mpr (List.mem_cons_of_mem _ hit)),
              i2, i3, i4, i5, i6⟩
          obtain ⟨hi, hphile, hlenle, hdisj⟩ := astar_expand_spec grid S G B hbound
            cur.coord cc { st with pq := rest } hfind hinvr
          have hm' : 4 * astar_phi B (expand grid G cur.coord cc
                { st with pq := rest }).cost +
              (expand grid G cur.coord cc { st with pq := rest }).pq.length ≤ μ := by
            rcases hdisj with he | hl
            · rw [he]
              dsimp only
              omega
            · dsimp only at hlenle hl hphile
              omega
          obtain ⟨fuel, hf⟩ := ih _ hi hm'
          refine ⟨fuel + 1, ?_⟩
          simp only [get_path_loop, hp, hgf, Bool.false_eq_true, if_false, hfind]
          exact hf

/-- C2, amended statement.  Whenever every cell that the search can reach
from the start -- through 4-neighbour steps onto cells that are free in the
occupancy map or equal to the goal -- lies inside a bounded square, the
`while` loop of `get_path` terminates: some iteration bound is enough, and
the run does not end by fuel exhaustion.  The unamended claim, termination
for every finite occupancy map, fails when the region reachable from the
start is unbounded and the goal unreachable. -/
theorem C2_amended_theorem (grid : Grid) (from_coord to_coord : GridCoord) (B : Nat)
    (hbound : ∀ c, astar_reach grid to_coord from_coord c →
      c.x.natAbs ≤ B ∧ c.y.natAbs ≤ B) :
    ∃ fuel, get_path fuel grid from_coord to_coord ≠ RunRes.out := by
  obtain ⟨fuel, hf⟩ := astar_loop_term grid from_coord to_coord B hbound
    (4 * astar_phi B (get_path_init from_coord).cost + (get_path_init from_coord).pq.length)
    (get_path_init from_coord) (astar_init_inv grid from_coord to_coord) (le_refl _)
  exact ⟨fuel, hf⟩

/-- Witness for the amended C2 theorem: on `walled_goal_grid` with start and
goal both `(0,0)`, nothing is reachable beyond the start itself (its four
neighbours are occupied or negative), so the bound `B = 0` holds and the
search terminates. -/
theorem C2_witness : ∃ fuel, get_path fuel walled_goal_grid ⟨0, 0⟩ ⟨0, 0⟩ ≠ RunRes.out := by
  apply C2_amended_theorem walled_goal_grid ⟨0, 0⟩ ⟨0, 0⟩ 0
  intro c hc
  induction hc with
  | refl => exact ⟨by decide, by decide⟩
  | tail hsteps hstep ih =>
    rename_i b c'
    have hb : b = ⟨0, 0⟩ := by
      obtain ⟨bx, by'⟩ := b
      obtain ⟨ih1, ih2⟩ := ih
      dsimp only at ih1 ih2
      congr 1 <;> omega
    subst hb
    obtain ⟨⟨d, hd, rfl⟩, hfg⟩ := hstep
    simp only [MOVE_DIRS, List.mem_cons, List.not_mem_nil, or_false] at hd
    rcases hd with rfl | rfl | rfl | rfl <;>
      rcases hfg with hf | he <;>
      first
        | exact absurd hf (by decide)
        | (exfalso; simp only [GridCoord.mk.injEq] at he; omega)

theorem getD_set_self {α : Type} (l : List α) (n : Nat) (a d : α) (h : n < l.length) :
    (l.set n a).getD n d = a := by
  rw [List.getD_eq_getElem _ _ (by simpa using h)]
  exact List.getElem_set_self _

theorem getD_set_ne {α : Type} (l : List α) (n m : Nat) (a d : α) (h : n ≠ m) :
    (l.set n a).getD m d = l.getD m d := by
  by_cases hm : m < l.length
  · rw [List.getD_eq_getElem _ _ (by simpa using hm), List.getD_eq_getElem _ _ hm]
    exact List.getElem_set_ne h _
  · rw [List.getD_eq_default _ _ (by simpa using hm), List.getD_eq_default _ _ (by omega)]

/-! ## C6 Phase A: the binary heap really is a min-heap -/

theorem heap_root_min (l : List PQItem) (h : HeapOrd l) :
    ∀ j, j < l.length → (l.getD 0 default).priority ≤ (l.getD j default).priority := by
  intro j
  induction j using Nat.strong_induction_on with
  | _ j ih =>
    intro hj
    by_cases h0 : j = 0
    · subst h0; exact le_refl _
    · exact le_trans (ih ((j - 1) / 2) (by omega) (by omega)) (h j hj h0)

theorem heap_swap_getD_left (l : List PQItem) (i j : Nat) (hj : j < l.length) :
    (heap_swap l i j).getD j default = l.getD i default := by
  unfold heap_swap
  exact getD_set_self _ _ _ _ (by simpa using hj)

theorem heap_swap_getD_right (l : List PQItem) (i j : Nat) (hi : i < l.length)
    (hne : j ≠ i) : (heap_swap l i j).getD i default = l.getD j default := by
  unfold heap_swap
  rw [getD_set_ne _ _ _ _ _ hne]
  exact getD_set_self _ _ _ _ hi

theorem heap_swap_getD_other (l : List PQItem) (i j k : Nat) (h1 : k ≠ i) (h2 : k ≠ j) :
    (heap_swap l i j).getD k default = l.getD k default := by
  unfold heap_swap
  rw [getD_set_ne _ _ _ _ _ (fun h => h2 h.symm), getD_set_ne _ _ _ _ _ (fun h => h1 h.symm)]

theorem bubble_up_go_heap : ∀ (fuel : Nat) (l : List PQItem) (i : Nat), i < fuel →
    i < l.length → BUInv l i → HeapOrd (bubble_up_go fuel l i) := by
  intro fuel
  induction fuel with
  | zero => intro l i hf; omega
  | succ fuel ih =>
    intro l i hf hi hbu
    obtain ⟨b1, b2⟩ := hbu
    rw [bubble_up_go]
    by_cases h0 : i = 0
    · rw [if_pos h0]
      intro j hj hj0
      exact b1 j hj hj0 (by omega)
    · rw [if_neg h0]
      by_cases hlt : (l.getD i default).priority < (l.getD ((i - 1) / 2) default).priority
      · rw [if_pos hlt]
        have hp : (i - 1) / 2 < l.length := by omega
        have hpi : (i - 1) / 2 ≠ i := by omega
        apply ih _ _ (by omega) (by simpa using hp)
        constructor
        · intro j hj hj0 hjp
          rw [length_heap_swap] at hj
          by_cases hji : j = i
          · subst hji
            rw [show (j - 1) / 2 = (j - 1) / 2 from rfl]
            rw [heap_swap_getD_left _ _ _ hp, heap_swap_getD_right _ _ _ hi hpi]
            exact le_of_lt hlt
          · rw [heap_swap_getD_other _ _ _ _ hji (by omega)]
            by_cases hqi : (j - 1) / 2 = i
            · rw [hqi, heap_swap_getD_right _ _ _ hi hpi]
              exact b2 h0 j hj hj0 hqi
            · by_cases hqp : (j - 1) / 2 = (i - 1) / 2
              · rw [hqp, heap_swap_getD_left _ _ _ hp]
                have hsib := b1 j hj hj0 hji
                rw [hqp] at hsib
                exact le_trans (le_of_lt hlt) hsib
              · rw [heap_swap_getD_other _ _ _ _ hqi hqp]
                exact b1 j hj hj0 hji
        · intro hp0 j hj hj0 hjp
          rw [length_heap_swap] at hj
          have hgp : (((i - 1) / 2) - 1) / 2 ≠ i := by omega
          have hgp2 : (((i - 1) / 2) - 1) / 2 ≠ (i - 1) / 2 := by omega
          rw [heap_swap_getD_other _ _ _ _ hgp hgp2]
          by_cases hji : j = i
          · subst hji
            rw [heap_swap_getD_right _ _ _ hi hpi]
            exact b1 ((j - 1) / 2) (by omega) hp0 (by omega)
          · rw [heap_swap_getD_other _ _ _ _ hji (by omega)]
            have h1 := b1 ((i - 1) / 2) (by omega) hp0 hpi
            have h2 := b1 j hj hj0 hji
            rw [hjp] at h2
            exact le_trans h1 h2
      · rw [if_neg hlt]
        intro j hj hj0
        by_cases hji : j = i
        · subst hji
          omega
        · exact b1 j hj hj0 hji

theorem heap_push_heap (l : List PQItem) (x : PQItem) (h : HeapOrd l) :
    HeapOrd (heap_push l x) := by
  unfold heap_push bubble_up
  apply bubble_up_go_heap _ _ _ (by omega) (by simp)
  constructor
  · intro j hj hj0 hjl
    simp only [List.length_append, List.length_cons, List.length_nil] at hj
    have hjlen : j < l.length := by omega
    have hq : (j - 1) / 2 < l.length := by omega
    rw [List.getD_append _ _ _ _ hjlen, List.getD_append _ _ _ _ hq]
    exact h j hjlen hj0
  · intro hl0 j hj hj0 hjp
    simp only [List.length_append, List.length_cons, List.length_nil] at hj
    omega

theorem sink_target_cases (l : List PQItem) (i : Nat) :
    sink_target l i = i ∨ sink_target l i = 2 * i + 1 ∨ sink_target l i = 2 * i + 2 := by
  unfold sink_target
  split
  · right; right; rfl
  · unfold sink_s1
    split
    · right; left; rfl
    · left; rfl

theorem sink_target_lt_self (l : List PQItem) (i : Nat) (h : sink_target l i ≠ i) :
    (l.getD (sink_target l i) default).priority < (l.getD i default).priority := by
  unfold sink_target sink_s1 at *
  by_cases c2 : 2 * i + 2 < l.length ∧
      (l.getD (2 * i + 2) default).priority < (l.getD (sink_s1 l i) default).priority
  · unfold sink_s1 at c2
    rw [if_pos c2]
    by_cases c1 : 2 * i + 1 < l.length ∧
        (l.getD (2 * i + 1) default).priority < (l.getD i default).priority
    · rw [if_pos c1] at c2
      exact lt_trans c2.2 c1.2
    · rw [if_neg c1] at c2
      exact c2.2
  · unfold sink_s1 at c2
    rw [if_neg c2] at h ⊢
    by_cases c1 : 2 * i + 1 < l.length ∧
        (l.getD (2 * i + 1) default).priority < (l.getD i default).priority
    · rw [if_pos c1]
      exact c1.2
    · rw [if_neg c1] at h
      exact absurd rfl h

theorem sink_target_le_children (l : List PQItem) (i : Nat) :
    ∀ j, j < l.length → (j - 1) / 2 = i → j ≠ 0 →
      (l.getD (sink_target l i) default).priority ≤ (l.getD j default).priority := by
  intro j hj hjp hj0
  have hj12 : j = 2 * i + 1 ∨ j = 2 * i + 2 := by omega
  unfold sink_target sink_s1
  by_cases c2 : 2 * i + 2 < l.length ∧
      (l.getD (2 * i + 2) default).priority < (l.getD (sink_s1 l i) default).priority
  · unfold sink_s1 at c2
    rw [if_pos c2]
    rcases hj12 with rfl | rfl
    · by_cases c1 : 2 * i + 1 < l.length ∧
          (l.getD (2 * i + 1) default).priority < (l.getD i default).priority
      · rw [if_pos c1] at c2
        exact le_of_lt c2.2
      · rw [if_neg c1] at c2
        have : ¬ (l.getD (2 * i + 1) default).priority < (l.getD i default).priority := by
          intro hc; exact c1 ⟨hj, hc⟩
        exact le_trans (le_of_lt c2.2) (by omega)
    · exact le_refl _
  · unfold sink_s1 at c2
    rw [if_neg c2]
    by_cases c1 : 2 * i + 1 < l.length ∧
        (l.getD (2 * i + 1) default).priority < (l.getD i default).priority
    · rw [if_pos c1]
      rcases hj12 with rfl | rfl
      · exact le_refl _
      · have : ¬ (l.getD (2 * i + 2) default).priority <
            (l.getD (2 * i + 1) default).priority := by
          intro hc
          exact c2 ⟨hj, by rw [if_pos c1]; exact hc⟩
        omega
    · rw [if_neg c1]
      rcases hj12 with rfl | rfl
      · have : ¬ (l.getD (2 * i + 1) default).priority < (l.getD i default).priority := by
          intro hc; exact c1 ⟨hj, hc⟩
        omega
      · have : ¬ (l.getD (2 * i + 2) default).priority < (l.getD i default).priority := by
          intro hc
          exact c2 ⟨hj, by rw [if_neg c1]; exact hc⟩
        omega

theorem sink_down_go_heap : ∀ (fuel : Nat) (l : List PQItem) (i : Nat),
    l.length ≤ fuel + i → SDInv l i → HeapOrd (sink_down_go fuel l i) := by
  intro fuel
  induction fuel with
  | zero =>
    intro l i hf hsd
    obtain ⟨s1, s2⟩ := hsd
    rw [sink_down_go]
    intro j hj hj0
    by_cases hq : (j - 1) / 2 = i
    · omega
    · exact s1 j hj hj0 hq
  | succ fuel ih =>
    intro l i hf hsd
    obtain ⟨s1, s2⟩ := hsd
    rw [sink_down_go]
    by_cases hti : sink_target l i = i
    · rw [if_pos hti]
      intro j hj hj0
      by_cases hq : (j - 1) / 2 = i
      · have hc := sink_target_le_children l i j hj hq hj0
        rw [hti] at hc
        rw [hq]
        exact hc
      · exact s1 j hj hj0 hq
    · rw [if_neg hti]
      have htlt := sink_target_lt l i hti
      have htgt := htlt.1
      have htlen := htlt.2
      have hchild : (sink_target l i - 1) / 2 = i := by
        rcases sink_target_cases l i with he | he | he <;> omega
      have hmin := sink_target_lt_self l i hti
      have hile : i < l.length := by omega
      have htne : sink_target l i ≠ i := hti
      apply ih _ _ (by rw [length_heap_swap]; omega)
      constructor
      · intro j hj hj0 hjq
        rw [length_heap_swap] at hj
        by_cases hji : j = i
        · subst hji
          have hq1 : (j - 1) / 2 ≠ j := by omega
          have hq2 : (j - 1) / 2 ≠ sink_target l j := by omega
          rw [heap_swap_getD_other _ _ _ _ hq1 hq2,
            heap_swap_getD_right _ _ _ hile htne]
          exact s2 hj0 (sink_target l j) htlen (by omega) hchild
        · by_cases hjt : j = sink_target l i
          · rw [hjt, heap_swap_getD_left _ _ _ htlen, hchild]
            rw [heap_swap_getD_right _ _ _ hile htne]
            exact le_of_lt hmin
          · rw [heap_swap_getD_other _ _ _ _ hji hjt]
            by_cases hqi : (j - 1) / 2 = i
            · rw [hqi, heap_swap_getD_right _ _ _ hile htne]
              exact sink_target_le_children l i j hj hqi hj0
            · rw [heap_swap_getD_other _ _ _ _ hqi hjq]
              exact s1 j hj hj0 hqi
      · intro ht0 j hj hj0 hjq
        rw [length_heap_swap] at hj
        have hji : j ≠ i := by omega
        have hjt : j ≠ sink_target l i := by omega
        rw [hchild, heap_swap_getD_right _ _ _ hile htne,
          heap_swap_getD_other _ _ _ _ hji hjt]
        have := s1 j hj hj0 (by omega)
        rw [hjq] at this
        exact this

theorem sink_down_heap (l : List PQItem) (h : SDInv l 0) : HeapOrd (sink_down l 0) :=
  sink_down_go_heap l.length l 0 (by omega) h

theorem pop_rest_getD (a b : PQItem) (r : List PQItem) (k : Nat) (hk1 : k ≠ 0)
    (hk2 : k ≤ (b :: r).length - 1) :
    ((b :: r).getLast (by simp) :: (b :: r).dropLast).getD k default =
      (a :: b :: r).getD k default := by
  obtain ⟨m, rfl⟩ : ∃ m, k = m + 1 := ⟨k - 1, by omega⟩
  rw [List.getD_cons_succ, List.getD_cons_succ]
  have hm : m < (b :: r).dropLast.length := by
    rw [List.length_dropLast]
    simp only [List.length_cons] at hk2 ⊢
    omega
  have hm2 : m < (b :: r).length := by
    rw [List.length_dropLast] at hm
    omega
  rw [List.getD_eq_getElem _ _ hm, List.getD_eq_getElem _ _ hm2]
  exact List.getElem_dropLast _ _ hm

theorem heap_pop_min (l : List PQItem) (t : PQItem) (rest : List PQItem)
    (h : HeapOrd l) (hp : heap_pop l = some (t, rest)) :
    ∀ x ∈ l, t.priority ≤ x.priority := by
  have ht0 : t = l.getD 0 default := by
    match l, hp with
    | [x], hp =>
      injection hp with h1
      injection h1 with h1 _
      rw [← h1]
      rfl
    | a :: b :: r, hp =>
      simp only [heap_pop] at hp
      injection hp with h1
      injection h1 with h1 _
      rw [← h1]
      rfl
  intro x hx
  obtain ⟨k, hk, he⟩ := List.mem_iff_getElem.mp hx
  rw [ht0, ← he]
  have hr := heap_root_min l h k hk
  rwa [List.getD_eq_getElem l default hk] at hr

theorem heap_pop_rest_heap (l : List PQItem) (t : PQItem) (rest : List PQItem)
    (h : HeapOrd l) (hp : heap_pop l = some (t, rest)) : HeapOrd rest := by
  match l, hp with
  | [x], hp =>
    injection hp with h1
    injection h1 with _ h2
    rw [← h2]
    intro j hj hj0
    simp at hj
  | a :: b :: r, hp =>
    simp only [heap_pop] at hp
    injection hp with h1
    injection h1 with _ h2
    have hdl : (a :: b :: r).dropLast.tail = (b :: r).dropLast := by
      simp [List.dropLast_cons₂]
    rw [← h2, hdl]
    apply sink_down_heap
    constructor
    · intro j hj hj0 hq
      simp only [List.length_cons, List.length_dropLast] at hj
      have hjb : j ≤ (b :: r).length - 1 := by
        simp only [List.length_cons] at *
        omega
      have hqb : (j - 1) / 2 ≤ (b :: r).length - 1 := by
        simp only [List.length_cons] at *
        omega
      rw [pop_rest_getD a b r j hj0 hjb, pop_rest_getD a b r ((j - 1) / 2) hq hqb]
      exact h j (by simp only [List.length_cons] at *; omega) hj0
    · intro h0
      exact absurd rfl h0

/-! ## C6: A* on the empty occupancy map -/

theorem free_empty (c : GridCoord) :
    is_free_in_grid [] c = true ↔ 0 ≤ c.x ∧ 0 ≤ c.y := by
  simp only [is_free_in_grid, alist_find]
  split
  · rename_i h
    simp only [Bool.false_eq_true, false_iff]
    omega
  · rename_i h
    simp only [Option.isNone_none, true_iff]
    omega

theorem heuristic_eq (c G : GridCoord) :
    heuristic c G + c6sigma c G = manhattan c G + 1 := by
  unfold heuristic c6sigma manhattan
  split
  · rename_i h
    rw [if_pos (by omega)]
  · rename_i h
    rw [if_neg (by omega)]

theorem c6opt_between (S G c : GridCoord) (h : c6opt S G c) :
    ((S.x ≤ c.x ∧ c.x ≤ G.x) ∨ (G.x ≤ c.x ∧ c.x ≤ S.x)) ∧
    ((S.y ≤ c.y ∧ c.y ≤ G.y) ∨ (G.y ≤ c.y ∧ c.y ≤ S.y)) := by
  unfold c6opt manhattan at h
  omega

theorem c6nxt_facts (S G c : GridCoord) (hopt : c6opt S G c) (hne : c ≠ G) :
    manhattan (c6nxt G c) G + 1 = manhattan c G ∧
    manhattan S (c6nxt G c) = manhattan S c + 1 ∧
    c6opt S G (c6nxt G c) ∧
    c6sigma c G ≤ c6sigma (c6nxt G c) G ∧
    (∃ d ∈ MOVE_DIRS, c6nxt G c = ⟨c.x + d.x, c.y + d.y⟩) := by
  have hb := c6opt_between S G c hopt
  have hcg : c.x ≠ G.x ∨ c.y ≠ G.y := by
    by_contra hc
    push_neg at hc
    exact hne (by obtain ⟨cx, cy⟩ := c; obtain ⟨gx, gy⟩ := G; simp only at hc; simp [hc.1, hc.2])
  unfold c6opt manhattan at hopt ⊢
  unfold c6nxt c6sigma
  by_cases h1 : c.x < G.x
  · rw [if_pos h1]
    refine ⟨by dsimp; omega, by dsimp; omega, by dsimp; omega, ?_, ?_⟩
    · dsimp only
      split
      · split
        · omega
        · rename_i hA hB
          rcases hA with hA | hA <;> omega
      · split <;> omega
    · exact ⟨⟨1, 0⟩, by simp [MOVE_DIRS], by dsimp only; congr 1 <;> omega⟩
  · rw [if_neg h1]
    by_cases h2 : G.x < c.x
    · rw [if_pos h2]
      refine ⟨by dsimp; omega, by dsimp; omega, by dsimp; omega, ?_, ?_⟩
      · dsimp only
        split
        · split
          · omega
          · rename_i hA hB
            rcases hA with hA | hA <;> omega
        · split <;> omega
      · exact ⟨⟨-1, 0⟩, by simp [MOVE_DIRS], by dsimp only; congr 1 <;> omega⟩
    · by_cases h3 : c.y < G.y
      · rw [if_neg h2, if_pos h3]
        refine ⟨by dsimp; omega, by dsimp; omega, by dsimp; omega, ?_, ?_⟩
        · dsimp only
          split
          · split
            · omega
            · rename_i hA hB
              rcases hA with hA | hA <;> omega
          · split <;> omega
        · exact ⟨⟨0, 1⟩, by simp [MOVE_DIRS], by dsimp only; congr 1 <;> omega⟩
      · rw [if_neg h2, if_neg h3]
        have h4 : G.y < c.y := by omega
        refine ⟨by dsimp; omega, by dsimp; omega, by dsimp; omega, ?_, ?_⟩
        · dsimp only
          split
          · split
            · omega
            · rename_i hA hB
              rcases hA with hA | hA <;> omega
          · split <;> omega
        · exact ⟨⟨0, -1⟩, by simp [MOVE_DIRS], by dsimp only; congr 1 <;> omega⟩

theorem c6opt_nonneg (S G c : GridCoord) (hSx : 0 ≤ S.x) (hSy : 0 ≤ S.y)
    (hGx : 0 ≤ G.x) (hGy : 0 ≤ G.y) (h : c6opt S G c) : 0 ≤ c.x ∧ 0 ≤ c.y := by
  have hb := c6opt_between S G c h
  omega

theorem unit_steps_iff_chain (l : List GridCoord) : unit_steps l ↔
    l.Chain' (fun a b => (b.x - a.x).natAbs + (b.y - a.y).natAbs = 1) := by
  induction l with
  | nil => simp [unit_steps]
  | cons a t ih =>
    cases t with
    | nil => simp [unit_steps]
    | cons b r =>
      rw [List.chain'_cons, unit_steps, ih]

theorem astar_upsert_inv0 (grid : Grid) (S G : GridCoord)
    (cur next : GridCoord) (cc pr : Nat) (s : AStarState)
    (hreach : astar_reach grid G S next) (hne : next ≠ cur)
    (hcur : alist_find cur s.cost = some cc) (hinv : astar_inv grid S G s)
    (hok : alist_find next s.cost = none ∨
      ∃ old, alist_find next s.cost = some old ∧ cc + 1 < old) :
    astar_inv grid S G ⟨heap_push s.pq ⟨next, pr⟩, alist_upsert next (cc + 1) s.cost,
        alist_upsert next (some cur) s.came⟩ ∧
    alist_find cur (alist_upsert next (cc + 1) s.cost) = some cc := by
  obtain ⟨inv1, inv2, inv3, inv4, inv5, inv6⟩ := hinv
  have hlen : (alist_upsert next (cc + 1) s.cost).length = s.cost.length + 1 ∨
      (alist_upsert next (cc + 1) s.cost).length = s.cost.length := by
    rcases hok with hf | ⟨old, hf, _⟩
    · exact Or.inl (alist_upsert_length_fresh _ _ _ hf)
    · exact Or.inr (alist_upsert_length_stale _ _ _ inv3
        ((alist_find_isSome_iff _ _).mp (by rw [hf]; rfl)))
  have hccn : cc + 1 ≤ s.cost.length := inv4 cur cc hcur
  refine ⟨⟨?_, ?_, ?_, ?_, ?_, ?_⟩, ?_⟩
  · -- pq lookups stay resolvable
    intro it hit
    rcases List.mem_cons.mp ((heap_push_perm _ _).mem_iff.mp hit) with rfl | hin
    · rw [alist_find_upsert, if_pos rfl]
      rfl
    · rw [alist_find_upsert]
      split
      · rfl
      · exact inv1 it hin
  · -- cost keys reachable
    intro k hk
    rw [alist_find_upsert] at hk
    by_cases he : next = k
    · exact he ▸ hreach
    · rw [if_neg he] at hk
      exact inv2 k hk
  · exact alist_upsert_nodup _ _ _ inv3
  · -- stored values bounded by the key count
    dsimp only
    intro k v hkv
    rw [alist_find_upsert] at hkv
    by_cases he : next = k
    · rw [if_pos he] at hkv
      injection hkv with hkv
      rcases hok with hf | ⟨old, hf, hlt⟩
      · rcases hlen with hl | hl
        · omega
        · rw [alist_upsert_length_fresh _ _ _ hf] at hl
          omega
      · have hob := inv4 next old hf
        rcases hlen with hl | hl <;> omega
    · rw [if_neg he] at hkv
      have := inv4 k v hkv
      rcases hlen with hl | hl <;> omega
  · rw [alist_upsert_map_fst, alist_upsert_map_fst, inv5]
  · -- parent chains strictly decrease in cost
    intro k p hkp
    rw [alist_find_upsert] at hkp
    by_cases he : next = k
    · rw [if_pos he] at hkp
      injection hkp with hkp
      injection hkp with hkp
      subst hkp
      refine ⟨cc + 1, cc, ?_, ?_, by omega⟩
      · rw [alist_find_upsert, if_pos he]
      · rw [alist_find_upsert, if_neg hne]
        exact hcur
    · rw [if_neg he] at hkp
      obtain ⟨vk, vp, h1, h2, hlt⟩ := inv6 k p hkp
      by_cases hp : next = p
      · rcases hok with hf | ⟨old, hf, hlt2⟩
        · rw [hp] at hf
          rw [hf] at h2
          exact Option.noConfusion h2
        · rw [hp] at hf
          rw [hf] at h2
          injection h2 with h2
          refine ⟨vk, cc + 1, ?_, ?_, ?_⟩
          · rw [alist_find_upsert, if_neg he]
            exact h1
          · rw [alist_find_upsert, if_pos hp]
          · omega
      · refine ⟨vk, vp, ?_, ?_, hlt⟩
        · rw [alist_find_upsert, if_neg he]
          exact h1
        · rw [alist_find_upsert, if_neg hp]
          exact h2
  · rw [alist_find_upsert, if_neg hne]
    exact hcur

theorem heuristic_self (G : GridCoord) : heuristic G G = 0 := by
  unfold heuristic
  simp

theorem mem_c6dia (G : GridCoord) (M : Nat) (c : GridCoord) :
    c ∈ c6dia G M ↔ manhattan c G ≤ M + 1 ∧ 0 ≤ c.x ∧ 0 ≤ c.y := by
  unfold c6dia
  rw [Finset.mem_filter]
  constructor
  · intro h
    simpa using h.2
  · intro h
    refine ⟨?_, by simpa using h⟩
    simp only [Finset.mem_image, Finset.mem_product, Finset.mem_Icc]
    refine ⟨(c.x, c.y), ⟨⟨?_, ?_⟩, ?_, ?_⟩, rfl⟩ <;>
      (unfold manhattan at h; omega)

theorem c6_upsert_inv (S G : GridCoord) (E : GridCoord → Prop)
    (cur next : GridCoord) (cc : Nat)
    (d : GridCoord) (hd : d ∈ MOVE_DIRS)
    (hnext : next = ⟨cur.x + d.x, cur.y + d.y⟩)
    (s : AStarState)
    (hreach : astar_reach [] G S next)
    (hcur : alist_find cur s.cost = some cc)
    (hinv : c6inv S G E s)
    (hok : alist_find next s.cost = none ∨
      ∃ old, alist_find next s.cost = some old ∧ cc + 1 < old) :
    c6inv S G E ⟨heap_push s.pq ⟨next, cc + 1 + heuristic next G⟩,
      alist_upsert next (cc + 1) s.cost, alist_upsert next (some cur) s.came⟩ := by
  obtain ⟨hA, hH, hX2, hX3, hX4a, hX4b, hX7, hX5, hX6⟩ := hinv
  have hne : next ≠ cur := by
    subst hnext
    obtain ⟨cx, cy⟩ := cur
    simp only [MOVE_DIRS, List.mem_cons, List.not_mem_nil, or_false] at hd
    rcases hd with rfl | rfl | rfl | rfl <;>
      (intro he; simp only [GridCoord.mk.injEq] at he; omega)
  have hnS : next ≠ S := by
    intro he
    rcases hok with hf | ⟨old, hf, hlt⟩
    · rw [he, hX7] at hf
      exact Option.noConfusion hf
    · rw [he, hX7] at hf
      injection hf with hf
      omega
  have hmem : ∀ it : PQItem, it ∈ heap_push s.pq ⟨next, cc + 1 + heuristic next G⟩ ↔
      it = ⟨next, cc + 1 + heuristic next G⟩ ∨ it ∈ s.pq := by
    intro it
    rw [(heap_push_perm _ _).mem_iff, List.mem_cons]
  refine ⟨astar_upsert_inv0 [] S G cur next cc _ s hreach hne hcur hA hok |>.1,
    heap_push_heap _ _ hH, ?_, ?_, ?_, ?_, ?_, ?_, ?_⟩
  · -- goal entries dominate the goal cost
    intro it hit hg
    rcases (hmem it).mp hit with rfl | hin
    · dsimp only at hg ⊢
      subst hg
      refine ⟨cc + 1, ?_, by omega⟩
      rw [alist_find_upsert, if_pos rfl]
    · obtain ⟨v, hv, hvp⟩ := hX2 it hin hg
      by_cases he : next = G
      · subst he
        rcases hok with hf | ⟨old, hf, hlt⟩
        · rw [hv] at hf
          exact Option.noConfusion hf
        · rw [hv] at hf
          injection hf with hf
          refine ⟨cc + 1, ?_, by omega⟩
          rw [alist_find_upsert, if_pos rfl]
      · refine ⟨v, ?_, hvp⟩
        rw [alist_find_upsert, if_neg he]
        exact hv
  · -- came parents are unit steps
    intro k p hkp
    rw [alist_find_upsert] at hkp
    by_cases he : next = k
    · rw [if_pos he] at hkp
      injection hkp with hkp
      injection hkp with hkp
      subst hkp
      exact ⟨d, hd, he ▸ hnext⟩
    · rw [if_neg he] at hkp
      exact hX3 k p hkp
  · rw [alist_find_upsert, if_neg hnS]
    exact hX4a
  · intro k hk
    rw [alist_find_upsert] at hk
    by_cases he : next = k
    · rw [if_pos he] at hk
      injection hk with hk
      exact Option.noConfusion hk
    · rw [if_neg he] at hk
      exact hX4b k hk
  · rw [alist_find_upsert, if_neg hnS]
    exact hX7
  · -- a cheap goal entry accompanies the goal cost
    intro v hv
    by_cases he : next = G
    · rw [alist_find_upsert, if_pos he] at hv
      injection hv with hv
      refine ⟨⟨next, cc + 1 + heuristic next G⟩, (hmem _).mpr (Or.inl rfl), he, ?_⟩
      rw [he, heuristic_self]
      dsimp only
      omega
    · rw [alist_find_upsert, if_neg he] at hv
      obtain ⟨it, hit, hg, hp⟩ := hX5 v hv
      exact ⟨it, (hmem it).mpr (Or.inr hit), hg, hp⟩
  · -- the optimal-path relay invariant
    intro c hE hopt hcG vc hvc hbnd
    by_cases he : next = c
    · subst he
      rw [alist_find_upsert, if_pos rfl] at hvc
      injection hvc with hvc
      left
      refine ⟨⟨next, cc + 1 + heuristic next G⟩, (hmem _).mpr (Or.inl rfl), rfl, ?_⟩
      have hhe := heuristic_eq next G
      unfold c6bnd at hbnd
      unfold c6opt at hopt
      dsimp only
      omega
    · rw [alist_find_upsert, if_neg he] at hvc
      rcases hX6 c hE hopt hcG vc hvc hbnd with ⟨it, hit, hco, hpr⟩ | ⟨v2, hv2, hb2⟩
      · exact Or.inl ⟨it, (hmem it).mpr (Or.inr hit), hco, hpr⟩
      · right
        by_cases hen : next = c6nxt G c
        · rcases hok with hf | ⟨old, hf, hlt⟩
          · rw [hen, hv2] at hf
            exact Option.noConfusion hf
          · rw [hen, hv2] at hf
            injection hf with hf
            refine ⟨cc + 1, ?_, by omega⟩
            rw [alist_find_upsert, if_pos hen]
        · refine ⟨v2, ?_, hb2⟩
          rw [alist_find_upsert, if_neg hen]
          exact hv2

theorem c6_step_inv (S G : GridCoord) (E : GridCoord → Prop) (cur : GridCoord)
    (cc : Nat) (d : GridCoord)
    (hd : d ∈ MOVE_DIRS) (s : AStarState)
    (hcur : alist_find cur s.cost = some cc) (hinv : c6inv S G E s) :
    c6inv S G E (expand_step [] G cur cc s d) ∧
    alist_find cur (expand_step [] G cur cc s d).cost = some cc := by
  have hne : (⟨cur.x + d.x, cur.y + d.y⟩ : GridCoord) ≠ cur := by
    obtain ⟨cx, cy⟩ := cur
    simp only [MOVE_DIRS, List.mem_cons, List.not_mem_nil, or_false] at hd
    rcases hd with rfl | rfl | rfl | rfl <;>
      (intro he; simp only [GridCoord.mk.injEq] at he; omega)
  simp only [expand_step]
  split
  · exact ⟨hinv, hcur⟩
  · rename_i hcond
    have hfg : is_free_in_grid [] ⟨cur.x + d.x, cur.y + d.y⟩ = true ∨
        (⟨cur.x + d.x, cur.y + d.y⟩ : GridCoord) = G := by
      by_cases hf : is_free_in_grid [] ⟨cur.x + d.x, cur.y + d.y⟩ = true
      · exact Or.inl hf
      · rcases Bool.eq_false_or_eq_true (grid_coord_equals ⟨cur.x + d.x, cur.y + d.y⟩ G)
          with hq | hq
        · exact Or.inr ((grid_coord_equals_iff _ _).mp hq)
        · exact absurd ⟨hf, by simp [hq]⟩ hcond
    have hreach : astar_reach [] G S ⟨cur.x + d.x, cur.y + d.y⟩ :=
      Relation.ReflTransGen.tail (hinv.1.2.1 cur (by rw [hcur]; rfl)) ⟨⟨d, hd, rfl⟩, hfg⟩
    split
    · rename_i hkeep
      cases hfind : alist_find (⟨cur.x + d.x, cur.y + d.y⟩ : GridCoord) s.cost with
      | none =>
        exact ⟨c6_upsert_inv S G E cur _ cc d hd rfl s hreach hcur
            ⟨hinv.1, hinv.2.1, hinv.2.2.1, hinv.2.2.2.1, hinv.2.2.2.2.1,
              hinv.2.2.2.2.2.1, hinv.2.2.2.2.2.2.1, hinv.2.2.2.2.2.2.2.1,
              hinv.2.2.2.2.2.2.2.2⟩ (Or.inl hfind),
          by rw [alist_find_upsert, if_neg hne]; exact hcur⟩
      | some old =>
        rw [hfind] at hkeep
        simp only [decide_eq_true_eq] at hkeep
        exact ⟨c6_upsert_inv S G E cur _ cc d hd rfl s hreach hcur
            ⟨hinv.1, hinv.2.1, hinv.2.2.1, hinv.2.2.2.1, hinv.2.2.2.2.1,
              hinv.2.2.2.2.2.1, hinv.2.2.2.2.2.2.1, hinv.2.2.2.2.2.2.2.1,
              hinv.2.2.2.2.2.2.2.2⟩ (Or.inr ⟨old, hfind, hkeep⟩),
          by rw [alist_find_upsert, if_neg hne]; exact hcur⟩
    · exact ⟨hinv, hcur⟩

theorem c6_step_cost_other (grid : Grid) (G cur : GridCoord) (cc : Nat) (s : AStarState)
    (d : GridCoord) (k : GridCoord) (hk : k ≠ ⟨cur.x + d.x, cur.y + d.y⟩) :
    alist_find k (expand_step grid G cur cc s d).cost = alist_find k s.cost := by
  simp only [expand_step]
  split
  · rfl
  · split
    · rw [alist_find_upsert, if_neg (fun he => hk he.symm)]
    · rfl

theorem c6_step_relax (grid : Grid) (G cur : GridCoord) (cc : Nat) (s : AStarState)
    (d : GridCoord)
    (hfree : ¬(¬ is_free_in_grid grid ⟨cur.x + d.x, cur.y + d.y⟩ = true ∧
      ¬ grid_coord_equals ⟨cur.x + d.x, cur.y + d.y⟩ G = true)) :
    ∃ v', alist_find (⟨cur.x + d.x, cur.y + d.y⟩ : GridCoord)
        (expand_step grid G cur cc s d).cost = some v' ∧ v' ≤ cc + 1 := by
  simp only [expand_step]
  rw [if_neg hfree]
  split
  · exact ⟨cc + 1, by rw [alist_find_upsert, if_pos rfl], le_refl _⟩
  · rename_i hkeep
    cases hfind : alist_find (⟨cur.x + d.x, cur.y + d.y⟩ : GridCoord) s.cost with
    | none =>
      rw [hfind] at hkeep
      exact absurd rfl hkeep
    | some old =>
      rw [hfind] at hkeep
      simp only [decide_eq_true_eq] at hkeep
      exact ⟨old, rfl, by omega⟩

theorem c6_step_pq_mono (grid : Grid) (G cur : GridCoord) (cc : Nat) (s : AStarState)
    (d : GridCoord) : ∀ it ∈ s.pq, it ∈ (expand_step grid G cur cc s d).pq := by
  intro it hit
  simp only [expand_step]
  split
  · exact hit
  · split
    · exact (heap_push_perm _ _).mem_iff.mpr (List.mem_cons_of_mem _ hit)
    · exact hit

theorem c6sigma_le_one (c G : GridCoord) : c6sigma c G ≤ 1 := by
  unfold c6sigma
  split <;> omega

theorem c6_step_meas (G : GridCoord) (M : Nat) (hGx : 0 ≤ G.x) (hGy : 0 ≤ G.y)
    (cur : GridCoord) (cc : Nat) (s : AStarState) (d : GridCoord) :
    c6meas G M (expand_step [] G cur cc s d) ≤ c6meas G M s := by
  simp only [expand_step]
  split
  · exact le_refl _
  · rename_i hcond
    have hnn : 0 ≤ (⟨cur.x + d.x, cur.y + d.y⟩ : GridCoord).x ∧
        0 ≤ (⟨cur.x + d.x, cur.y + d.y⟩ : GridCoord).y := by
      by_cases hf : is_free_in_grid [] ⟨cur.x + d.x, cur.y + d.y⟩ = true
      · exact (free_empty _).mp hf
      · rcases Bool.eq_false_or_eq_true (grid_coord_equals ⟨cur.x + d.x, cur.y + d.y⟩ G)
          with hq | hq
        · rw [(grid_coord_equals_iff _ _).mp hq]
          exact ⟨hGx, hGy⟩
        · exact absurd ⟨hf, by simp [hq]⟩ hcond
    split
    · rename_i hkeep
      unfold c6meas
      dsimp only
      have hpt : ∀ i ∈ c6dia G M,
          c6phi M (alist_upsert ⟨cur.x + d.x, cur.y + d.y⟩ (cc + 1) s.cost) i ≤
          c6phi M s.cost i := by
        intro i _
        unfold c6phi
        rw [alist_find_upsert]
        by_cases he : (⟨cur.x + d.x, cur.y + d.y⟩ : GridCoord) = i
        · rw [if_pos he, ← he]
          cases hfind : alist_find (⟨cur.x + d.x, cur.y + d.y⟩ : GridCoord) s.cost with
          | none =>
            simp only [Option.getD_some, Option.getD_none]
            omega
          | some old =>
            rw [hfind] at hkeep
            simp only [decide_eq_true_eq] at hkeep
            simp only [Option.getD_some]
            omega
        · rw [if_neg he]
      by_cases hcheap : cc + 1 + heuristic ⟨cur.x + d.x, cur.y + d.y⟩ G ≤ M + 1
      · -- a cheap push strictly decreases the cost potential
        have hdia : (⟨cur.x + d.x, cur.y + d.y⟩ : GridCoord) ∈ c6dia G M := by
          rw [mem_c6dia]
          have hh := heuristic_eq ⟨cur.x + d.x, cur.y + d.y⟩ G
          have hs := c6sigma_le_one ⟨cur.x + d.x, cur.y + d.y⟩ G
          exact ⟨by omega, hnn.1, hnn.2⟩
        have hstrict : c6phi M (alist_upsert ⟨cur.x + d.x, cur.y + d.y⟩ (cc + 1) s.cost)
            ⟨cur.x + d.x, cur.y + d.y⟩ < c6phi M s.cost ⟨cur.x + d.x, cur.y + d.y⟩ := by
          unfold c6phi
          rw [alist_find_upsert, if_pos rfl]
          cases hfind : alist_find (⟨cur.x + d.x, cur.y + d.y⟩ : GridCoord) s.cost with
          | none =>
            simp only [Option.getD_some, Option.getD_none]
            omega
          | some old =>
            rw [hfind] at hkeep
            simp only [decide_eq_true_eq] at hkeep
            simp only [Option.getD_some]
            omega
        have hsum : ∑ i ∈ c6dia G M,
            c6phi M (alist_upsert ⟨cur.x + d.x, cur.y + d.y⟩ (cc + 1) s.cost) i + 1 ≤
            ∑ i ∈ c6dia G M, c6phi M s.cost i :=
          Finset.sum_lt_sum hpt ⟨_, hdia, hstrict⟩
        have hfil : ((heap_push s.pq
              ⟨⟨cur.x + d.x, cur.y + d.y⟩,
                cc + 1 + heuristic ⟨cur.x + d.x, cur.y + d.y⟩ G⟩).filter
              (fun it => decide (it.priority ≤ M + 1))).length ≤
            (s.pq.filter (fun it => decide (it.priority ≤ M + 1))).length + 1 := by
          rw [((heap_push_perm _ _).filter _).length_eq, List.filter_cons]
          split
          · simp
          · simp
        have hmul := Nat.mul_le_mul_left (M + 3) hsum
        rw [Nat.mul_succ] at hmul
        omega
      · -- an expensive push leaves the cheap-entry count unchanged
        have hfil : ((heap_push s.pq
              ⟨⟨cur.x + d.x, cur.y + d.y⟩,
                cc + 1 + heuristic ⟨cur.x + d.x, cur.y + d.y⟩ G⟩).filter
              (fun it => decide (it.priority ≤ M + 1))).length =
            (s.pq.filter (fun it => decide (it.priority ≤ M + 1))).length := by
          rw [((heap_push_perm _ _).filter _).length_eq, List.filter_cons,
            if_neg (by simpa using hcheap)]
        have hsum : ∑ i ∈ c6dia G M,
            c6phi M (alist_upsert ⟨cur.x + d.x, cur.y + d.y⟩ (cc + 1) s.cost) i ≤
            ∑ i ∈ c6dia G M, c6phi M s.cost i := Finset.sum_le_sum hpt
        have hmul := Nat.mul_le_mul_left (M + 3) hsum
        omega
    · exact le_refl _

theorem c6_expand_inv (S G : GridCoord) (E : GridCoord → Prop) (cur : GridCoord)
    (cc : Nat) (s : AStarState)
    (hcur : alist_find cur s.cost = some cc) (hinv : c6inv S G E s) :
    c6inv S G E (expand [] G cur cc s) ∧
    alist_find cur (expand [] G cur cc s).cost = some cc := by
  obtain ⟨h1, c1⟩ := c6_step_inv S G E cur cc ⟨1, 0⟩ (by simp [MOVE_DIRS]) s hcur hinv
  obtain ⟨h2, c2⟩ := c6_step_inv S G E cur cc ⟨-1, 0⟩ (by simp [MOVE_DIRS]) _ c1 h1
  obtain ⟨h3, c3⟩ := c6_step_inv S G E cur cc ⟨0, 1⟩ (by simp [MOVE_DIRS]) _ c2 h2
  obtain ⟨h4, c4⟩ := c6_step_inv S G E cur cc ⟨0, -1⟩ (by simp [MOVE_DIRS]) _ c3 h3
  exact ⟨h4, c4⟩

theorem c6_expand_meas (G : GridCoord) (M : Nat) (hGx : 0 ≤ G.x) (hGy : 0 ≤ G.y)
    (cur : GridCoord) (cc : Nat) (s : AStarState) :
    c6meas G M (expand [] G cur cc s) ≤ c6meas G M s := by
  have m1 := c6_step_meas G M hGx hGy cur cc s ⟨1, 0⟩
  have m2 := c6_step_meas G M hGx hGy cur cc (expand_step [] G cur cc s ⟨1, 0⟩) ⟨-1, 0⟩
  have m3 := c6_step_meas G M hGx hGy cur cc
    (expand_step [] G cur cc (expand_step [] G cur cc s ⟨1, 0⟩) ⟨-1, 0⟩) ⟨0, 1⟩
  have m4 := c6_step_meas G M hGx hGy cur cc
    (expand_step [] G cur cc (expand_step [] G cur cc
      (expand_step [] G cur cc s ⟨1, 0⟩) ⟨-1, 0⟩) ⟨0, 1⟩) ⟨0, -1⟩
  exact le_trans (le_trans (le_trans m4 m3) m2) m1

theorem c6_expand_pq_mono (grid : Grid) (G cur : GridCoord) (cc : Nat) (s : AStarState) :
    ∀ it ∈ s.pq, it ∈ (expand grid G cur cc s).pq := by
  intro it hit
  exact c6_step_pq_mono grid G cur cc _ ⟨0, -1⟩ it
    (c6_step_pq_mono grid G cur cc _ ⟨0, 1⟩ it
      (c6_step_pq_mono grid G cur cc _ ⟨-1, 0⟩ it
        (c6_step_pq_mono grid G cur cc s ⟨1, 0⟩ it hit)))

theorem c6_expand_relax (G cur : GridCoord) (cc : Nat) (s : AStarState)
    (d : GridCoord) (hd : d ∈ MOVE_DIRS)
    (hfree : ¬(¬ is_free_in_grid [] ⟨cur.x + d.x, cur.y + d.y⟩ = true ∧
      ¬ grid_coord_equals ⟨cur.x + d.x, cur.y + d.y⟩ G = true)) :
    ∃ v', alist_find (⟨cur.x + d.x, cur.y + d.y⟩ : GridCoord)
        (expand [] G cur cc s).cost = some v' ∧ v' ≤ cc + 1 := by
  have hinj : ∀ d' : GridCoord, d' ∈ MOVE_DIRS → d' ≠ d →
      (⟨cur.x + d.x, cur.y + d.y⟩ : GridCoord) ≠ ⟨cur.x + d'.x, cur.y + d'.y⟩ := by
    intro d' hd' hne he
    simp only [MOVE_DIRS, List.mem_cons, List.not_mem_nil, or_false] at hd hd'
    simp only [GridCoord.mk.injEq] at he
    rcases hd with rfl | rfl | rfl | rfl <;> rcases hd' with rfl | rfl | rfl | rfl <;>
      first
        | exact hne rfl
        | (dsimp only at he; omega)
  rw [show expand [] G cur cc s = expand_step [] G cur cc (expand_step [] G cur cc
      (expand_step [] G cur cc (expand_step [] G cur cc s ⟨1, 0⟩) ⟨-1, 0⟩) ⟨0, 1⟩)
      ⟨0, -1⟩ from rfl]
  simp only [MOVE_DIRS, List.mem_cons, List.not_mem_nil, or_false] at hd
  rcases hd with rfl | rfl | rfl | rfl
  · obtain ⟨v', hv', hle⟩ := c6_step_relax [] G cur cc s ⟨1, 0⟩ hfree
    refine ⟨v', ?_, hle⟩
    rw [c6_step_cost_other [] G cur cc _ ⟨0, -1⟩ _
        (hinj ⟨0, -1⟩ (by simp [MOVE_DIRS]) (by decide)),
      c6_step_cost_other [] G cur cc _ ⟨0, 1⟩ _
        (hinj ⟨0, 1⟩ (by simp [MOVE_DIRS]) (by decide)),
      c6_step_cost_other [] G cur cc _ ⟨-1, 0⟩ _
        (hinj ⟨-1, 0⟩ (by simp [MOVE_DIRS]) (by decide))]
    exact hv'
  · obtain ⟨v', hv', hle⟩ := c6_step_relax [] G cur cc
      (expand_step [] G cur cc s ⟨1, 0⟩) ⟨-1, 0⟩ hfree
    refine ⟨v', ?_, hle⟩
    rw [c6_step_cost_other [] G cur cc _ ⟨0, -1⟩ _
        (hinj ⟨0, -1⟩ (by simp [MOVE_DIRS]) (by decide)),
      c6_step_cost_other [] G cur cc _ ⟨0, 1⟩ _
        (hinj ⟨0, 1⟩ (by simp [MOVE_DIRS]) (by decide))]
    exact hv'
  · obtain ⟨v', hv', hle⟩ := c6_step_relax [] G cur cc
      (expand_step [] G cur cc (expand_step [] G cur cc s ⟨1, 0⟩) ⟨-1, 0⟩) ⟨0, 1⟩ hfree
    refine ⟨v', ?_, hle⟩
    rw [c6_step_cost_other [] G cur cc _ ⟨0, -1⟩ _
        (hinj ⟨0, -1⟩ (by simp [MOVE_DIRS]) (by decide))]
    exact hv'
  · exact c6_step_relax [] G cur cc
      (expand_step [] G cur cc (expand_step [] G cur cc
        (expand_step [] G cur cc s ⟨1, 0⟩) ⟨-1, 0⟩) ⟨0, 1⟩) ⟨0, -1⟩ hfree

theorem manhattan_self (a : GridCoord) : manhattan a a = 0 := by
  unfold manhattan
  omega

theorem manhattan_eq_zero (c G : GridCoord) (h : manhattan c G = 0) : c = G := by
  unfold manhattan at h
  obtain ⟨cx, cy⟩ := c
  obtain ⟨gx, gy⟩ := G
  simp only at h
  have h1 : cx = gx := by omega
  have h2 : cy = gy := by omega
  rw [h1, h2]

theorem c6sigma_self (G : GridCoord) : c6sigma G G = 1 := by
  unfold c6sigma
  rw [if_pos (Or.inl rfl)]

theorem c6_chain_cheap (S G : GridCoord) (st : AStarState)
    (hinv : c6inv S G (fun _ => True) st) :
    ∀ (n : Nat) (c : GridCoord), manhattan c G ≤ n → c6opt S G c →
      (∃ vc, alist_find c st.cost = some vc ∧ vc ≤ c6bnd S G c) →
      ∃ it ∈ st.pq, it.priority ≤ manhattan S G + 1 := by
  have hgoal : ∀ c : GridCoord, c = G → c6opt S G c →
      (∃ vc, alist_find c st.cost = some vc ∧ vc ≤ c6bnd S G c) →
      ∃ it ∈ st.pq, it.priority ≤ manhattan S G + 1 := by
    intro c hc hopt ⟨vc, hvc, hb⟩
    subst hc
    obtain ⟨it, hit, _, hpr⟩ := hinv.2.2.2.2.2.2.2.1 vc hvc
    refine ⟨it, hit, le_trans hpr ?_⟩
    unfold c6bnd at hb
    rw [c6sigma_self] at hb
    unfold c6opt at hopt
    rw [manhattan_self] at hopt
    omega
  intro n
  induction n with
  | zero =>
    intro c hn hopt hex
    exact hgoal c (manhattan_eq_zero c G (by omega)) hopt hex
  | succ n ih =>
    intro c hn hopt hex
    by_cases hcG : c = G
    · exact hgoal c hcG hopt hex
    · obtain ⟨vc, hvc, hb⟩ := hex
      rcases hinv.2.2.2.2.2.2.2.2 c trivial hopt hcG vc hvc hb with ⟨it, hit, _, hpr⟩ |
        ⟨v2, hv2, hb2⟩
      · exact ⟨it, hit, hpr⟩
      · obtain ⟨f1, f2, f3, f4, f5⟩ := c6nxt_facts S G c hopt hcG
        exact ih (c6nxt G c) (by omega) f3 ⟨v2, hv2, hb2⟩

theorem c6_cheap_exists (S G : GridCoord) (st : AStarState)
    (hinv : c6inv S G (fun _ => True) st) :
    ∃ it ∈ st.pq, it.priority ≤ manhattan S G + 1 := by
  apply c6_chain_cheap S G st hinv (manhattan S G) S (le_refl _)
  · unfold c6opt
    rw [manhattan_self]
    omega
  · exact ⟨0, hinv.2.2.2.2.2.2.1, by omega⟩

theorem manhattan_triangle (a b c : GridCoord) :
    manhattan a c ≤ manhattan a b + manhattan b c := by
  unfold manhattan
  omega

theorem chain_manhattan : ∀ (l : List GridCoord) (a : GridCoord),
    l.Chain' (fun u v => (v.x - u.x).natAbs + (v.y - u.y).natAbs = 1) →
    l.head? = some a → ∀ b, l.getLast? = some b → manhattan a b ≤ l.length - 1 := by
  intro l
  induction l with
  | nil =>
    intro a _ h
    exact Option.noConfusion h
  | cons x t ih =>
    intro a hch hhd b hlst
    have hxa : x = a := by injection hhd
    subst hxa
    cases t with
    | nil =>
      have hxb : x = b := by
        have : (([x] : List GridCoord)).getLast? = some x := rfl
        rw [this] at hlst
        injection hlst
      subst hxb
      rw [manhattan_self]
      omega
    | cons y r =>
      rw [List.chain'_cons] at hch
      have hlst' : (y :: r).getLast? = some b := by
        rwa [List.getLast?_cons_cons] at hlst
      have h2 := ih y hch.2 rfl b hlst'
      have htri := manhattan_triangle x y b
      have hxy : manhattan x y = 1 := by
        unfold manhattan
        have := hch.1
        omega
      simp only [List.length_cons] at *
      omega

theorem c6_walk_back_spec (S G : GridCoord)
    (came : List (GridCoord × Option GridCoord)) (cost : List (GridCoord × Nat))
    (hkeys : came.map Prod.fst = cost.map Prod.fst)
    (hchain : ∀ k p, alist_find k came = some (some p) →
      ∃ vk vp, alist_find k cost = some vk ∧ alist_find p cost = some vp ∧ vp < vk)
    (hstep : ∀ k p, alist_find k came = some (some p) →
      ∃ d ∈ MOVE_DIRS, k = ⟨p.x + d.x, p.y + d.y⟩)
    (hS : ∀ k, alist_find k came = some none → k = S) :
    ∀ (v fuel : Nat) (c : GridCoord) (acc : List GridCoord),
      alist_find c cost = some v → v < fuel →
      ∃ L : List GridCoord, walk_back came fuel c acc = some (L ++ c :: acc) ∧
        L.length ≤ v ∧ (L ++ [c]).Chain' (fun a b =>
          (b.x - a.x).natAbs + (b.y - a.y).natAbs = 1) ∧
        (L ++ [c]).head? = some S := by
  intro v
  induction v using Nat.strong_induction_on with
  | _ v ih =>
    intro fuel c acc hc hv
    cases fuel with
    | zero => omega
    | succ fuel =>
      rw [walk_back]
      cases hcame : alist_find c came with
      | none =>
        exfalso
        have h1 : c ∈ cost.map Prod.fst :=
          (alist_find_isSome_iff _ _).mp (by rw [hc]; rfl)
        have h2 : c ∈ came.map Prod.fst := by
          rw [hkeys]
          exact h1
        exact (alist_find_eq_none_iff c came).mp hcame h2
      | some o =>
        cases o with
        | none =>
          have hcS : c = S := hS c hcame
          refine ⟨[], rfl, by simp, by simp, by simp [hcS]⟩
        | some parent =>
          obtain ⟨vk, vp, hck, hcp, hlt⟩ := hchain c parent hcame
          rw [hc] at hck
          injection hck with hck
          subst hck
          obtain ⟨L', hw', hl', hch', hh'⟩ := ih vp (by omega) fuel parent (c :: acc)
            hcp (by omega)
          refine ⟨L' ++ [parent], ?_, ?_, ?_, ?_⟩
          · show walk_back came fuel parent (c :: acc) =
              some ((L' ++ [parent]) ++ c :: acc)
            rw [hw']
            simp
          · simp only [List.length_append, List.length_cons, List.length_nil]
            omega
          · rw [List.chain'_append]
            refine ⟨hch', by simp, ?_⟩
            intro x hx y hy
            rw [List.getLast?_concat] at hx
            simp only [Option.mem_def, Option.some.injEq] at hx
            simp only [List.head?_cons, Option.mem_def, Option.some.injEq] at hy
            subst hx
            subst hy
            obtain ⟨d, hd, he⟩ := hstep c parent hcame
            rw [he]
            simp only [MOVE_DIRS, List.mem_cons, List.not_mem_nil, or_false] at hd
            rcases hd with rfl | rfl | rfl | rfl <;> (dsimp only; omega)
          · rw [List.head?_append, hh']
            rfl

theorem c6_iter (S G : GridCoord) (hSx : 0 ≤ S.x) (hSy : 0 ≤ S.y) (hGx : 0 ≤ G.x)
    (hGy : 0 ≤ G.y) (st : AStarState) (hinv : c6inv S G (fun _ => True) st)
    (cur : PQItem) (rest : List PQItem) (hp : heap_pop st.pq = some (cur, rest))
    (hgf : cur.coord ≠ G) (cc : Nat) (hfind : alist_find cur.coord st.cost = some cc) :
    c6inv S G (fun _ => True) (expand [] G cur.coord cc { st with pq := rest }) := by
  have hperm := heap_pop_perm _ _ _ hp
  have hinvr : c6inv S G (fun c => c ≠ cur.coord) { st with pq := rest } := by
    obtain ⟨hA, hH, hX2, hX3, hX4a, hX4b, hX7, hX5, hX6⟩ := hinv
    refine ⟨?_, heap_pop_rest_heap _ _ _ hH hp, ?_, hX3, hX4a, hX4b, hX7, ?_, ?_⟩
    · obtain ⟨i1, i2, i3, i4, i5, i6⟩ := hA
      exact ⟨fun it hit => i1 it (hperm.mem_iff.mpr (List.mem_cons_of_mem _ hit)),
        i2, i3, i4, i5, i6⟩
    · intro it hit hg
      exact hX2 it (hperm.mem_iff.mpr (List.mem_cons_of_mem _ hit)) hg
    · intro v hv
      obtain ⟨it, hit, hg, hpr⟩ := hX5 v hv
      refine ⟨it, ?_, hg, hpr⟩
      rcases List.mem_cons.mp (hperm.mem_iff.mp hit) with he | hr
      · subst he
        exact absurd hg hgf
      · exact hr
    · intro c hEc hopt hcG vc hvc hb
      rcases hX6 c trivial hopt hcG vc hvc hb with ⟨it, hit, hco, hpr⟩ | hr
      · left
        refine ⟨it, ?_, hco, hpr⟩
        rcases List.mem_cons.mp (hperm.mem_iff.mp hit) with he | hr2
        · subst he
          exact absurd hco.symm hEc
        · exact hr2
      · exact Or.inr hr
  obtain ⟨hinvE, hcpres⟩ := c6_expand_inv S G (fun c => c ≠ cur.coord) cur.coord cc
    { st with pq := rest } hfind hinvr
  obtain ⟨hA, hH, hX2, hX3, hX4a, hX4b, hX7, hX5, hX6E⟩ := hinvE
  refine ⟨hA, hH, hX2, hX3, hX4a, hX4b, hX7, hX5, ?_⟩
  intro c _ hopt hcG vc hvc hb
  by_cases hc0 : c = cur.coord
  · subst hc0
    right
    rw [hcpres] at hvc
    injection hvc with hvc
    subst hvc
    obtain ⟨f1, f2, f3, f4, ⟨d0, hd0, hnx⟩⟩ := c6nxt_facts S G cur.coord hopt hcG
    have hnn := c6opt_nonneg S G (c6nxt G cur.coord) hSx hSy hGx hGy f3
    have hfree : ¬(¬ is_free_in_grid []
          ⟨cur.coord.x + d0.x, cur.coord.y + d0.y⟩ = true ∧
        ¬ grid_coord_equals ⟨cur.coord.x + d0.x, cur.coord.y + d0.y⟩ G = true) := by
      intro hcon
      exact hcon.1 ((free_empty _).mpr (by rw [← hnx]; exact hnn))
    obtain ⟨v', hv', hle⟩ := c6_expand_relax G cur.coord cc { st with pq := rest }
      d0 hd0 hfree
    rw [← hnx] at hv'
    refine ⟨v', hv', ?_⟩
    unfold c6bnd at hb ⊢
    omega
  · exact hX6E c hc0 hopt hcG vc hvc hb

theorem c6_loop (S G : GridCoord) (hSx : 0 ≤ S.x) (hSy : 0 ≤ S.y) (hGx : 0 ≤ G.x)
    (hGy : 0 ≤ G.y) :
    ∀ (μ : Nat) (st : AStarState), c6inv S G (fun _ => True) st →
      c6meas G (manhattan S G) st ≤ μ →
      ∃ fuel path, get_path_loop [] G fuel st = RunRes.res (some path) ∧
        path.Chain' (fun a b => (b.x - a.x).natAbs + (b.y - a.y).natAbs = 1) ∧
        path.head? = some S ∧ path.getLast? = some G ∧
        path.length - 1 ≤ manhattan S G + 1 := by
  intro μ
  induction μ using Nat.strong_induction_on with
  | _ μ ih =>
    intro st hinv hm
    obtain ⟨itc, hitc, hcheap⟩ := c6_cheap_exists S G st hinv
    have hne_pq : st.pq ≠ [] := fun he => by
      rw [he] at hitc
      exact absurd hitc (List.not_mem_nil _)
    cases hp : heap_pop st.pq with
    | none => exact absurd ((heap_pop_eq_none _).mp hp) hne_pq
    | some pc =>
      obtain ⟨cur, rest⟩ := pc
      have hperm := heap_pop_perm _ _ _ hp
      have hmin := heap_pop_min _ _ _ hinv.2.1 hp
      have hcurch : cur.priority ≤ manhattan S G + 1 := le_trans (hmin itc hitc) hcheap
      have hcmem : cur ∈ st.pq := hperm.mem_iff.mpr (List.mem_cons_self _ _)
      by_cases hgoal : grid_coord_equals cur.coord G = true
      · have hcG : cur.coord = G := (grid_coord_equals_iff _ _).mp hgoal
        obtain ⟨vG, hvG, hvGp⟩ := hinv.2.2.1 cur hcmem hcG
        obtain ⟨i1, i2, i3, i4, i5, i6⟩ := hinv.1
        have hlencame : st.came.length = st.cost.length := by
          calc st.came.length = (st.came.map Prod.fst).length := (List.length_map _ _).symm
            _ = (st.cost.map Prod.fst).length := by rw [i5]
            _ = st.cost.length := List.length_map _ _
        have hvlen : vG + 1 ≤ st.cost.length := i4 G vG hvG
        obtain ⟨L, hw, hlL, hch, hhd⟩ := c6_walk_back_spec S G st.came st.cost i5 i6
          hinv.2.2.2.1 hinv.2.2.2.2.2.1 vG (st.came.length + 1) cur.coord []
          (by rw [hcG]; exact hvG) (by omega)
        refine ⟨1, L ++ [cur.coord], ?_, hch, hhd, ?_, ?_⟩
        · simp only [get_path_loop, hp]
          rw [if_pos hgoal, hw]
        · rw [List.getLast?_concat, hcG]
        · simp only [List.length_append, List.length_cons, List.length_nil]
          omega
      · have hgf : grid_coord_equals cur.coord G = false := by
          rcases Bool.eq_false_or_eq_true (grid_coord_equals cur.coord G) with h | h
          · exact absurd h hgoal
          · exact h
        have hcGne : cur.coord ≠ G := fun he => hgoal ((grid_coord_equals_iff _ _).mpr he)
        have hsome := hinv.1.1 cur hcmem
        cases hfind : alist_find cur.coord st.cost with
        | none =>
          rw [hfind] at hsome
          exact absurd hsome (by simp)
        | some cc =>
          have hinv2 := c6_iter S G hSx hSy hGx hGy st hinv cur rest hp hcGne cc hfind
          have hmeas2 : c6meas G (manhattan S G)
              (expand [] G cur.coord cc { st with pq := rest }) + 1 ≤
              c6meas G (manhattan S G) st := by
            have h1 := c6_expand_meas G (manhattan S G) hGx hGy cur.coord cc
              { st with pq := rest }
            have h2 : c6meas G (manhattan S G) { st with pq := rest } + 1 ≤
                c6meas G (manhattan S G) st := by
              unfold c6meas
              dsimp only
              have hfl : (st.pq.filter
                    (fun it => decide (it.priority ≤ manhattan S G + 1))).length =
                  (rest.filter
                    (fun it => decide (it.priority ≤ manhattan S G + 1))).length + 1 := by
                rw [(hperm.filter _).length_eq, List.filter_cons,
                  if_pos (by simpa using hcurch)]
                simp
              omega
            omega
          obtain ⟨fuel, path, hrun, hch, hhd, hlst, hlen⟩ := ih (μ - 1) (by omega) _
            hinv2 (by omega)
          refine ⟨fuel + 1, path, ?_, hch, hhd, hlst, hlen⟩
          simp only [get_path_loop, hp, hgf, Bool.false_eq_true, if_false, hfind]
          exact hrun

theorem c6_init_inv (S G : GridCoord) (hne : S ≠ G) :
    c6inv S G (fun _ => True) (get_path_init S) := by
  refine ⟨astar_init_inv [] S G, ?_, ?_, ?_, ?_, ?_, ?_, ?_, ?_⟩
  · intro j hj hj0
    have hj1 : j < 1 := hj
    omega
  · intro it hit hg
    have he : it = ⟨S, 0⟩ := List.mem_singleton.mp hit
    subst he
    exact absurd hg hne
  · intro k p hkp
    have hkp2 : alist_find k [(S, (none : Option GridCoord))] = some (some p) := hkp
    by_cases hS : S = k
    · rw [show alist_find k [(S, (none : Option GridCoord))] =
          if S = k then some none else none from by simp [alist_find], if_pos hS] at hkp2
      injection hkp2 with h2
      exact Option.noConfusion h2
    · rw [show alist_find k [(S, (none : Option GridCoord))] =
          if S = k then some none else none from by simp [alist_find], if_neg hS] at hkp2
      exact Option.noConfusion hkp2
  · show alist_find S [(S, (none : Option GridCoord))] = some none
    simp [alist_find]
  · intro k hk
    have hk2 : alist_find k [(S, (none : Option GridCoord))] = some none := hk
    by_cases hS : S = k
    · exact hS.symm
    · rw [show alist_find k [(S, (none : Option GridCoord))] =
          if S = k then some none else none from by simp [alist_find], if_neg hS] at hk2
      exact Option.noConfusion hk2
  · show alist_find S [(S, (0 : Nat))] = some 0
    simp [alist_find]
  · intro v hv
    have hv2 : alist_find G [(S, (0 : Nat))] = some v := hv
    rw [show alist_find G [(S, (0 : Nat))] =
        if S = G then some 0 else none from by simp [alist_find],
      if_neg (fun he => hne he)] at hv2
    exact Option.noConfusion hv2
  · intro c _ hopt hcG vc hvc hb
    have hvc2 : alist_find c [(S, (0 : Nat))] = some vc := hvc
    by_cases hS : S = c
    · subst hS
      left
      exact ⟨⟨S, 0⟩, List.mem_singleton.mpr rfl, rfl, by dsimp only; omega⟩
    · rw [show alist_find c [(S, (0 : Nat))] =
          if S = c then some 0 else none from by simp [alist_find], if_neg hS] at hvc2
      exact Option.noConfusion hvc2

/-- C6: on the empty occupancy map, for every two distinct grid
coordinates with non-negative components, `get_path` returns a path (not
`None`): some iteration bound makes the loop return `res (some path)`.
The path runs from the start to the goal in single 4-directional unit
steps, and its number of steps is at least the Manhattan distance and at
most the Manhattan distance plus one -- the "small constant" allowed by
the claim, matching the heuristic's `+1` inflation on cells not sharing
a row or column with the goal. -/
theorem C6_theorem (S G : GridCoord) (hSx : 0 ≤ S.x) (hSy : 0 ≤ S.y)
    (hGx : 0 ≤ G.x) (hGy : 0 ≤ G.y) (hne : S ≠ G) :
    ∃ fuel path, get_path fuel [] S G = RunRes.res (some path) ∧
      unit_steps path ∧ path.head? = some S ∧ path.getLast? = some G ∧
      manhattan S G ≤ path.length - 1 ∧ path.length - 1 ≤ manhattan S G + 1 := by
  obtain ⟨fuel, path, hrun, hch, hhd, hlst, hlen⟩ := c6_loop S G hSx hSy hGx hGy
    (c6meas G (manhattan S G) (get_path_init S)) (get_path_init S)
    (c6_init_inv S G hne) (le_refl _)
  exact ⟨fuel, path, hrun, (unit_steps_iff_chain path).mpr hch, hhd, hlst,
    chain_manhattan path S hch hhd G hlst, hlen⟩

/-- Witness for C6 at the concrete start `(0,0)` and goal `(2,1)`. -/
theorem C6_witness : ∃ fuel path,
    get_path fuel [] ⟨0, 0⟩ ⟨2, 1⟩ = RunRes.res (some path) ∧
    unit_steps path ∧ path.head? = some ⟨0, 0⟩ ∧ path.getLast? = some ⟨2, 1⟩ ∧
    manhattan ⟨0, 0⟩ ⟨2, 1⟩ ≤ path.length - 1 ∧
    path.length - 1 ≤ manhattan ⟨0, 0⟩ ⟨2, 1⟩ + 1 :=
  C6_theorem ⟨0, 0⟩ ⟨2, 1⟩ (by decide) (by decide) (by decide) (by decide) (by decide)

/-! ## Path simplification: helper lemmas -/

theorem merge_aux_eq_of_no_triple (rest : List GridCoord) :
    ∀ s0 s1, no_triple (s0 :: s1 :: rest) → merge_aux s0 s1 rest = s1 :: rest := by
  induction rest with
  | nil => intro s0 s1 _; rfl
  | cons s2 r ih =>
    intro s0 s1 h
    obtain ⟨h1, h2⟩ := h
    unfold merge_aux
    rw [if_neg h1, ih s1 s2 h2]

theorem merge_path_eq_of_no_triple (p : List GridCoord) (h : no_triple p) :
    merge_path p = p := by
  match p with
  | [] => rfl
  | [a] => rfl
  | [a, b] => rfl
  | a :: b :: c :: rest =>
    show a :: merge_aux a b (c :: rest) = _
    rw [merge_aux_eq_of_no_triple (c :: rest) a b h]

theorem unit_cases (dx dy : Int) (h : dx.natAbs + dy.natAbs = 1) :
    (dx = 1 ∧ dy = 0) ∨ (dx = -1 ∧ dy = 0) ∨ (dx = 0 ∧ dy = 1) ∨ (dx = 0 ∧ dy = -1) := by
  omega

theorem unit_scale_ne (ux uy vx vy k m : Int) (hu : ux.natAbs + uy.natAbs = 1)
    (hv : vx.natAbs + vy.natAbs = 1) (hne : ¬(ux = vx ∧ uy = vy))
    (hk : 1 ≤ k) (hm : 1 ≤ m) :
    ¬(k * ux = m * vx ∧ k * uy = m * vy) := by
  rcases unit_cases ux uy hu with ⟨h1, h2⟩ | ⟨h1, h2⟩ | ⟨h1, h2⟩ | ⟨h1, h2⟩ <;>
    rcases unit_cases vx vy hv with ⟨g1, g2⟩ | ⟨g1, g2⟩ | ⟨g1, g2⟩ | ⟨g1, g2⟩ <;>
    subst h1 <;> subst h2 <;> subst g1 <;> subst g2 <;>
    first
      | (intro hc; obtain ⟨hc1, hc2⟩ := hc; omega)
      | exact fun _ => hne ⟨rfl, rfl⟩

theorem merge_aux_output (rest : List GridCoord) :
    ∀ s0 s1 e (k : Int), 1 ≤ k →
    ((s1.x - s0.x).natAbs + (s1.y - s0.y).natAbs = 1) →
    s1.x - e.x = k * (s1.x - s0.x) → s1.y - e.y = k * (s1.y - s0.y) →
    unit_steps (s1 :: rest) →
    no_triple (e :: merge_aux s0 s1 rest) ∧
    ∃ h t, merge_aux s0 s1 rest = h :: t ∧
      ∃ m : Int, 1 ≤ m ∧ h.x - e.x = m * (s1.x - s0.x) ∧ h.y - e.y = m * (s1.y - s0.y) := by
  induction rest with
  | nil =>
    intro s0 s1 e k hk _ hx hy _
    exact ⟨trivial, s1, [], rfl, k, hk, hx, hy⟩
  | cons s2 r ih =>
    intro s0 s1 e k hk hu hx hy hchain
    obtain ⟨hw, hchain2⟩ := hchain
    by_cases hc : s1.x - s0.x = s2.x - s1.x ∧ s1.y - s0.y = s2.y - s1.y
    · have ihres := ih s1 s2 e (k + 1) (by omega) hw
        (by linear_combination hx + k * hc.1)
        (by linear_combination hy + k * hc.2) hchain2
      unfold merge_aux
      rw [if_pos hc]
      refine ⟨ihres.1, ?_⟩
      obtain ⟨h, t, heq, m, hm, hmx, hmy⟩ := ihres.2
      exact ⟨h, t, heq, m, hm, by rw [hc.1]; exact hmx, by rw [hc.2]; exact hmy⟩
    · have ihres := ih s1 s2 s1 1 le_rfl hw (by ring) (by ring) hchain2
      obtain ⟨ntQ, h1, t1, heq, m, hm, hmx, hmy⟩ := ihres
      unfold merge_aux
      rw [if_neg hc]
      constructor
      · show no_triple (e :: s1 :: merge_aux s1 s2 r)
        rw [heq] at ntQ ⊢
        refine ⟨?_, ntQ⟩
        intro hcontra
        refine unit_scale_ne (s1.x - s0.x) (s1.y - s0.y) (s2.x - s1.x) (s2.y - s1.y)
          k m hu hw hc hk hm ⟨?_, ?_⟩
        · linarith [hcontra.1, hx, hmx]
        · linarith [hcontra.2, hy, hmy]
      · exact ⟨s1, merge_aux s1 s2 r, rfl, k, hk, hx, hy⟩

/-- C5 (corrected): on an arbitrary coordinate list a second
`merge_path` pass can drop further points: the four-point straight list
below with uneven step sizes simplifies twice. -/
theorem C5_counterexample :
    merge_path (merge_path [⟨0,0⟩, ⟨2,0⟩, ⟨3,0⟩, ⟨4,0⟩]) ≠
      merge_path [⟨0,0⟩, ⟨2,0⟩, ⟨3,0⟩, ⟨4,0⟩] := by decide

/-- C5 (amended): `merge_path` is idempotent on every path whose
consecutive points differ by single 4-directional unit steps — in
particular on every path the pathfinder produces. -/
theorem C5_amended_theorem (p : List GridCoord) (h : unit_steps p) :
    merge_path (merge_path p) = merge_path p := by
  match p, h with
  | [], _ => rfl
  | [a], _ => rfl
  | [a, b], _ => rfl
  | a :: b :: c :: rest, h =>
    obtain ⟨h1, h2⟩ := h
    have main := merge_aux_output (c :: rest) a b a 1 le_rfl h1 (by ring) (by ring) h2
    have : merge_path (a :: b :: c :: rest) = a :: merge_aux a b (c :: rest) := rfl
    rw [this]
    exact merge_path_eq_of_no_triple _ main.1

/-- C5 witness: the amended idempotence applied to a concrete unit-step
path with one bend. -/
theorem C5_witness :
    merge_path (merge_path [⟨0,0⟩, ⟨1,0⟩, ⟨2,0⟩, ⟨2,1⟩]) =
      merge_path [⟨0,0⟩, ⟨1,0⟩, ⟨2,0⟩, ⟨2,1⟩] :=
  C5_amended_theorem [⟨0,0⟩, ⟨1,0⟩, ⟨2,0⟩, ⟨2,1⟩] (by norm_num [unit_steps])

/-! ## Canvas serialization -/

theorem range_getD_map {α β : Type} (l : List α) (f : α → β) (d : α) :
    (List.range l.length).map (fun i => f (l.getD i d)) = l.map f := by
  apply List.ext_getElem
  · simp
  · intro i h1 h2
    have hi : i < l.length := by simpa using h2
    simp only [List.getElem_map, List.getElem_range]
    rw [List.getD_eq_getElem _ _ hi]

theorem intercalate_nl_cons (rs : List (List Char)) :
    ∀ r, List.intercalate ['\n'] (r :: rs) = r ++ (rs.map (fun q => '\n' :: q)).flatten := by
  induction rs with
  | nil => intro r; simp [List.intercalate]
  | cons s t ih =>
    intro r
    have h1 : List.intercalate ['\n'] (r :: s :: t) =
        r ++ ['\n'] ++ List.intercalate ['\n'] (s :: t) := by
      simp only [List.intercalate, List.intersperse_cons₂, List.flatten_cons]
      simp [List.append_assoc]
    rw [h1, ih s]
    simp [List.append_assoc]

theorem join_fold_data (rs : List (List Char)) :
    ∀ acc : String,
    ((rs.map (fun q => String.mk q)).foldl (fun a l => a ++ "\n" ++ l) acc).data =
      acc.data ++ (rs.map (fun q => '\n' :: q)).flatten := by
  induction rs with
  | nil => intro acc; simp
  | cons s t ih =>
    intro acc
    simp only [List.map_cons, List.foldl_cons, List.flatten_cons]
    rw [ih]
    simp [String.data_append]

theorem join_lines_data (rows : List (List Char)) :
    (join_lines (rows.map (fun r => String.mk r))).data =
      List.intercalate ['\n'] rows := by
  match rows with
  | [] => rfl
  | r :: rs =>
    rw [intercalate_nl_cons rs r]
    simp only [List.map_cons, join_lines]
    rw [join_fold_data]

theorem count_flatten_nl (rs : List (List Char))
    (h : ∀ r ∈ rs, ∀ ch ∈ r, ch ≠ '\n') :
    ((rs.map (fun q => '\n' :: q)).flatten).count '\n' = rs.length := by
  induction rs with
  | nil => rfl
  | cons s t ih =>
    simp only [List.map_cons, List.flatten_cons, List.count_append, List.count_cons,
      List.length_cons]
    have hs : s.count '\n' = 0 :=
      List.count_eq_zero.mpr (fun hm => h s (List.mem_cons_self _ _) '\n' hm rfl)
    rw [ih (fun r hr => h r (List.mem_cons_of_mem _ hr))]
    simp [hs]
    omega

theorem getLast_join_nl (rs : List (List Char)) :
    ∀ (r : List Char),
    (∀ last, r.getLast? = some last → last ≠ '\n') →
    (∀ q ∈ rs, q ≠ [] ∧ ∀ last, q.getLast? = some last → last ≠ '\n') →
    ∀ last, (r ++ (rs.map (fun q => '\n' :: q)).flatten).getLast? = some last →
      last ≠ '\n' := by
  induction rs with
  | nil =>
    intro r hr _ last hl
    simp only [List.map_nil, List.flatten_nil, List.append_nil] at hl
    exact hr last hl
  | cons s t ih =>
    intro r hr hq last hl
    rw [List.map_cons, List.flatten_cons, ← List.append_assoc] at hl
    obtain ⟨hs_ne, hs_last⟩ := hq s (List.mem_cons_self _ _)
    refine ih (r ++ '\n' :: s) ?_ (fun q hqt => hq q (List.mem_cons_of_mem _ hqt)) last hl
    intro last' hl'
    rw [List.getLast?_append] at hl'
    cases hv : s.getLast? with
    | none => exact absurd (List.getLast?_eq_none.mp hv) hs_ne
    | some v =>
      rw [List.getLast?_cons, hv] at hl'
      simp only [Option.getD_some, Option.or_some, Option.some.injEq] at hl'
      subst hl'
      exact hs_last v hv

theorem canvas_rows_spec_no_nl (canvas : Canvas)
    (hnl : ∀ col ∈ canvas, ∀ ch ∈ col, ch ≠ '\n') :
    ∀ r ∈ canvas_rows_spec canvas, ∀ ch ∈ r, ch ≠ '\n' := by
  intro r hr ch hch
  simp only [canvas_rows_spec, List.mem_map, List.mem_range] at hr
  obtain ⟨y, _, rfl⟩ := hr
  simp only [List.mem_map] at hch
  obtain ⟨col, hcol, rfl⟩ := hch
  by_cases hy : y < col.length
  · rw [List.getD_eq_getElem _ _ hy]
    exact hnl col hcol _ (List.getElem_mem hy)
  · rw [List.getD_eq_default _ _ (by omega)]
    decide

/-- C9: serializing a rectangular canvas yields exactly the rows joined
by single newlines: the character data is the `intercalate` of the rows
(one per canvas row, each the concatenation of that row's characters
across the columns in order), the newline count is the row count minus
one, and the string does not end in a newline. -/
theorem C9_theorem (canvas : Canvas) (hrect : rectangular canvas)
    (hnl : ∀ col ∈ canvas, ∀ ch ∈ col, ch ≠ '\n') :
    (canvas_to_string canvas).data =
      List.intercalate ['\n'] (canvas_rows_spec canvas) ∧
    (canvas_to_string canvas).data.count '\n' = (canvas.headD []).length - 1 ∧
    (∀ last, (canvas_to_string canvas).data.getLast? = some last → last ≠ '\n') := by
  obtain ⟨hne, _hcols⟩ := hrect
  obtain ⟨c0, tl, rfl⟩ := List.exists_cons_of_ne_nil hne
  have hmain : (canvas_to_string (c0 :: tl)).data =
      List.intercalate ['\n'] (canvas_rows_spec (c0 :: tl)) := by
    have hH : (((get_canvas_size (c0 :: tl)).2 + 1)).toNat = c0.length := by
      simp only [get_canvas_size, List.head?_cons]
      omega
    have hW : (((get_canvas_size (c0 :: tl)).1 + 1)).toNat = (c0 :: tl).length := by
      simp only [get_canvas_size]
      omega
    have hrow : ∀ y : Nat,
        (List.range (((get_canvas_size (c0 :: tl)).1 + 1)).toNat).map
            (fun x => canvas_get (c0 :: tl) x y) =
          (c0 :: tl).map (fun col => col.getD y ' ') := by
      intro y
      rw [hW]
      exact range_getD_map (c0 :: tl) (fun col => col.getD y ' ') []
    have hlines : (List.range (((get_canvas_size (c0 :: tl)).2 + 1)).toNat).map
          (fun y => String.mk ((List.range (((get_canvas_size (c0 :: tl)).1 + 1)).toNat).map
            (fun x => canvas_get (c0 :: tl) x y))) =
        (canvas_rows_spec (c0 :: tl)).map (fun r => String.mk r) := by
      rw [hH]
      simp only [canvas_rows_spec, List.headD_cons, List.map_map]
      refine List.map_congr_left (fun y _ => ?_)
      simp only [Function.comp_apply]
      congr 1
      exact hrow y
    show (join_lines ((List.range (((get_canvas_size (c0 :: tl)).2 + 1)).toNat).map
          (fun y => String.mk ((List.range (((get_canvas_size (c0 :: tl)).1 + 1)).toNat).map
            (fun x => canvas_get (c0 :: tl) x y))))).data = _
    rw [hlines]
    exact join_lines_data (canvas_rows_spec (c0 :: tl))
  have hrows_nl := canvas_rows_spec_no_nl (c0 :: tl) hnl
  have hrows_len : (canvas_rows_spec (c0 :: tl)).length = c0.length := by
    simp [canvas_rows_spec]
  refine ⟨hmain, ?_, ?_⟩
  · rw [hmain]
    match hq : canvas_rows_spec (c0 :: tl) with
    | [] =>
      have : c0.length = 0 := by rw [← hrows_len, hq]; rfl
      simp [List.intercalate, List.headD_cons, this]
    | r :: rs =>
      rw [intercalate_nl_cons rs r, List.count_append]
      have hr0 : r.count '\n' = 0 :=
        List.count_eq_zero.mpr (fun hm =>
          hrows_nl r (hq ▸ List.mem_cons_self _ _) '\n' hm rfl)
      rw [hr0, count_flatten_nl rs (fun q hqs =>
        hrows_nl q (hq ▸ List.mem_cons_of_mem _ hqs))]
      have : (canvas_rows_spec (c0 :: tl)).length = rs.length + 1 := by rw [hq]; rfl
      simp only [List.headD_cons]
      omega
  · rw [hmain]
    match hq : canvas_rows_spec (c0 :: tl) with
    | [] =>
      intro last hl
      simp [List.intercalate] at hl
    | r :: rs =>
      rw [intercalate_nl_cons rs r]
      have hrow_ne : ∀ q ∈ canvas_rows_spec (c0 :: tl), q ≠ [] := by
        intro q hqmem
        simp only [canvas_rows_spec, List.mem_map, List.mem_range] at hqmem
        obtain ⟨y, _, rfl⟩ := hqmem
        simp
      have hlast_of : ∀ q ∈ canvas_rows_spec (c0 :: tl),
          ∀ last, q.getLast? = some last → last ≠ '\n' := by
        intro q hqmem last hl
        obtain ⟨hq_ne, hq_eq⟩ := List.mem_getLast?_eq_getLast (l := q) (x := last) hl
        exact hq_eq ▸ hrows_nl q hqmem _ (List.getLast_mem hq_ne)
      exact getLast_join_nl rs r
        (hlast_of r (hq ▸ List.mem_cons_self _ _))
        (fun q hqs => ⟨hrow_ne q (hq ▸ List.mem_cons_of_mem _ hqs),
          hlast_of q (hq ▸ List.mem_cons_of_mem _ hqs)⟩)

/-- C9 witness: a concrete 2x2 canvas. -/
theorem C9_witness :
    (canvas_to_string [['a', 'b'], ['c', 'd']]).data =
      List.intercalate ['\n'] (canvas_rows_spec [['a', 'b'], ['c', 'd']]) ∧
    (canvas_to_string [['a', 'b'], ['c', 'd']]).data.count '\n' =
      ([['a', 'b'], ['c', 'd']].headD []).length - 1 ∧
    (∀ last, (canvas_to_string [['a', 'b'], ['c', 'd']]).data.getLast? = some last →
      last ≠ '\n') :=
  C9_theorem [['a', 'b'], ['c', 'd']] ⟨by decide, by decide⟩ (by decide)

/-! ## Junction table -/

/-- C3 (counterexample): the half-line glyphs are members of the
junction character set but key no row of the merge table, so both
orders fall through to the first argument and the two orders give
different visible glyphs. -/
theorem C3_counterexample :
    ('╵' ∈ JUNCTION_CHARS) ∧ ('─' ∈ JUNCTION_CHARS) ∧
    merge_junctions '╵' '─' = '╵' ∧ merge_junctions '─' '╵' = '─' ∧
    merge_junctions '╵' '─' ≠ merge_junctions '─' '╵' := by decide

/-- C3 (amended): restricted to distinct pairs of the ten glyphs that
key the merge table, the lookup is always defined and the merge is
symmetric. -/
theorem C3_amended_theorem :
    ∀ a ∈ MAPPED_JUNCTION_CHARS, ∀ b ∈ MAPPED_JUNCTION_CHARS, a ≠ b →
    ((alist_find a JUNCTION_MAP).bind (alist_find b)).isSome ∧
      merge_junctions a b = merge_junctions b a := by decide

/-- C3 witness: the amended statement at the horizontal/vertical pair. -/
theorem C3_witness :
    ((alist_find '─' JUNCTION_MAP).bind (alist_find '│')).isSome ∧
      merge_junctions '─' '│' = merge_junctions '│' '─' :=
  C3_amended_theorem '─' (by decide) '│' (by decide) (by decide)

/-! ## Pathfinder: start equals goal -/

/-- C10: when start and goal coincide, the very first loop iteration
pops the start, matches the goal and reconstructs the one-point path;
the occupancy and sign checks are never consulted, so this holds for
every occupancy map and every coordinate, occupied or negative. -/
theorem C10_theorem (grid : Grid) (c : GridCoord) :
    get_path 1 grid c c = .res (some [c]) := by
  simp [get_path, get_path_init, get_path_loop, heap_push, bubble_up, bubble_up_go,
    heap_pop, walk_back, alist_upsert, alist_erase, alist_find, grid_coord_equals]

/-! ## Placement: the occupancy map invariant -/

theorem alist_find_fold_upsert (keys : List GridCoord) (v : Nat) (grid : Grid)
    (c : GridCoord) :
    alist_find c (keys.foldl (fun g k => alist_upsert k v g) grid) =
      if c ∈ keys then some v else alist_find c grid := by
  induction keys generalizing grid with
  | nil => simp
  | cons k ks ih =>
    rw [List.foldl_cons, ih]
    by_cases hks : c ∈ ks
    · rw [if_pos hks, if_pos (List.mem_cons_of_mem _ hks)]
    · rw [if_neg hks, alist_find_upsert]
      by_cases hk : k = c
      · subst hk
        simp
      · rw [if_neg hk, if_neg (by
          simp only [List.mem_cons]
          exact fun h => h.elim (fun h1 => hk h1.symm) hks)]

theorem find_reserve_block (grid : Grid) (node : Nat) (r c : GridCoord) :
    alist_find c ((List.range 3).foldl (fun g2 (dx : Nat) =>
      (List.range 3).foldl (fun g3 (dy : Nat) =>
        alist_upsert ⟨r.x + (dx : Int), r.y + (dy : Int)⟩ node g3) g2) grid) =
    if in_block r c then some node else alist_find c grid := by
  obtain ⟨cx, cy⟩ := c
  rw [show List.range 3 = [0, 1, 2] from rfl]
  simp only [List.foldl_cons, List.foldl_nil, alist_find_upsert]
  split_ifs <;>
    first
      | rfl
      | (simp only [GridCoord.mk.injEq, in_block] at *; omega)

theorem reserve_spot_spec (fuel : Nat) :
    ∀ (gd : GraphDirection) (grid : Grid) (node : Nat) (req : GridCoord)
      (grid' : Grid) (got : GridCoord),
    reserve_spot_in_grid fuel gd grid node req = some (grid', got) →
    req.x % 4 = 0 → req.y % 4 = 0 →
    got.x % 4 = 0 ∧ got.y % 4 = 0 ∧ alist_find got grid = none ∧
    ∀ c, alist_find c grid' = if in_block got c then some node else alist_find c grid := by
  induction fuel with
  | zero =>
    intro gd grid node req grid' got h
    exact absurd h (by simp [reserve_spot_in_grid])
  | succ n ih =>
    intro gd grid node req grid' got h hx hy
    simp only [reserve_spot_in_grid] at h
    by_cases hocc : (alist_find req grid).isSome
    · rw [if_pos hocc] at h
      cases gd
      · exact ih _ _ _ _ _ _ h hx (by dsimp only; omega)
      · exact ih _ _ _ _ _ _ h (by dsimp only; omega) hy
    · rw [if_neg hocc] at h
      injection h with h
      injection h with h1 h2
      subst h1
      subst h2
      refine ⟨hx, hy, Option.not_isSome_iff_eq_none.mp hocc, fun c => ?_⟩
      exact find_reserve_block grid node req c

theorem origin_in_own_block (gc : GridCoord) : in_block gc gc :=
  ⟨le_refl _, by omega, le_refl _, by omega⟩

theorem aligned_blocks_disjoint (a b : GridCoord)
    (hax : a.x % 4 = 0) (hay : a.y % 4 = 0) (hbx : b.x % 4 = 0) (hby : b.y % 4 = 0)
    (hne : a ≠ b) (c : GridCoord) (hca : in_block a c) (hcb : in_block b c) : False := by
  apply hne
  obtain ⟨ax, ay⟩ := a
  obtain ⟨bx, by'⟩ := b
  obtain ⟨a1, a2, a3, a4⟩ := hca
  obtain ⟨b1, b2, b3, b4⟩ := hcb
  simp only [GridCoord.mk.injEq]
  dsimp only at *
  constructor <;> omega

theorem place_ok_reserve (g : PGraph) (st : PlaceState) (hok : place_ok g st)
    (node : Nat) (hnode_lt : node < g.num_nodes)
    (hnode : st.coords.getD node none = none)
    (fuel : Nat) (req : GridCoord) (hreqx : req.x % 4 = 0) (hreqy : req.y % 4 = 0)
    (grid' : Grid) (got : GridCoord)
    (hres : reserve_spot_in_grid fuel g.graph_direction st.grid node req = some (grid', got))
    (levels' : List Nat) (hlev : ∀ v ∈ levels', v % 4 = 0) :
    place_ok g ⟨grid', st.coords.set node (some got), levels'⟩ := by
  obtain ⟨⟨inv1, inv2⟩, hlen, _⟩ := hok
  obtain ⟨hgx, hgy, hfresh, hchar⟩ :=
    reserve_spot_spec fuel _ _ _ _ _ _ hres hreqx hreqy
  have hgot_free : ∀ i gc, st.coords.getD i none = some gc → ¬ in_block gc got := by
    intro i gc hi hblk
    have hsome := (inv2 i gc hi).2.2 got hblk
    rw [hsome] at hfresh
    cases hfresh
  have hnode_len : node < st.coords.length := by omega
  refine ⟨⟨?_, ?_⟩, by simpa using hlen, hlev⟩
  · intro c v hv
    dsimp only at hv
    rw [hchar c] at hv
    by_cases hb : in_block got c
    · rw [if_pos hb] at hv
      injection hv with hv
      subst hv
      refine ⟨got, ?_, hb⟩
      dsimp only
      rw [getD_set_self _ _ _ _ hnode_len]
    · rw [if_neg hb] at hv
      obtain ⟨gc, hgc, hblk⟩ := inv1 c v hv
      have hv_ne : v ≠ node := by
        intro h
        rw [h, hnode] at hgc
        cases hgc
      refine ⟨gc, ?_, hblk⟩
      dsimp only
      rw [getD_set_ne _ _ _ _ _ (fun h => hv_ne h.symm)]
      exact hgc
  · intro i gc hi
    dsimp only at hi
    by_cases hin : i = node
    · subst hin
      rw [getD_set_self _ _ _ _ hnode_len] at hi
      injection hi with hi
      subst hi
      refine ⟨hgx, hgy, fun c hc => ?_⟩
      dsimp only
      rw [hchar c, if_pos hc]
    · rw [getD_set_ne _ _ _ _ _ (fun h => hin h.symm)] at hi
      obtain ⟨h1, h2, h3⟩ := inv2 i gc hi
      refine ⟨h1, h2, fun c hc => ?_⟩
      have hne_gc : gc ≠ got := by
        intro h
        exact hgot_free i gc hi (h ▸ origin_in_own_block gc)
      dsimp only
      rw [hchar c,
        if_neg (fun hbg => aligned_blocks_disjoint gc got h1 h2 hgx hgy hne_gc c hc hbg),
        h3 c hc]

theorem level_get_mod4 (g : PGraph) (st : PlaceState) (hok : place_ok g st)
    (idx : Int) (hp : Nat) (h : level_get st.levels idx = some hp) : hp % 4 = 0 := by
  rw [level_get] at h
  split at h
  · next hcond =>
    injection h with h
    subst h
    refine hok.2.2 _ ?_
    rw [List.getD_eq_getElem _ _ hcond.2]
    exact List.getElem_mem _
  · cases h

theorem level_set_mod4 (g : PGraph) (st : PlaceState) (hok : place_ok g st)
    (idx : Int) (v : Nat) (hv : v % 4 = 0) (levels' : List Nat)
    (h : level_set st.levels idx v = some levels') : ∀ w ∈ levels', w % 4 = 0 := by
  rw [level_set] at h
  split at h
  · injection h with h
    subst h
    intro w hw
    rcases List.mem_or_eq_of_mem_set hw with hmem | rfl
    · exact hok.2.2 _ hmem
    · exact hv
  · cases h

theorem place_root_step_ok (g : PGraph) (rfuel : Nat) (lvl : Int)
    (hlvl : lvl % 4 = 0) (st st' : PlaceState) (hok : place_ok g st)
    (node : Nat) (hlt : node < g.num_nodes)
    (hnode : st.coords.getD node none = none)
    (h : place_root_step rfuel g lvl st node = some st') :
    place_ok g st' ∧
    ∀ m, m ≠ node → st'.coords.getD m none = st.coords.getD m none := by
  rw [place_root_step] at h
  cases h1 : level_get st.levels lvl with
  | none => rw [h1] at h; cases h
  | some hp =>
    rw [h1] at h
    simp only [Option.bind_eq_bind, Option.some_bind] at h
    cases h2 : reserve_spot_in_grid rfuel g.graph_direction st.grid node
        (match g.graph_direction with
          | .LR => (⟨lvl, (hp : Int)⟩ : GridCoord)
          | .TD => ⟨(hp : Int), lvl⟩) with
    | none => rw [h2] at h; cases h
    | some r =>
      rw [h2] at h
      simp only [Option.bind_eq_bind, Option.some_bind] at h
      cases h3 : level_set st.levels lvl (hp + 4) with
      | none => rw [h3] at h; cases h
      | some levels' =>
        rw [h3] at h
        simp only [Option.bind_eq_bind, Option.some_bind, Option.pure_def, Option.some.injEq] at h
        subst h
        have hp4 := level_get_mod4 g st hok lvl hp h1
        have hreq : (match g.graph_direction with
            | GraphDirection.LR => (⟨lvl, (hp : Int)⟩ : GridCoord)
            | GraphDirection.TD => ⟨(hp : Int), lvl⟩).x % 4 = 0 ∧
          (match g.graph_direction with
            | GraphDirection.LR => (⟨lvl, (hp : Int)⟩ : GridCoord)
            | GraphDirection.TD => ⟨(hp : Int), lvl⟩).y % 4 = 0 := by
          cases g.graph_direction <;> constructor <;> simp <;> omega
        refine ⟨place_ok_reserve g st hok node hlt hnode rfuel _ hreq.1 hreq.2
          r.1 r.2 (by rw [← h2]) levels'
          (level_set_mod4 g st hok lvl (hp + 4) (by omega) levels' h3), ?_⟩
        intro m hm
        simp only
        rw [getD_set_ne _ _ _ _ _ (fun hh => hm hh.symm)]

theorem place_roots_fold_ok (g : PGraph) (rfuel : Nat) (lvl : Int)
    (hlvl : lvl % 4 = 0) (nodes : List Nat) :
    ∀ st st', place_ok g st →
    nodes.Nodup → (∀ n ∈ nodes, n < g.num_nodes) →
    (∀ n ∈ nodes, st.coords.getD n none = none) →
    nodes.foldlM (place_root_step rfuel g lvl) st = some st' →
    place_ok g st' ∧
    ∀ m, m ∉ nodes → st'.coords.getD m none = st.coords.getD m none := by
  induction nodes with
  | nil =>
    intro st st' hok _ _ _ h
    cases h
    exact ⟨hok, fun m _ => rfl⟩
  | cons node rest ih =>
    intro st st' hok hnd hbound hunpl h
    rw [List.foldlM_cons] at h
    cases h1 : place_root_step rfuel g lvl st node with
    | none => rw [h1] at h; cases h
    | some st1 =>
      rw [h1] at h
      simp only [Option.bind_eq_bind, Option.some_bind] at h
      obtain ⟨hok1, hunch1⟩ := place_root_step_ok g rfuel lvl hlvl st st1 hok node
        (hbound node (List.mem_cons_self _ _))
        (hunpl node (List.mem_cons_self _ _)) h1
      have hrest_unpl : ∀ n ∈ rest, st1.coords.getD n none = none := by
        intro n hn
        have hne : n ≠ node := fun heq => (List.nodup_cons.mp hnd).1 (heq ▸ hn)
        rw [hunch1 n hne]
        exact hunpl n (List.mem_cons_of_mem _ hn)
      obtain ⟨hok', hunch'⟩ := ih st1 st' hok1 (List.nodup_cons.mp hnd).2
        (fun n hn => hbound n (List.mem_cons_of_mem _ hn)) hrest_unpl h
      refine ⟨hok', fun m hm => ?_⟩
      rw [hunch' m (fun hh => hm (List.mem_cons_of_mem _ hh)),
        hunch1 m (fun hh => hm (hh ▸ List.mem_cons_self _ _))]

theorem place_child_step_ok (g : PGraph) (rfuel : Nat) (child_level : Int)
    (hcl : child_level % 4 = 0) (st st' : PlaceState) (hok : place_ok g st)
    (child : Nat) (hlt : child < g.num_nodes)
    (h : place_child_step rfuel g child_level st child = some st') :
    place_ok g st' := by
  rw [place_child_step] at h
  by_cases hplaced : (st.coords.getD child none).isSome
  · rw [if_pos hplaced] at h
    cases h
    exact hok
  · rw [if_neg hplaced] at h
    cases h1 : level_get st.levels child_level with
    | none => rw [h1] at h; cases h
    | some hp =>
      rw [h1] at h
      simp only [Option.bind_eq_bind, Option.some_bind] at h
      cases h2 : reserve_spot_in_grid rfuel g.graph_direction st.grid child
          (match g.graph_direction with
            | .LR => (⟨child_level, (hp : Int)⟩ : GridCoord)
            | .TD => ⟨(hp : Int), child_level⟩) with
      | none => rw [h2] at h; cases h
      | some r =>
        rw [h2] at h
        simp only [Option.bind_eq_bind, Option.some_bind] at h
        cases h3 : level_set st.levels child_level (hp + 4) with
        | none => rw [h3] at h; cases h
        | some levels' =>
          rw [h3] at h
          simp only [Option.bind_eq_bind, Option.some_bind, Option.pure_def, Option.some.injEq] at h
          subst h
          have hp4 := level_get_mod4 g st hok child_level hp h1
          have hreq : (match g.graph_direction with
              | GraphDirection.LR => (⟨child_level, (hp : Int)⟩ : GridCoord)
              | GraphDirection.TD => ⟨(hp : Int), child_level⟩).x % 4 = 0 ∧
            (match g.graph_direction with
              | GraphDirection.LR => (⟨child_level, (hp : Int)⟩ : GridCoord)
              | GraphDirection.TD => ⟨(hp : Int), child_level⟩).y % 4 = 0 := by
            cases g.graph_direction <;> constructor <;> simp <;> omega
          exact place_ok_reserve g st hok child hlt
            (Option.not_isSome_iff_eq_none.mp hplaced) rfuel _ hreq.1 hreq.2
            r.1 r.2 (by rw [← h2]) levels'
            (level_set_mod4 g st hok child_level (hp + 4) (by omega) levels' h3)

theorem place_children_fold_ok (g : PGraph) (rfuel : Nat) (child_level : Int)
    (hcl : child_level % 4 = 0) (children : List Nat)
    (hbound : ∀ c ∈ children, c < g.num_nodes) :
    ∀ st st', place_ok g st →
    children.foldlM (place_child_step rfuel g child_level) st = some st' →
    place_ok g st' := by
  induction children with
  | nil =>
    intro st st' hok h
    cases h
    exact hok
  | cons child rest ih =>
    intro st st' hok h
    rw [List.foldlM_cons] at h
    cases h1 : place_child_step rfuel g child_level st child with
    | none => rw [h1] at h; cases h
    | some st1 =>
      rw [h1] at h
      simp only [Option.bind_eq_bind, Option.some_bind] at h
      exact ih (fun c hc => hbound c (List.mem_cons_of_mem _ hc)) st1 st'
        (place_child_step_ok g rfuel child_level hcl st st1 hok child
          (hbound child (List.mem_cons_self _ _)) h1) h

theorem get_children_bound (g : PGraph)
    (hedges : ∀ e ∈ g.edges, e.2 < g.num_nodes) (i : Nat) :
    ∀ c ∈ get_children g i, c < g.num_nodes := by
  intro c hc
  simp only [get_children, List.mem_map, List.mem_filter] at hc
  obtain ⟨e, ⟨he, _⟩, rfl⟩ := hc
  exact hedges e he

theorem place_children_of_ok (g : PGraph) (rfuel : Nat)
    (hedges : ∀ e ∈ g.edges, e.2 < g.num_nodes)
    (st st' : PlaceState) (hok : place_ok g st) (i : Nat)
    (h : place_children_of rfuel g st i = some st') : place_ok g st' := by
  rw [place_children_of] at h
  cases h1 : st.coords.getD i none with
  | none => rw [h1] at h; cases h
  | some gc =>
    rw [h1] at h
    simp only [Option.bind_eq_bind, Option.some_bind] at h
    cases h2 : level_get st.levels
        ((match g.graph_direction with | .LR => gc.x | .TD => gc.y) + 4) with
    | none => rw [h2] at h; cases h
    | some hp0 =>
      rw [h2] at h
      simp only [Option.bind_eq_bind, Option.some_bind] at h
      have hgc4 := (hok.1.2 i gc h1).1
      have hgc4y := (hok.1.2 i gc h1).2.1
      refine place_children_fold_ok g rfuel _ ?_ (get_children g i)
        (get_children_bound g hedges i) st st' hok h
      cases g.graph_direction <;> simp only <;> omega

theorem place_outer_fold_ok (g : PGraph) (rfuel : Nat)
    (hedges : ∀ e ∈ g.edges, e.2 < g.num_nodes) (idxs : List Nat) :
    ∀ st st', place_ok g st →
    idxs.foldlM (place_children_of rfuel g) st = some st' → place_ok g st' := by
  induction idxs with
  | nil =>
    intro st st' hok h
    cases h
    exact hok
  | cons i rest ih =>
    intro st st' hok h
    rw [List.foldlM_cons] at h
    cases h1 : place_children_of rfuel g st i with
    | none => rw [h1] at h; cases h
    | some st1 =>
      rw [h1] at h
      simp only [Option.bind_eq_bind, Option.some_bind] at h
      exact ih st1 st' (place_children_of_ok g rfuel hedges st st1 hok i h1) h

theorem replicate_none_getD (k i : Nat) :
    (List.replicate k (none : Option GridCoord)).getD i none = none := by
  by_cases h : i < k
  · rw [List.getD_eq_getElem _ _ (by simpa using h)]
    simp
  · exact List.getD_eq_default _ _ (by simpa using h)

theorem find_roots_fold_inv (g : PGraph) (l : List Nat) (n : Nat)
    (hl : ∀ i ∈ l, i < n) :
    ∀ found roots, roots.Nodup → (∀ r ∈ roots, r ∈ found) → (∀ r ∈ roots, r < n) →
    (l.foldl (fun (st : List Nat × List Nat) i =>
      (st.1 ++ [i] ++ get_children g i,
        if i ∈ st.1 then st.2 else st.2 ++ [i])) (found, roots)).2.Nodup ∧
    ∀ r ∈ (l.foldl (fun (st : List Nat × List Nat) i =>
      (st.1 ++ [i] ++ get_children g i,
        if i ∈ st.1 then st.2 else st.2 ++ [i])) (found, roots)).2, r < n := by
  induction l with
  | nil =>
    intro found roots h1 _ h3
    exact ⟨h1, h3⟩
  | cons i rest ih =>
    intro found roots h1 h2 h3
    rw [List.foldl_cons]
    by_cases hmem : i ∈ found
    · simp only [if_pos hmem]
      exact ih (fun j hj => hl j (List.mem_cons_of_mem _ hj))
        (found ++ [i] ++ get_children g i) roots h1
        (fun r hr => by simp [h2 r hr]) h3
    · simp only [if_neg hmem]
      refine ih (fun j hj => hl j (List.mem_cons_of_mem _ hj))
        (found ++ [i] ++ get_children g i) (roots ++ [i]) ?_ ?_ ?_
      · rw [List.nodup_append]
        refine ⟨h1, List.nodup_singleton i, ?_⟩
        intro a ha hb
        simp only [List.mem_singleton] at hb
        subst hb
        exact hmem (h2 a ha)
      · intro r hr
        rcases List.mem_append.mp hr with hr | hr
        · simp [h2 r hr]
        · simp only [List.mem_singleton] at hr
          subst hr
          simp
      · intro r hr
        rcases List.mem_append.mp hr with hr | hr
        · exact h3 r hr
        · simp only [List.mem_singleton] at hr
          subst hr
          exact hl _ (List.mem_cons_self _ _)

theorem find_roots_nodup (g : PGraph) :
    (find_roots g).Nodup ∧ ∀ r ∈ find_roots g, r < g.num_nodes := by
  have := find_roots_fold_inv g (List.range g.num_nodes) g.num_nodes
    (fun i hi => List.mem_range.mp hi) [] [] List.nodup_nil
    (fun r hr => absurd hr (List.not_mem_nil r)) (fun r hr => absurd hr (List.not_mem_nil r))
  exact this

theorem place_ok_conclusion (g : PGraph) (st : PlaceState) (hok : place_ok g st) :
    (∀ c v, alist_find c st.grid = some v →
      ∃ gc, st.coords.getD v none = some gc ∧ in_block gc c) ∧
    (∀ i gc c, st.coords.getD i none = some gc → in_block gc c →
      alist_find c st.grid = some i) ∧
    (∀ i j gci gcj, st.coords.getD i none = some gci →
      st.coords.getD j none = some gcj → i ≠ j →
      ∀ c, ¬(in_block gci c ∧ in_block gcj c)) := by
  obtain ⟨⟨inv1, inv2⟩, _, _⟩ := hok
  refine ⟨inv1, fun i gc c hi hc => (inv2 i gc hi).2.2 c hc, ?_⟩
  rintro i j gci gcj hi hj hij c ⟨hci, hcj⟩
  have h1 := (inv2 i gci hi).2.2 c hci
  have h2 := (inv2 j gcj hj).2.2 c hcj
  rw [h1] at h2
  injection h2 with h2
  exact hij h2

/-- C4: after a successful run of the placement phase (on any graph
whose edges resolve to node indices; in particular on any acyclic edge
set), every binding of the occupancy map lies in the block of its
recorded owner, every placed node owns its whole 3x3 block in the map,
and the blocks of distinct placed nodes are pairwise disjoint — every
occupied cell belongs to exactly one node. -/
theorem C4_theorem (g : PGraph) (fuel : Nat)
    (hedges : ∀ e ∈ g.edges, e.1 < g.num_nodes ∧ e.2 < g.num_nodes)
    (_hacyc : Acyclic g.edges)
    (st : PlaceState) (hrun : place_phase fuel g = some st) :
    (∀ c v, alist_find c st.grid = some v →
      ∃ gc, st.coords.getD v none = some gc ∧ in_block gc c) ∧
    (∀ i gc c, st.coords.getD i none = some gc → in_block gc c →
      alist_find c st.grid = some i) ∧
    (∀ i j gci gcj, st.coords.getD i none = some gci →
      st.coords.getD j none = some gcj → i ≠ j →
      ∀ c, ¬(in_block gci c ∧ in_block gcj c)) := by
  rw [place_phase] at hrun
  simp only [Option.bind_eq_bind] at hrun
  obtain ⟨hroots_nd, hroots_lt⟩ := find_roots_nodup g
  have hst0 : place_ok g ⟨[], List.replicate g.num_nodes none, List.replicate 100 0⟩ := by
    refine ⟨⟨fun c v hv => Option.noConfusion hv, fun i gc hi => ?_⟩, by simp, ?_⟩
    · rw [replicate_none_getD] at hi
      exact Option.noConfusion hi
    · intro v hv
      rw [List.eq_of_mem_replicate hv]
  have hext_nd : (external_root_nodes g).Nodup := by
    rw [external_root_nodes]
    split
    · exact hroots_nd.filter _
    · exact hroots_nd
  have hext_lt : ∀ n ∈ external_root_nodes g, n < g.num_nodes := by
    rw [external_root_nodes]
    split
    · exact fun n hn => hroots_lt n (List.mem_of_mem_filter hn)
    · exact hroots_lt
  have hsub_nd : (subgraph_root_nodes g).Nodup := by
    rw [subgraph_root_nodes]
    split
    · exact hroots_nd.filter _
    · exact List.nodup_nil
  have hsub_lt : ∀ n ∈ subgraph_root_nodes g, n < g.num_nodes := by
    rw [subgraph_root_nodes]
    split
    · exact fun n hn => hroots_lt n (List.mem_of_mem_filter hn)
    · exact fun n hn => absurd hn (List.not_mem_nil n)
  have hdisj : ∀ n ∈ subgraph_root_nodes g, n ∉ external_root_nodes g := by
    rw [subgraph_root_nodes, external_root_nodes]
    split
    · intro n hn hne
      have h1 := (List.mem_filter.mp hn).2
      have h2 := (List.mem_filter.mp hne).2
      simp only [decide_eq_true_eq] at h1 h2
      simp [h1] at h2
    · exact fun n hn => absurd hn (List.not_mem_nil n)
  cases hA : (external_root_nodes g).foldlM (place_root_step fuel g 0)
      ⟨[], List.replicate g.num_nodes none, List.replicate 100 0⟩ with
  | none => rw [hA] at hrun; cases hrun
  | some st1 =>
    rw [hA] at hrun
    simp only [Option.bind_eq_bind, Option.some_bind] at hrun
    obtain ⟨hok1, hunch1⟩ := place_roots_fold_ok g fuel 0 (by decide)
      (external_root_nodes g) _ st1 hst0 hext_nd hext_lt
      (fun n _ => replicate_none_getD _ _) hA
    by_cases hsep : placement_should_separate g ∧ (subgraph_root_nodes g).length > 0
    · rw [if_pos hsep] at hrun
      cases hB : (subgraph_root_nodes g).foldlM (place_root_step fuel g 4) st1 with
      | none => rw [hB] at hrun; cases hrun
      | some st2 =>
        rw [hB] at hrun
        simp only [Option.bind_eq_bind, Option.some_bind] at hrun
        have hsub_unpl : ∀ n ∈ subgraph_root_nodes g, st1.coords.getD n none = none := by
          intro n hn
          rw [hunch1 n (hdisj n hn)]
          exact replicate_none_getD _ _
        obtain ⟨hok2, _⟩ := place_roots_fold_ok g fuel 4 (by decide)
          (subgraph_root_nodes g) st1 st2 hok1 hsub_nd hsub_lt hsub_unpl hB
        exact place_ok_conclusion g st
          (place_outer_fold_ok g fuel (fun e he => (hedges e he).2) _ st2 st hok2 hrun)
    · rw [if_neg hsep] at hrun
      simp only [Option.pure_def, Option.some_bind] at hrun
      exact place_ok_conclusion g st
        (place_outer_fold_ok g fuel (fun e he => (hedges e he).2) _ st1 st hok1 hrun)

/-- C4 witness: the placement theorem applied to the two-node chain
`demo_pgraph`, whose placement run succeeds with fuel 5. -/
theorem C4_witness :
    (∀ c v, alist_find c demo_state.grid = some v →
      ∃ gc, demo_state.coords.getD v none = some gc ∧ in_block gc c) ∧
    (∀ i gc c, demo_state.coords.getD i none = some gc → in_block gc c →
      alist_find c demo_state.grid = some i) ∧
    (∀ i j gci gcj, demo_state.coords.getD i none = some gci →
      demo_state.coords.getD j none = some gcj → i ≠ j →
      ∀ c, ¬(in_block gci c ∧ in_block gcj c)) :=
  C4_theorem demo_pgraph 5 (by decide)
    (by
      intro i h
      have key : ∀ a b : Nat, Relation.TransGen (edge_rel demo_pgraph.edges) a b →
          a = 0 ∧ b = 1 := by
        intro a b hab
        induction hab with
        | single hs =>
          simpa [edge_rel, demo_pgraph, Prod.ext_iff] using hs
        | tail h1 hs ih =>
          have hb := by simpa [edge_rel, demo_pgraph, Prod.ext_iff] using hs
          obtain ⟨hb1, hb2⟩ := hb
          obtain ⟨ih1, ih2⟩ := ih
          omega
      have := key i i h
      omega)
    demo_state rfl

theorem foldl_id {α β : Type} (l : List β) (f : α → β → α)
    (h : ∀ a, ∀ b ∈ l, f a b = a) : ∀ acc, l.foldl f acc = acc := by
  induction l with
  | nil => intro acc; rfl
  | cons b t ih =>
    intro acc
    rw [List.foldl_cons, h acc b (List.mem_cons_self _ _)]
    exact ih (fun a b hb => h a b (List.mem_cons_of_mem _ hb)) acc

theorem foldl_max_eq {l : List Canvas} {v : Int} (f : Canvas → Int)
    (h : ∀ o ∈ l, f o ≤ v) : l.foldl (fun m o => max m (f o)) v = v := by
  induction l with
  | nil => rfl
  | cons o t ih =>
    rw [List.foldl_cons, max_eq_left (h o (List.mem_cons_self _ _))]
    exact ih (fun q hq => h q (List.mem_cons_of_mem _ hq))

theorem canvas_get_mk_canvas (w h : Int) (x y : Nat) :
    canvas_get (mk_canvas w h) x y = ' ' := by
  unfold canvas_get mk_canvas
  by_cases hx : x < (w + 1).toNat
  · have h1 : (List.replicate (w + 1).toNat (List.replicate (h + 1).toNat ' ')).getD x []
        = List.replicate (h + 1).toNat ' ' := by
      rw [List.getD_eq_getElem _ _ (by rw [List.length_replicate]; exact hx)]
      simp
    rw [h1]
    by_cases hy : y < (h + 1).toNat
    · rw [List.getD_eq_getElem _ _ (by rw [List.length_replicate]; exact hy)]
      simp
    · exact List.getD_eq_default _ _ (by rw [List.length_replicate]; omega)
  · have h1 : (List.replicate (w + 1).toNat (List.replicate (h + 1).toNat ' ')).getD x []
        = [] := List.getD_eq_default _ _ (by rw [List.length_replicate]; omega)
    rw [h1]
    rfl

theorem copy_canvas_blank (c : Canvas) (x y : Nat) :
    canvas_get (copy_canvas c) x y = ' ' :=
  canvas_get_mk_canvas _ _ x y

theorem copy_canvas_size (c : Canvas) (hne : c ≠ []) :
    get_canvas_size (copy_canvas c) = get_canvas_size c := by
  obtain ⟨c0, tl, rfl⟩ := List.exists_cons_of_ne_nil hne
  unfold copy_canvas mk_canvas get_canvas_size
  simp only [List.head?_cons, List.length_cons]
  have h1 : ((((c0 :: tl).length : Int) - 1) + 1).toNat = tl.length + 1 := by
    simp only [List.length_cons]
    omega
  rw [List.length_cons] at h1
  rw [h1]
  have h2 : 0 < tl.length + 1 := Nat.succ_pos _
  rw [List.head?_replicate]
  simp only [if_neg (Nat.pos_iff_ne_zero.mp h2)]
  simp only [Prod.mk.injEq, List.length_replicate]
  exact ⟨trivial, by omega⟩

/-- The nested copy loop of `merge_canvases`, restricted to the base's
own size, reproduces the base exactly. -/
theorem merged_base_copy (base : Canvas) (hrect : rectangular base) :
    ((List.range ((get_canvas_size base).1 + 1).toNat).map (fun x =>
      (List.range ((get_canvas_size base).2 + 1).toNat).map (fun y =>
        if x < base.length ∧ y < (base.headD []).length then canvas_get base x y
        else ' '))) = base := by
  obtain ⟨hne, hcols⟩ := hrect
  obtain ⟨c0, tl, rfl⟩ := List.exists_cons_of_ne_nil hne
  have hW : ((get_canvas_size (c0 :: tl)).1 + 1).toNat = (c0 :: tl).length := by
    simp only [get_canvas_size]
    omega
  have hH : ((get_canvas_size (c0 :: tl)).2 + 1).toNat = c0.length := by
    simp only [get_canvas_size, List.head?_cons]
    omega
  rw [hW, hH]
  apply List.ext_getElem
  · simp
  · intro x hx1 hx2
    simp only [List.getElem_map, List.getElem_range]
    apply List.ext_getElem
    · simp only [List.length_map, List.length_range]
      exact (hcols _ (List.getElem_mem hx2)).symm
    · intro y hy1 hy2
      have hxlen : x < (c0 :: tl).length := hx2
      have hylen : y < c0.length := by
        rw [hcols _ (List.getElem_mem hx2)] at hy2
        exact hy2
      simp only [List.getElem_map, List.getElem_range]
      rw [if_pos ⟨hxlen, hylen⟩]
      unfold canvas_get
      rw [List.getD_eq_getElem _ _ hxlen, List.getD_eq_getElem _ _ hy2]

/-- Merging onto a rectangular base, at offset zero, overlays that are
all-blank copies of the base leaves the base unchanged. -/
theorem merge_canvases_blank (base : Canvas) (hrect : rectangular base)
    (use_ascii : Bool) (overlays : List Canvas)
    (hov : ∀ o ∈ overlays, o = copy_canvas base) :
    merge_canvases base ⟨0, 0⟩ use_ascii overlays = base := by
  unfold merge_canvases
  have hsz : ∀ o ∈ overlays, get_canvas_size o = get_canvas_size base := by
    intro o ho
    rw [hov o ho]
    exact copy_canvas_size base hrect.1
  have hmx : overlays.foldl (fun m o => max m ((get_canvas_size o).1 + (0 : Int)))
      (get_canvas_size base).1 = (get_canvas_size base).1 := by
    refine foldl_max_eq _ (fun o ho => ?_)
    rw [hsz o ho]
    omega
  have hmy : overlays.foldl (fun m o => max m ((get_canvas_size o).2 + (0 : Int)))
      (get_canvas_size base).2 = (get_canvas_size base).2 := by
    refine foldl_max_eq _ (fun o ho => ?_)
    rw [hsz o ho]
    omega
  simp only [hmx, hmy]
  rw [merged_base_copy base hrect]
  refine foldl_id overlays _ (fun acc o ho => ?_) base
  refine foldl_id _ _ (fun acc2 x hx => ?_) acc
  refine foldl_id _ _ (fun acc3 y hy => ?_) acc2
  have hblank : canvas_get o x y = ' ' := by
    rw [hov o ho]
    exact copy_canvas_blank base x y
  simp only [hblank]
  rw [if_neg (by simp)]

/-- C8: an edge whose computed path is empty is drawn as a no-op: all
five layer canvases returned by `draw_arrow` are the all-blank copy of
the graph canvas (same size, every cell the space character), and
merging them onto the graph canvas at offset zero leaves every cell
unchanged. -/
theorem C8_theorem (g : AGraph) (edge : AEdge) (hpath : edge.path = [])
    (hrect : rectangular g.canvas) :
    draw_arrow g edge = (copy_canvas g.canvas, copy_canvas g.canvas,
      copy_canvas g.canvas, copy_canvas g.canvas, copy_canvas g.canvas) ∧
    (∀ x y : Nat, canvas_get (copy_canvas g.canvas) x y = ' ') ∧
    get_canvas_size (copy_canvas g.canvas) = get_canvas_size g.canvas ∧
    merge_canvases g.canvas ⟨0, 0⟩ g.use_ascii
      [copy_canvas g.canvas, copy_canvas g.canvas, copy_canvas g.canvas,
        copy_canvas g.canvas, copy_canvas g.canvas] = g.canvas := by
  refine ⟨?_, fun x y => copy_canvas_blank g.canvas x y,
    copy_canvas_size g.canvas hrect.1, ?_⟩
  · simp [draw_arrow, hpath]
  · refine merge_canvases_blank g.canvas hrect g.use_ascii _ (fun o ho => ?_)
    simp only [List.mem_cons, List.not_mem_nil, or_false] at ho
    rcases ho with h | h | h | h | h <;> exact h

/-- C8 witness: a one-cell canvas and an edge with the empty path. -/
theorem C8_witness :
    draw_arrow ⟨[], [], [], [['a']], false, .TD, 0, 0⟩ ⟨[], [], []⟩ =
      (copy_canvas [['a']], copy_canvas [['a']], copy_canvas [['a']],
        copy_canvas [['a']], copy_canvas [['a']]) ∧
    (∀ x y : Nat, canvas_get (copy_canvas [['a']]) x y = ' ') ∧
    get_canvas_size (copy_canvas [['a']]) = get_canvas_size [['a']] ∧
    merge_canvases [['a']] ⟨0, 0⟩ false
      [copy_canvas [['a']], copy_canvas [['a']], copy_canvas [['a']],
        copy_canvas [['a']], copy_canvas [['a']]] = [['a']] :=
  C8_theorem ⟨[], [], [], [['a']], false, .TD, 0, 0⟩ ⟨[], [], []⟩ rfl
    ⟨by decide, by decide⟩

/-! ## Edge routing: comparison of the two candidate paths -/

/-- C7: when both the preferred and the alternative anchor pair admit a
path, `determine_path` keeps the simplified path with fewer waypoints,
and on a tie it keeps the preferred pair's path together with the
preferred start and end directions. -/
theorem C7_theorem (fuel : Nat) (grid : Grid) (gd : GraphDirection) (is_self : Bool)
    (a b : GridCoord) (pp ap : List GridCoord)
    (hpref : get_path fuel grid
        (grid_coord_direction a (determine_start_and_end_dir is_self a b gd).1)
        (grid_coord_direction b (determine_start_and_end_dir is_self a b gd).2.1) =
      .res (some pp))
    (halt : get_path fuel grid
        (grid_coord_direction a (determine_start_and_end_dir is_self a b gd).2.2.1)
        (grid_coord_direction b (determine_start_and_end_dir is_self a b gd).2.2.2) =
      .res (some ap)) :
    ((merge_path pp).length ≤ (merge_path ap).length →
      determine_path fuel grid gd is_self a b =
        .res (merge_path pp) (determine_start_and_end_dir is_self a b gd).1
          (determine_start_and_end_dir is_self a b gd).2.1) ∧
    ((merge_path ap).length < (merge_path pp).length →
      determine_path fuel grid gd is_self a b =
        .res (merge_path ap) (determine_start_and_end_dir is_self a b gd).2.2.1
          (determine_start_and_end_dir is_self a b gd).2.2.2) := by
  refine ⟨fun h => ?_, fun h => ?_⟩
  · simp only [determine_path, hpref, halt]
    rw [if_pos h]
  · simp only [determine_path, hpref, halt]
    rw [if_neg (Nat.not_le.mpr h)]

/-- C7 witness: two nodes at (0,0) and (4,4) on an empty occupancy map
in a top-down layout; both candidates give a 7-point path that
simplifies to 3 waypoints, and the tie keeps the preferred pair
(start right, end up). -/
theorem C7_witness :
    determine_path 60 [] .TD false ⟨0,0⟩ ⟨4,4⟩ =
      .res [⟨2,1⟩, ⟨5,1⟩, ⟨5,4⟩] ⟨2,1⟩ ⟨1,0⟩ :=
  (C7_theorem 60 [] .TD false ⟨0,0⟩ ⟨4,4⟩
      [⟨2,1⟩, ⟨3,1⟩, ⟨4,1⟩, ⟨5,1⟩, ⟨5,2⟩, ⟨5,3⟩, ⟨5,4⟩]
      [⟨1,2⟩, ⟨2,2⟩, ⟨3,2⟩, ⟨4,2⟩, ⟨4,3⟩, ⟨4,4⟩, ⟨4,5⟩]
      rfl rfl).1 (by decide)

/-! ## Edge routing: the untried alternative -/

/-- C1 (code bug): on `routing_gap_grid` the preferred anchor pair of
the edge from node 0 at (0,0) to node 1 at (4,4) (start (2,1), end
(5,4)) admits no path, and `determine_path` records the empty path with
the alternative directions without ever running the pathfinder on the
alternative anchors (1,2) -> (4,5) — although that query succeeds. -/
theorem C1_theorem :
    determine_path 60 routing_gap_grid .TD false ⟨0,0⟩ ⟨4,4⟩ =
      .res [] ⟨1,2⟩ ⟨0,1⟩ ∧
    get_path 60 routing_gap_grid ⟨1,2⟩ ⟨4,5⟩ =
      .res (some [⟨1,2⟩, ⟨1,3⟩, ⟨1,4⟩, ⟨1,5⟩, ⟨2,5⟩, ⟨3,5⟩, ⟨4,5⟩]) := by
  constructor <;> rfl
